import Mathlib

/-!
# Verification of the Verona tracing region collector (`src/rt/region/region_trace.h`)

A shallow embedding of `RegionTrace`: objects live in a heap indexed by `Nat`
addresses, the region metadata object (the header) is itself a heap cell, and
the two intrusive rings are the `next` / `next_not_root` pointer structures of
the C++ source.

The `Object` header API (`object.h`) is not part of the sources provided, so
its primitives are modelled from the specification (§3, §4.4, §4.5, §6):
the kind tag and the `next` link share one header slot, so re-initialising the
`next` link (`init_next`) resets the kind to `UNMARKED` (this is how the spec's
§4.4/§4.5 demotion of a prior iso to a regular interior node happens purely
through the ring-splice writes), and `set_region` on an iso stores the region
pointer in that same slot (invariant 1: the iso's `next` points at the header).
-/

namespace VeronaRT

/-- Object kind tag: `{ISO, UNMARKED, MARKED, SCC_PTR, RC, COWN}` (spec §3). -/
inductive Kind where
  | ISO
  | UNMARKED
  | MARKED
  | SCC_PTR
  | RC
  | COWN
deriving DecidableEq, Repr

/--
One heap cell. The first group of fields models the object header
(spec §3/§6): kind tag, `next` link, descriptor-derived flags
`needs_finaliser_ring` (`nfr`), `has_finaliser` (`hasFin`), the object size,
and the owned-pointer fields pushed by `trace`. The second group is only
meaningful when the cell is a `RegionTrace` metadata object: `next_not_root`
(`nnr`), `last_not_root` (`lnr`), `current_memory_used` (`cur`) and
`previous_memory_used` (`prevSc`).
-/
structure Obj where
  kind : Kind := Kind.UNMARKED
  next : Nat := 0
  nfr : Bool := false
  hasFin : Bool := false
  size : Nat := 0
  fields : List Nat := []
  nnr : Nat := 0
  lnr : Nat := 0
  cur : Nat := 0
  prevSc : Nat := 0
deriving DecidableEq, Repr

/-- The heap: a total map from addresses to cells. -/
def Heap : Type := Nat → Obj

/-- The null pointer used by the deferred-free list in `sweep_ring`. -/
def NULLPTR : Nat := 0

/-- Point update of one heap cell. -/
def updAt (h : Heap) (p : Nat) (f : Obj → Obj) : Heap :=
  Function.update h p (f (h p))

theorem updAt_apply (h : Heap) (p : Nat) (f : Obj → Obj) (q : Nat) :
    updAt h p f q = if q = p then f (h p) else h q := by
  unfold updAt
  exact Function.update_apply h p (f (h p)) q

/-- Modelled from the spec: `Object::init_next` (object.h is not in src).
Writes the ring link; since the kind tag lives in the same header slot
(§3, §4.4, §4.5: splicing a prior iso as interior demotes it), the kind is
re-initialised to `UNMARKED`. -/
def init_next (h : Heap) (p o : Nat) : Heap :=
  updAt h p fun x => { x with next := o, kind := Kind.UNMARKED }

/-- Modelled from the spec: `Object::set_next` (object.h is not in src).
Plain write of the ring link of an (unmarked) object or of the header. -/
def set_next (h : Heap) (p o : Nat) : Heap :=
  updAt h p fun x => { x with next := o }

/-- Modelled from the spec: `Object::init_iso` (object.h is not in src).
Sets the kind tag to `ISO`. -/
def init_iso (h : Heap) (p : Nat) : Heap :=
  updAt h p fun x => { x with kind := Kind.ISO }

/-- Modelled from the spec: `Object::set_region` (object.h is not in src).
The iso stores the region pointer in its `next` slot (invariant 1: the iso's
`next` points at the region header, and `get(o)` reads the region from it). -/
def set_region (h : Heap) (p r : Nat) : Heap :=
  updAt h p fun x => { x with next := r }

/-- Modelled from the spec: `Object::mark` — flips `UNMARKED` to `MARKED`. -/
def markObj (h : Heap) (p : Nat) : Heap :=
  updAt h p fun x => { x with kind := Kind.MARKED }

/-- Modelled from the spec: `Object::unmark` — flips `MARKED` to `UNMARKED`. -/
def unmarkObj (h : Heap) (p : Nat) : Heap :=
  updAt h p fun x => { x with kind := Kind.UNMARKED }

/-- Modelled from the spec: `Object::set_descriptor` — installs the
descriptor-derived attributes of a freshly allocated object. -/
structure Descriptor where
  size : Nat
  nfr : Bool
  hasFin : Bool
deriving DecidableEq, Repr

/-- Install a descriptor on a cell (size and finaliser flags). -/
def set_descriptor (h : Heap) (p : Nat) (d : Descriptor) : Heap :=
  updAt h p fun x => { x with size := d.size, nfr := d.nfr, hasFin := d.hasFin }

/-- Mutator store: installs the owned-pointer fields of an object (the
payload writes that `trace` later enumerates; external to the collector). -/
def storeFields (h : Heap) (p : Nat) (fs : List Nat) : Heap :=
  updAt h p fun x => { x with fields := fs }

/-- `RegionTrace::use_memory`: `current_memory_used += size`. -/
def use_memory (h : Heap) (hdr : Nat) (s : Nat) : Heap :=
  updAt h hdr fun x => { x with cur := x.cur + s }

/-- Write the header's `next_not_root`. -/
def set_nnr (h : Heap) (hdr v : Nat) : Heap :=
  updAt h hdr fun x => { x with nnr := v }

/-- Write the header's `last_not_root`. -/
def set_lnr (h : Heap) (hdr v : Nat) : Heap :=
  updAt h hdr fun x => { x with lnr := v }

/-- Reset the header's `current_memory_used` to zero. -/
def reset_cur (h : Heap) (hdr : Nat) : Heap :=
  updAt h hdr fun x => { x with cur := 0 }

/-- Add to the header's `current_memory_used` (ring merge). -/
def add_cur (h : Heap) (hdr v : Nat) : Heap :=
  updAt h hdr fun x => { x with cur := x.cur + v }

/-- Write the header's `previous_memory_used` sizeclass. -/
def set_prevSc (h : Heap) (hdr v : Nat) : Heap :=
  updAt h hdr fun x => { x with prevSc := v }

/-- Modelled from the spec: snmalloc's `sizeclass_to_size` (the allocator's
sizeclass facility is external, §6); modelled as powers of two. -/
def sizeclass_to_size (c : Nat) : Nat := 2 ^ c

/-- Modelled from the spec: snmalloc's `size_to_sizeclass` (external, §6);
modelled as the matching ceiling logarithm. -/
def size_to_sizeclass (s : Nat) : Nat := Nat.clog 2 s

/--
`RegionTrace::append(hd, tl)`: splice the chain `hd..tl` into the ring whose
finaliser-need matches `hd`, right after the header — into the primary ring if
`hd` matches the current primary head, otherwise at `next_not_root`, also
updating `last_not_root` when the secondary ring was empty.
-/
def append (h : Heap) (hdr hd tl : Nat) : Heap :=
  let p := (h hdr).next
  if (h hd).nfr = (h p).nfr then
    let h1 := init_next h tl p
    set_next h1 hdr hd
  else
    let h1 := init_next h tl (h hdr).nnr
    let h2 := set_nnr h1 hdr hd
    if (h2 hdr).lnr = hdr then set_lnr h2 hdr tl
    else h2

/--
`RegionTrace::create`: allocate the header at `hdrId` and the iso at `oId`.
The `RegionTrace` constructor sets `next_not_root`/`last_not_root` to the
header itself, zeroes the counters and links the header to the iso
(`init_next(o)`); then the iso gets its descriptor, `init_iso` and
`set_region`, and the descriptor size is charged.
-/
def create (h : Heap) (hdrId oId : Nat) (d : Descriptor) : Heap :=
  let h1 := set_nnr h hdrId hdrId
  let h2 := set_lnr h1 hdrId hdrId
  let h3 := reset_cur h2 hdrId
  let h4 := set_prevSc h3 hdrId 0
  let h5 := init_next h4 hdrId oId
  let h6 := use_memory h5 hdrId d.size
  let h7 := set_descriptor h6 oId d
  let h8 := init_iso h7 oId
  set_region h8 oId hdrId

/--
`RegionTrace::alloc`: the region is `get(in)` — read from the iso `inId`'s
header slot — the fresh object `oId` gets its descriptor, is appended to the
appropriate ring, and its size is charged to the GC heuristics.
-/
def alloc (h : Heap) (inId oId : Nat) (d : Descriptor) : Heap :=
  let hdr := (h inId).next
  let h1 := set_descriptor h oId d
  let h2 := append h1 hdr oId oId
  use_memory h2 hdr d.size

/--
`RegionTrace::merge_internal(o, other)`: append the other region's primary
ring (with the other iso `o` as its tail), then the other secondary ring, sum
`current_memory_used`, and recompute `previous_memory_used` from the other
region's previous sizeclass added to itself.
-/
def merge_internal (h : Heap) (hdr o otherHdr : Nat) : Heap :=
  let head1 := (h otherHdr).next
  let h1 := if head1 ≠ otherHdr then append h hdr head1 o else h
  let head2 := (h1 otherHdr).nnr
  let h2 := if head2 ≠ otherHdr then append h1 hdr head2 ((h1 otherHdr).lnr) else h1
  let h3 := add_cur h2 hdr ((h2 otherHdr).cur)
  set_prevSc h3 hdr
    (size_to_sizeclass (sizeclass_to_size ((h3 otherHdr).prevSc) + sizeclass_to_size ((h3 otherHdr).prevSc)))

/--
`RegionTrace::merge(alloc, into, o)`: the receiving region is `get(into)`,
the donated region is `o->get_region()`; then `merge_internal`. The
`ExternalReferenceTable`/`RememberedSet` merges and the deallocation of the
other header are external to the ring structure and are not modelled.
-/
def merge (h : Heap) (into o : Nat) : Heap :=
  merge_internal h ((h into).next) o ((h o).next)

/--
`RegionTrace::swap_root_internal(oroot, nroot)`: if the finaliser-needs
differ, physically exchange the two rings (the old iso becomes the tail of
the new secondary ring, and the old secondary tail takes over the `oroot`
role); then, unless the two coincide, re-link so `nroot` sits in the last
cell before the header; finally re-kind `nroot` as ISO and install its region
pointer.
-/
def swap_root_internal (h : Heap) (hdr oroot0 nroot : Nat) : Heap :=
  let hswapped :=
    if (h oroot0).nfr ≠ (h nroot).nfr then
      let t := (h hdr).next
      let ha := set_next h hdr (h hdr).nnr
      let hb := set_nnr ha hdr t
      let hc := set_lnr hb hdr oroot0
      init_next hc oroot0 hdr
    else h
  let oroot := if (h oroot0).nfr ≠ (h nroot).nfr then (h hdr).lnr else oroot0
  let h2 :=
    if oroot ≠ nroot then
      let x := (hswapped hdr).next
      let y := (hswapped nroot).next
      let ha := init_next hswapped oroot x
      set_next ha hdr y
    else hswapped
  let h3 := init_iso h2 nroot
  set_region h3 nroot hdr

/-- `RegionTrace::swap_root(prev, next)`: the region is `get(prev)`. -/
def swap_root (h : Heap) (prev next : Nat) : Heap :=
  swap_root_internal h ((h prev).next) prev next

/-- Result of the mark phase: the heap, the remaining work list (empty when
the trace ran to completion within the given fuel), and the objects recorded
in the remembered-set mark (external `RememberedSet::mark`, modelled as a
list of the recorded objects). -/
structure MarkResult where
  heap : Heap
  stack : List Nat
  rsMarked : List Nat

/-- Modelled from the spec: `Object::immutable()` (§6 `root_and_class`) —
normalises an SCC-interior pointer to its SCC representative by chasing the
`next` links of `SCC_PTR` cells. -/
def immutableRoot (h : Heap) : Nat → Nat → Nat
  | 0, p => p
  | fuel + 1, p => if (h p).kind = Kind.SCC_PTR then immutableRoot h fuel ((h p).next) else p

/--
`RegionTrace::mark`'s work-list loop: pop a pointer and switch on its kind —
`ISO`/`MARKED` are skipped, `UNMARKED` is flipped to `MARKED` and its fields
are enqueued (`trace`), `SCC_PTR` is normalised to its SCC root and recorded
in the remembered-set mark, `RC`/`COWN` are recorded in the remembered-set
mark.
-/
def markLoop (h : Heap) : Nat → List Nat → List Nat → MarkResult
  | 0, stack, rs => ⟨h, stack, rs⟩
  | _ + 1, [], rs => ⟨h, [], rs⟩
  | fuel + 1, p :: rest, rs =>
    match (h p).kind with
    | Kind.ISO => markLoop h fuel rest rs
    | Kind.MARKED => markLoop h fuel rest rs
    | Kind.UNMARKED => markLoop (markObj h p) fuel ((h p).fields ++ rest) rs
    | Kind.SCC_PTR => markLoop h fuel rest (immutableRoot h fuel p :: rs)
    | Kind.RC => markLoop h fuel rest (p :: rs)
    | Kind.COWN => markLoop h fuel rest (p :: rs)

/-- `RegionTrace::mark(alloc, o, dfs, marked)`: seed the work list with the
iso's trace (`o->trace(dfs)`) and run the loop. -/
def mark (h : Heap) (o : Nat) (fuel : Nat) : MarkResult :=
  markLoop h fuel ((h o).fields) []

/-- Observable side effects of sweeping: finaliser invocations and
deallocations, in program order. -/
inductive Event where
  | finalise (p : Nat)
  | dealloc (p : Nat)
deriving DecidableEq, Repr

/-- The state threaded through `sweep_ring`'s traversal loop. -/
structure LoopSt where
  heap : Heap
  prev : Nat
  p : Nat
  gcl : Nat
  fstk : List Nat
  collect : List Nat
  events : List Event

/-- Modelled from the spec: `Object::find_iso_fields(o, f, collect)`
(object.h is not in src) — pushes the object's iso-valued fields onto the
`collect` stack (they identify sub-regions) and onto the field stack `f`. -/
def isoFields (h : Heap) (p : Nat) : List Nat :=
  (h p).fields.filter fun r => (h r).kind = Kind.ISO

/--
The traversal loop of `RegionTrace::sweep_ring`: walk the ring until the
header is reached again. `ISO` charges its size and terminates the ring;
`MARKED` is unmarked, charged and kept (becoming the `prev` cursor);
`UNMARKED` is unlinked (with the `next_not_root`/`last_not_root` special
cases of the secondary ring) and — in the finaliser ring — has its iso fields
collected, its finaliser run when present, and is pushed onto the deferred
`gc` list threaded through the `next` slots; in the non-finaliser ring it is
deallocated immediately. Any other kind is a fatal assertion in the source;
the model stops there.
-/
def sweepLoop (finRing inSec : Bool) (hdr : Nat) : Nat → LoopSt → LoopSt
  | 0, st => st
  | fuel + 1, st =>
    if st.p = hdr then st
    else
      match (st.heap st.p).kind with
      | Kind.ISO =>
        sweepLoop finRing inSec hdr fuel
          { st with heap := use_memory st.heap hdr ((st.heap st.p).size), p := hdr }
      | Kind.MARKED =>
        let h1 := use_memory st.heap hdr ((st.heap st.p).size)
        let h2 := unmarkObj h1 st.p
        sweepLoop finRing inSec hdr fuel
          { st with heap := h2, prev := st.p, p := (h2 st.p).next }
      | Kind.UNMARKED =>
        let q := (st.heap st.p).next
        let h1 := if finRing then set_next st.heap st.p st.gcl else st.heap
        let gcl1 := if finRing then st.p else st.gcl
        let f1 := if finRing then isoFields st.heap st.p ++ st.fstk else st.fstk
        let c1 := if finRing then isoFields st.heap st.p ++ st.collect else st.collect
        let ev1 :=
          if finRing then
            (if (st.heap st.p).hasFin then st.events ++ [Event.finalise st.p] else st.events)
          else st.events ++ [Event.dealloc st.p]
        let h2 :=
          if st.prev = hdr ∧ inSec then set_nnr h1 hdr q
          else set_next h1 st.prev q
        let h3 :=
          if inSec ∧ (h2 hdr).lnr = st.p then set_lnr h2 hdr st.prev
          else h2
        sweepLoop finRing inSec hdr fuel
          { heap := h3, prev := st.prev, p := q, gcl := gcl1, fstk := f1, collect := c1,
            events := ev1 }
      | _ => st

/-- The deferred-free walk at the end of the finaliser-ring sweep: free every
node of the `gc` list. -/
def gcWalk (h : Heap) : Nat → Nat → List Event → List Event
  | 0, _, evts => evts
  | fuel + 1, p, evts =>
    if p = NULLPTR then evts
    else gcWalk h fuel ((h p).next) (evts ++ [Event.dealloc p])

/-- One instantiation of `RegionTrace::sweep_ring`: pick the ring (the
finaliser phase walks the ring holding finaliser-bearing objects — secondary
exactly when the iso does not need the finaliser ring), run the traversal
loop, and — for the finaliser ring — free the deferred `gc` list. -/
def sweepRing (finRing : Bool) (h : Heap) (hdr o : Nat) (fstk collect : List Nat)
    (evts : List Event) (fuel : Nat) : LoopSt :=
  let inSec := if finRing then !(h o).nfr else (h o).nfr
  let p0 := if inSec then (h hdr).nnr else (h hdr).next
  let st := sweepLoop finRing inSec hdr fuel
    ⟨h, hdr, p0, NULLPTR, fstk, collect, evts⟩
  if finRing then { st with events := gcWalk st.heap fuel st.gcl st.events }
  else st

/--
`RegionTrace::sweep`: reset `current_memory_used`, sweep the finaliser ring,
then the non-finaliser ring, and store the new `previous_memory_used`
sizeclass. (`hash_set->sweep_set` is the external remembered-set sweep.)
-/
def sweep (h : Heap) (hdr o : Nat) (fstk collect : List Nat) (fuel : Nat) : LoopSt :=
  let h0 := reset_cur h hdr
  let r1 := sweepRing true h0 hdr o fstk collect [] fuel
  let r2 := sweepRing false r1.heap hdr o r1.fstk r1.collect r1.events fuel
  { r2 with heap := set_prevSc r2.heap hdr (size_to_sizeclass ((r2.heap hdr).cur)) }

/--
`RegionTrace::release_internal`: surface the iso's own sub-region children
(`find_iso_fields`), finalise the iso unconditionally, sweep with
`marked = 0`, deallocate the header, and finally deallocate the iso.
-/
def release_internal (h : Heap) (hdr o : Nat) (fstk collect : List Nat)
    (fuel : Nat) : LoopSt :=
  let f1 := isoFields h o ++ fstk
  let c1 := isoFields h o ++ collect
  let ev1 := [Event.finalise o]
  let s := sweep h hdr o f1 c1 fuel
  { s with events := ev1 ++ s.events ++ [Event.dealloc hdr, Event.dealloc o] }

/--
The sub-region cascade of `RegionTrace::gc`: pop unreachable sub-region isos
and release their regions (arena regions are external; the claims are stated
for runs in which the cascade is empty).
-/
def drainLoop (fuel0 : Nat) : Nat → LoopSt → LoopSt
  | 0, st => st
  | fuel + 1, st =>
    match st.collect with
    | [] => st
    | o :: rest =>
      let hdr := (st.heap o).next
      let r := release_internal st.heap hdr o st.fstk rest fuel0
      drainLoop fuel0 fuel { r with events := st.events ++ r.events }

/--
`RegionTrace::gc(alloc, o)`: mark from the iso, sweep both rings, then
release every unreachable sub-region collected during the sweep.
-/
def gc (h : Heap) (o : Nat) (markFuel sweepFuel : Nat) : LoopSt :=
  let hdr := (h o).next
  let m := mark h o markFuel
  let s := sweep m.heap hdr o m.stack [] sweepFuel
  drainLoop sweepFuel sweepFuel s

/-! ## Ring chains

`isChainFrom h term p l` states that following the `next` links from `p`
visits exactly the cells of `l` and then arrives at `term`. The primary ring
of a region with header `hdr` is the chain from `(h hdr).next` back to `hdr`;
the secondary ring is the chain from `(h hdr).nnr` back to `hdr`. -/

def isChainFrom (h : Heap) (term : Nat) : Nat → List Nat → Prop
  | p, [] => p = term
  | p, a :: l => p = a ∧ isChainFrom h term ((h a).next) l

@[simp] theorem isChainFrom_nil (h : Heap) (term p : Nat) :
    isChainFrom h term p [] ↔ p = term := Iff.rfl

@[simp] theorem isChainFrom_cons (h : Heap) (term p a : Nat) (l : List Nat) :
    isChainFrom h term p (a :: l) ↔ p = a ∧ isChainFrom h term ((h a).next) l := Iff.rfl

instance isChainFromDec (h : Heap) (term : Nat) :
    (p : Nat) → (l : List Nat) → Decidable (isChainFrom h term p l)
  | p, [] => inferInstanceAs (Decidable (p = term))
  | p, a :: l =>
    haveI := isChainFromDec h term ((h a).next) l
    inferInstanceAs (Decidable (p = a ∧ isChainFrom h term ((h a).next) l))

/-- A chain only depends on the `next` links of its members. -/
theorem isChainFrom_congr (h h' : Heap) (term : Nat) (l : List Nat)
    (hagree : ∀ a ∈ l, (h' a).next = (h a).next) :
    ∀ p, isChainFrom h term p l → isChainFrom h' term p l := by
  induction l with
  | nil => intro p hp; exact hp
  | cons a l ih =>
    intro p hp
    refine ⟨hp.1, ?_⟩
    rw [hagree a (by simp)]
    exact ih (fun b hb => hagree b (by simp [hb])) _ hp.2

/-- Splitting a chain at a list append. -/
theorem isChainFrom_append (h : Heap) (term p : Nat) (l₁ l₂ : List Nat) :
    isChainFrom h term p (l₁ ++ l₂) ↔
      isChainFrom h (l₂.headD term) p l₁ ∧ isChainFrom h term (l₂.headD term) l₂ := by
  induction l₁ generalizing p with
  | nil =>
    cases l₂ with
    | nil => simp
    | cons b l₂ => simp [isChainFrom]
  | cons a l₁ ih =>
    simp [isChainFrom, ih, and_assoc]

/-- The last member of a chain links to the terminator. -/
theorem isChainFrom_last_next (h : Heap) (term : Nat) (l : List Nat) :
    ∀ p a, isChainFrom h term p l → l.getLast? = some a → (h a).next = term := by
  induction l with
  | nil => intro p a _ hl; simp at hl
  | cons b l ih =>
    intro p a hp hl
    cases l with
    | nil =>
      simp at hl
      subst hl
      exact hp.2
    | cons c l => exact ih _ a hp.2 (by simpa using hl)

/-- Every chain member is reached from the head. -/
theorem isChainFrom_headD (h : Heap) (term p : Nat) (l : List Nat)
    (hp : isChainFrom h term p l) : p = l.headD term := by
  cases l with
  | nil => exact hp
  | cons a l => exact hp.1

theorem getLastD_cons_eq (a d : Nat) (l : List Nat) :
    (a :: l).getLastD d = l.getLastD a := List.getLastD_cons ..

theorem getLastD_mem (l : List Nat) (d : Nat) (hne : l ≠ []) : l.getLastD d ∈ l := by
  induction l generalizing d with
  | nil => exact absurd rfl hne
  | cons a l ih =>
    rw [getLastD_cons_eq]
    cases l with
    | nil => simp [List.getLastD]
    | cons b l => exact List.mem_cons_of_mem _ (ih a (by simp))

theorem getLastD_irrel (l : List Nat) (d d' : Nat) (hne : l ≠ []) :
    l.getLastD d = l.getLastD d' := by
  cases l with
  | nil => exact absurd rfl hne
  | cons a l => rw [getLastD_cons_eq, getLastD_cons_eq]

@[simp] theorem updAt_same (h : Heap) (p : Nat) (f : Obj → Obj) :
    updAt h p f p = f (h p) := by simp [updAt_apply]

@[simp] theorem updAt_ne (h : Heap) (p : Nat) (f : Obj → Obj) (q : Nat) (hq : q ≠ p) :
    updAt h p f q = h q := by simp [updAt_apply, hq]

/-! ## Per-operation cell lemmas -/

@[simp] theorem init_next_same (h : Heap) (p o : Nat) :
    (init_next h p o) p = { h p with next := o, kind := Kind.UNMARKED } := updAt_same ..

@[simp] theorem init_next_ne (h : Heap) (p o q : Nat) (hq : q ≠ p) :
    (init_next h p o) q = h q := updAt_ne _ _ _ _ hq

@[simp] theorem set_next_same (h : Heap) (p o : Nat) :
    (set_next h p o) p = { h p with next := o } := updAt_same ..

@[simp] theorem set_next_ne (h : Heap) (p o q : Nat) (hq : q ≠ p) :
    (set_next h p o) q = h q := updAt_ne _ _ _ _ hq

@[simp] theorem init_iso_same (h : Heap) (p : Nat) :
    (init_iso h p) p = { h p with kind := Kind.ISO } := updAt_same ..

@[simp] theorem init_iso_ne (h : Heap) (p q : Nat) (hq : q ≠ p) :
    (init_iso h p) q = h q := updAt_ne _ _ _ _ hq

@[simp] theorem set_region_same (h : Heap) (p r : Nat) :
    (set_region h p r) p = { h p with next := r } := updAt_same ..

@[simp] theorem set_region_ne (h : Heap) (p r q : Nat) (hq : q ≠ p) :
    (set_region h p r) q = h q := updAt_ne _ _ _ _ hq

@[simp] theorem markObj_same (h : Heap) (p : Nat) :
    (markObj h p) p = { h p with kind := Kind.MARKED } := updAt_same ..

@[simp] theorem markObj_ne (h : Heap) (p q : Nat) (hq : q ≠ p) :
    (markObj h p) q = h q := updAt_ne _ _ _ _ hq

@[simp] theorem unmarkObj_same (h : Heap) (p : Nat) :
    (unmarkObj h p) p = { h p with kind := Kind.UNMARKED } := updAt_same ..

@[simp] theorem unmarkObj_ne (h : Heap) (p q : Nat) (hq : q ≠ p) :
    (unmarkObj h p) q = h q := updAt_ne _ _ _ _ hq

@[simp] theorem set_descriptor_same (h : Heap) (p : Nat) (d : Descriptor) :
    (set_descriptor h p d) p = { h p with size := d.size, nfr := d.nfr, hasFin := d.hasFin } :=
  updAt_same ..

@[simp] theorem set_descriptor_ne (h : Heap) (p : Nat) (d : Descriptor) (q : Nat) (hq : q ≠ p) :
    (set_descriptor h p d) q = h q := updAt_ne _ _ _ _ hq

@[simp] theorem storeFields_same (h : Heap) (p : Nat) (fs : List Nat) :
    (storeFields h p fs) p = { h p with fields := fs } := updAt_same ..

@[simp] theorem storeFields_ne (h : Heap) (p : Nat) (fs : List Nat) (q : Nat) (hq : q ≠ p) :
    (storeFields h p fs) q = h q := updAt_ne _ _ _ _ hq

@[simp] theorem use_memory_same (h : Heap) (z s : Nat) :
    (use_memory h z s) z = { h z with cur := (h z).cur + s } := updAt_same ..

@[simp] theorem use_memory_ne (h : Heap) (z s q : Nat) (hq : q ≠ z) :
    (use_memory h z s) q = h q := updAt_ne _ _ _ _ hq

@[simp] theorem set_nnr_same (h : Heap) (z v : Nat) :
    (set_nnr h z v) z = { h z with nnr := v } := updAt_same ..

@[simp] theorem set_nnr_ne (h : Heap) (z v q : Nat) (hq : q ≠ z) :
    (set_nnr h z v) q = h q := updAt_ne _ _ _ _ hq

@[simp] theorem set_lnr_same (h : Heap) (z v : Nat) :
    (set_lnr h z v) z = { h z with lnr := v } := updAt_same ..

@[simp] theorem set_lnr_ne (h : Heap) (z v q : Nat) (hq : q ≠ z) :
    (set_lnr h z v) q = h q := updAt_ne _ _ _ _ hq

@[simp] theorem reset_cur_same (h : Heap) (z : Nat) :
    (reset_cur h z) z = { h z with cur := 0 } := updAt_same ..

@[simp] theorem reset_cur_ne (h : Heap) (z q : Nat) (hq : q ≠ z) :
    (reset_cur h z) q = h q := updAt_ne _ _ _ _ hq

@[simp] theorem add_cur_same (h : Heap) (z v : Nat) :
    (add_cur h z v) z = { h z with cur := (h z).cur + v } := updAt_same ..

@[simp] theorem add_cur_ne (h : Heap) (z v q : Nat) (hq : q ≠ z) :
    (add_cur h z v) q = h q := updAt_ne _ _ _ _ hq

@[simp] theorem set_prevSc_same (h : Heap) (z v : Nat) :
    (set_prevSc h z v) z = { h z with prevSc := v } := updAt_same ..

@[simp] theorem set_prevSc_ne (h : Heap) (z v q : Nat) (hq : q ≠ z) :
    (set_prevSc h z v) q = h q := updAt_ne _ _ _ _ hq

/-! ## C6: `merge` double-counts the other region's previous bytes -/

theorem append_prevSc (h : Heap) (hdr hd tl q : Nat) :
    ((append h hdr hd tl) q).prevSc = (h q).prevSc := by
  unfold append
  split
  · by_cases h1 : q = hdr <;> by_cases h2 : q = tl <;> simp_all
  · simp only []
    split <;> by_cases h1 : q = hdr <;> by_cases h2 : q = tl <;> simp_all

theorem add_cur_prevSc (h : Heap) (z v q : Nat) :
    ((add_cur h z v) q).prevSc = (h q).prevSc := by
  by_cases h1 : q = z <;> simp_all

/--
C6: `merge_internal` computes the merged `previous_memory_used` as the
size-class of `sizeclass_to_size(other.previous_memory_used)` added to
itself, and the receiving region's own `previous_memory_used` makes no
difference to the result.
-/
theorem merge_internal_prevSc_doubles_other (h : Heap) (hdr o otherHdr : Nat)
    (hne : hdr ≠ otherHdr) :
    ((merge_internal h hdr o otherHdr) hdr).prevSc
        = size_to_sizeclass (sizeclass_to_size ((h otherHdr).prevSc) + sizeclass_to_size ((h otherHdr).prevSc))
      ∧ ∀ v, ((merge_internal (set_prevSc h hdr v) hdr o otherHdr) hdr).prevSc
        = ((merge_internal h hdr o otherHdr) hdr).prevSc := by
  have key : ∀ (h : Heap), ((merge_internal h hdr o otherHdr) hdr).prevSc
      = size_to_sizeclass (sizeclass_to_size ((h otherHdr).prevSc) + sizeclass_to_size ((h otherHdr).prevSc)) := by
    intro h
    unfold merge_internal
    simp only [set_prevSc_same]
    rw [add_cur_prevSc]
    split
    · split
      · rw [append_prevSc, append_prevSc]
      · rw [append_prevSc]
    · split
      · rw [append_prevSc]
      · rfl
  refine ⟨key h, fun v => ?_⟩
  rw [key, key, set_prevSc_ne _ _ _ _ (Ne.symm hne)]

/-- Concrete region pair for the C6 witness: header `1`, other header `2`
with `previous_memory_used` sizeclass `3`, other iso `5`. -/
def heapC6 : Heap := fun n =>
  if n = 2 then { prevSc := 3, next := 5 } else if n = 5 then { next := 2 } else {}

theorem merge_internal_prevSc_doubles_other_witness :
    (1 : Nat) ≠ 2 ∧
      (((merge_internal heapC6 1 5 2) 1).prevSc
          = size_to_sizeclass (sizeclass_to_size ((heapC6 2).prevSc) + sizeclass_to_size ((heapC6 2).prevSc))
        ∧ ∀ v, ((merge_internal (set_prevSc heapC6 1 v) 1 5 2) 1).prevSc
          = ((merge_internal heapC6 1 5 2) 1).prevSc) :=
  ⟨by decide, merge_internal_prevSc_doubles_other heapC6 1 5 2 (by decide)⟩

/-! ## C7: double `swap_root` -/

/-- Concrete region for the C7 counterexample: header `1`, iso `2`
(finaliser ring), secondary ring `[3, 4]` (so `next_not_root = 3`,
`last_not_root = 4`). -/
def heapC7 : Heap := fun n =>
  if n = 1 then { next := 2, nnr := 3, lnr := 4 }
  else if n = 2 then { kind := Kind.ISO, next := 1, nfr := true }
  else if n = 3 then { kind := Kind.UNMARKED, next := 4 }
  else if n = 4 then { kind := Kind.UNMARKED, next := 1 }
  else {}

/--
C7, counterexample: `swap_root(2, 3)` followed by `swap_root(3, 2)` on the
region `heapC7` does not restore the structural state — `next_not_root`
comes back as `4` instead of `3` (the secondary ring returns rotated).
-/
theorem swap_root_not_involutive_counterexample :
    ((swap_root (swap_root heapC7 2 3) 3 2) 1).nnr = 4 ∧ (heapC7 1).nnr = 3 := by
  constructor
  · rfl
  · rfl

/--
C7, amended: when `prev` and `next` need the same finaliser ring (so `next`
lies in the primary ring and the rings are not exchanged),
`swap_root(prev, next)` followed by `swap_root(next, prev)` restores the
heap exactly.
-/
theorem obj_eq_of_fields (a b : Obj) (h1 : a.kind = b.kind) (h2 : a.next = b.next)
    (h3 : a.nfr = b.nfr) (h4 : a.hasFin = b.hasFin) (h5 : a.size = b.size)
    (h6 : a.fields = b.fields) (h7 : a.nnr = b.nnr) (h8 : a.lnr = b.lnr)
    (h9 : a.cur = b.cur) (h10 : a.prevSc = b.prevSc) : a = b := by
  cases a
  cases b
  simp_all

theorem updAt_updAt_same (h : Heap) (p : Nat) (f g : Obj → Obj) :
    updAt (updAt h p f) p g = updAt h p fun x => g (f x) := by
  funext q
  simp only [updAt_apply]
  split <;> rfl

/-- When the finaliser-needs agree, `swap_root_internal` is the three-cell
re-link: the old iso takes the primary head position, the header points at
the old successor of `nroot`, and `nroot` becomes the ISO tail. -/
theorem swap_root_internal_no_exchange (h : Heap) (hdr oroot nroot : Nat)
    (hcl : (h oroot).nfr = (h nroot).nfr) (hne : oroot ≠ nroot) :
    swap_root_internal h hdr oroot nroot =
      updAt (updAt (updAt h oroot fun x => { x with next := (h hdr).next, kind := Kind.UNMARKED })
          hdr fun x => { x with next := (h nroot).next })
        nroot fun x => { x with kind := Kind.ISO, next := hdr } := by
  unfold swap_root_internal
  simp only [if_neg (show ¬((h oroot).nfr ≠ (h nroot).nfr) from by simp [hcl]), if_pos hne]
  unfold init_next set_next init_iso set_region
  rw [updAt_updAt_same]

/--
C7, amended: when `prev` and `next` need the same finaliser ring (so `next`
lies in the primary ring and the rings are not exchanged),
`swap_root(prev, next)` followed by `swap_root(next, prev)` restores the
heap exactly.
-/
theorem swap_root_swap_root_same_ring (h : Heap) (prev next hdr : Nat)
    (hhdr : (h prev).next = hdr)
    (hpn : prev ≠ next) (hph : prev ≠ hdr) (hnh : next ≠ hdr)
    (hiso : (h prev).kind = Kind.ISO)
    (hmut : (h next).kind = Kind.UNMARKED)
    (hclass : (h prev).nfr = (h next).nfr) :
    swap_root (swap_root h prev next) next prev = h := by
  have e1 : swap_root h prev next =
      updAt (updAt (updAt h prev fun x => { x with next := (h hdr).next, kind := Kind.UNMARKED })
          hdr fun x => { x with next := (h next).next })
        next fun x => { x with kind := Kind.ISO, next := hdr } := by
    unfold swap_root
    rw [hhdr]
    exact swap_root_internal_no_exchange h hdr prev next hclass hpn
  rw [e1]
  set h1 : Heap :=
    updAt (updAt (updAt h prev fun x => { x with next := (h hdr).next, kind := Kind.UNMARKED })
        hdr fun x => { x with next := (h next).next })
      next fun x => { x with kind := Kind.ISO, next := hdr } with hh1
  have cell_prev : h1 prev = { h prev with next := (h hdr).next, kind := Kind.UNMARKED } := by
    rw [hh1, updAt_ne _ _ _ _ hpn, updAt_ne _ _ _ _ hph, updAt_same]
  have cell_hdr : h1 hdr = { h hdr with next := (h next).next } := by
    rw [hh1, updAt_ne _ _ _ _ (Ne.symm hnh), updAt_same, updAt_ne _ _ _ _ (Ne.symm hph)]
  have cell_next : h1 next = { h next with kind := Kind.ISO, next := hdr } := by
    rw [hh1, updAt_same, updAt_ne _ _ _ _ hnh, updAt_ne _ _ _ _ (Ne.symm hpn)]
  have cell_other : ∀ q, q ≠ prev → q ≠ hdr → q ≠ next → h1 q = h q := by
    intro q hq1 hq2 hq3
    rw [hh1, updAt_ne _ _ _ _ hq3, updAt_ne _ _ _ _ hq2, updAt_ne _ _ _ _ hq1]
  have e2 : swap_root h1 next prev =
      updAt (updAt (updAt h1 next fun x => { x with next := (h1 hdr).next, kind := Kind.UNMARKED })
          hdr fun x => { x with next := (h1 prev).next })
        prev fun x => { x with kind := Kind.ISO, next := hdr } := by
    unfold swap_root
    have harg : (h1 next).next = hdr := by rw [cell_next]
    rw [harg]
    exact swap_root_internal_no_exchange h1 hdr next prev
      (by rw [cell_next, cell_prev]; exact hclass.symm) (Ne.symm hpn)
  rw [e2]
  funext q
  by_cases hq1 : q = prev
  · subst hq1
    rw [updAt_same, updAt_ne _ _ _ _ hph, updAt_ne _ _ _ _ hpn, cell_prev]
    exact obj_eq_of_fields _ _ (by simp [hiso]) (by simp [hhdr]) (by simp) (by simp)
      (by simp) (by simp) (by simp) (by simp) (by simp) (by simp)
  · by_cases hq2 : q = hdr
    · subst hq2
      rw [updAt_ne _ _ _ _ (Ne.symm hph), updAt_same, updAt_ne _ _ _ _ (Ne.symm hnh),
        cell_hdr, cell_prev]
    · by_cases hq3 : q = next
      · subst hq3
        rw [updAt_ne _ _ _ _ (Ne.symm hpn), updAt_ne _ _ _ _ hnh, updAt_same,
          cell_next, cell_hdr]
        exact obj_eq_of_fields _ _ (by simp [hmut]) (by simp) (by simp) (by simp)
          (by simp) (by simp) (by simp) (by simp) (by simp) (by simp)
      · rw [updAt_ne _ _ _ _ hq1, updAt_ne _ _ _ _ hq2, updAt_ne _ _ _ _ hq3]
        exact cell_other q hq1 hq2 hq3

/-- Concrete region for the C7 witness: header `1`, iso `2`, interior `3`,
all in the primary ring. -/
def heapC7b : Heap := fun n =>
  if n = 1 then { next := 3, nnr := 1, lnr := 1 }
  else if n = 2 then { kind := Kind.ISO, next := 1 }
  else if n = 3 then { kind := Kind.UNMARKED, next := 2 }
  else {}

theorem swap_root_swap_root_same_ring_witness :
    ((heapC7b 2).next = 1 ∧ (2 : Nat) ≠ 3 ∧ (2 : Nat) ≠ 1 ∧ (3 : Nat) ≠ 1 ∧
      (heapC7b 2).kind = Kind.ISO ∧ (heapC7b 3).kind = Kind.UNMARKED ∧
      (heapC7b 2).nfr = (heapC7b 3).nfr) ∧
    swap_root (swap_root heapC7b 2 3) 3 2 = heapC7b :=
  ⟨⟨by decide, by decide, by decide, by decide, by decide, by decide, by decide⟩,
    swap_root_swap_root_same_ring heapC7b 2 3 1 (by decide) (by decide) (by decide)
      (by decide) (by decide) (by decide) (by decide)⟩

/-! ## C3: the mark phase -/

/-- The mark loop either leaves a cell alone or flips an `UNMARKED` cell to
`MARKED`; nothing else in the heap is ever written. -/
theorem markLoop_cells (fuel : Nat) :
    ∀ (h : Heap) (stack rs : List Nat) (q : Nat),
      (markLoop h fuel stack rs).heap q = h q ∨
        ((h q).kind = Kind.UNMARKED ∧
          (markLoop h fuel stack rs).heap q = { h q with kind := Kind.MARKED }) := by
  induction fuel with
  | zero => intro h stack rs q; exact Or.inl rfl
  | succ n ih =>
    intro h stack rs q
    cases stack with
    | nil => exact Or.inl rfl
    | cons p rest =>
      show (markLoop h (n + 1) (p :: rest) rs).heap q = h q ∨ _
      rw [markLoop]
      cases hk : (h p).kind with
      | ISO => exact ih h rest rs q
      | MARKED => exact ih h rest rs q
      | SCC_PTR => exact ih h rest _ q
      | RC => exact ih h rest _ q
      | COWN => exact ih h rest _ q
      | UNMARKED =>
        rcases ih (markObj h p) ((h p).fields ++ rest) rs q with h1 | ⟨h2, h3⟩
        · by_cases hqp : q = p
          · subst hqp
            refine Or.inr ⟨hk, ?_⟩
            rw [h1, markObj_same]
          · exact Or.inl (by rw [h1, markObj_ne _ _ _ hqp])
        · by_cases hqp : q = p
          · subst hqp
            rw [markObj_same] at h2
            simp at h2
          · rw [markObj_ne _ _ _ hqp] at h2 h3
            exact Or.inr ⟨h2, h3⟩

/--
C3: the mark loop is the work-list trace of the source's switch — popped
`ISO`/`MARKED` objects are skipped, an `UNMARKED` object is flipped to
`MARKED` and its fields enqueued, an `SCC_PTR` is normalised to its SCC root
and recorded in the remembered-set mark, and `RC`/`COWN` objects are
recorded in the remembered-set mark — and consequently `mark` never changes
any cell of an object belonging to another region (cross-region references
reach other regions only at their iso objects, which carry kind `ISO`).
-/
theorem mark_switch_and_never_crosses_regions :
    (∀ (h : Heap) (o : Nat) (fuel : Nat), mark h o fuel = markLoop h fuel ((h o).fields) []) ∧
    (∀ (h : Heap) (fuel : Nat) (p : Nat) (rest rs : List Nat),
      ((h p).kind = Kind.ISO ∨ (h p).kind = Kind.MARKED →
        markLoop h (fuel + 1) (p :: rest) rs = markLoop h fuel rest rs) ∧
      ((h p).kind = Kind.UNMARKED →
        markLoop h (fuel + 1) (p :: rest) rs
          = markLoop (markObj h p) fuel ((h p).fields ++ rest) rs) ∧
      ((h p).kind = Kind.SCC_PTR →
        markLoop h (fuel + 1) (p :: rest) rs
          = markLoop h fuel rest (immutableRoot h fuel p :: rs)) ∧
      ((h p).kind = Kind.RC ∨ (h p).kind = Kind.COWN →
        markLoop h (fuel + 1) (p :: rest) rs = markLoop h fuel rest (p :: rs))) ∧
    (∀ (h : Heap) (fuel : Nat) (stack rs : List Nat) (foreign : Nat → Prop),
      (∀ q, foreign q → (h q).kind = Kind.ISO) →
      ∀ q, foreign q → (markLoop h fuel stack rs).heap q = h q) := by
  refine ⟨fun h o fuel => rfl, fun h fuel p rest rs => ⟨?_, ?_, ?_, ?_⟩, ?_⟩
  · rintro (hk | hk) <;> rw [markLoop, hk]
  · intro hk
    rw [markLoop, hk]
  · intro hk
    rw [markLoop, hk]
  · rintro (hk | hk) <;> rw [markLoop, hk]
  · intro h fuel stack rs foreign hforeign q hq
    rcases markLoop_cells fuel h stack rs q with h1 | ⟨h2, _⟩
    · exact h1
    · rw [hforeign q hq] at h2
      exact absurd h2 (by simp)

/-- Concrete heap for the C3 witness: object `1` is an unmarked mutable whose
field points at the iso `2` of another region. -/
def heapC3 : Heap := fun n =>
  if n = 1 then { kind := Kind.UNMARKED, fields := [2] }
  else if n = 2 then { kind := Kind.ISO } else {}

theorem mark_switch_and_never_crosses_regions_witness :
    (∀ q, q = 2 → (heapC3 q).kind = Kind.ISO) ∧
      (markLoop heapC3 5 [1] []).heap 2 = heapC3 2 :=
  ⟨fun q hq => by subst hq; rfl,
    mark_switch_and_never_crosses_regions.2.2 heapC3 5 [1] [] (fun q => q = 2)
      (fun q hq => by subst hq; rfl) 2 rfl⟩

/-! ## Event-trace lemmas for the sweep -/

theorem use_memory_hasFin (h : Heap) (z s q : Nat) :
    ((use_memory h z s) q).hasFin = (h q).hasFin := by
  by_cases hq : q = z <;> simp_all

theorem unmarkObj_hasFin (h : Heap) (z q : Nat) :
    ((unmarkObj h z) q).hasFin = (h q).hasFin := by
  by_cases hq : q = z <;> simp_all

theorem set_next_hasFin (h : Heap) (z v q : Nat) :
    ((set_next h z v) q).hasFin = (h q).hasFin := by
  by_cases hq : q = z <;> simp_all

theorem set_nnr_hasFin (h : Heap) (z v q : Nat) :
    ((set_nnr h z v) q).hasFin = (h q).hasFin := by
  by_cases hq : q = z <;> simp_all

theorem set_lnr_hasFin (h : Heap) (z v q : Nat) :
    ((set_lnr h z v) q).hasFin = (h q).hasFin := by
  by_cases hq : q = z <;> simp_all

theorem reset_cur_hasFin (h : Heap) (z q : Nat) :
    ((reset_cur h z) q).hasFin = (h q).hasFin := by
  by_cases hq : q = z <;> simp_all

theorem set_prevSc_hasFin (h : Heap) (z v q : Nat) :
    ((set_prevSc h z v) q).hasFin = (h q).hasFin := by
  by_cases hq : q = z <;> simp_all

/-- The sweep loop never writes any `has_finaliser` flag. -/
theorem sweepLoop_hasFin (finRing inSec : Bool) (hdr : Nat) (fuel : Nat) :
    ∀ (st : LoopSt) (q : Nat),
      ((sweepLoop finRing inSec hdr fuel st).heap q).hasFin = (st.heap q).hasFin := by
  induction fuel with
  | zero => intro st q; rfl
  | succ n ih =>
    intro st q
    rw [sweepLoop]
    by_cases hp : st.p = hdr
    · rw [if_pos hp]
    · rw [if_neg hp]
      cases hk : (st.heap st.p).kind <;>
        first
          | rfl
          | (simp only [ih]
             simp [use_memory_hasFin, unmarkObj_hasFin])
          | (simp only [ih]
             split_ifs <;>
               simp [use_memory_hasFin, unmarkObj_hasFin, set_next_hasFin, set_nnr_hasFin,
                 set_lnr_hasFin])

theorem ite_heap_apply (c : Prop) [Decidable c] (hA hB : Heap) (q : Nat) :
    (if c then hA else hB) q = if c then hA q else hB q := by
  split <;> rfl

/-- Provenance of finaliser events: a `finalise x` event emitted by the
sweep loop means `x` had its `has_finaliser` flag set. -/
theorem sweepLoop_finalise_mem (finRing inSec : Bool) (hdr : Nat) (fuel : Nat) :
    ∀ (st : LoopSt) (x : Nat),
      Event.finalise x ∈ (sweepLoop finRing inSec hdr fuel st).events →
      Event.finalise x ∈ st.events ∨ (st.heap x).hasFin = true := by
  induction fuel with
  | zero => intro st x hm; exact Or.inl hm
  | succ n ih =>
    intro st x
    rw [sweepLoop]
    by_cases hp : st.p = hdr
    · rw [if_pos hp]
      exact fun hm => Or.inl hm
    · rw [if_neg hp]
      cases hk : (st.heap st.p).kind with
      | ISO =>
        intro hm
        rcases ih _ x hm with hm1 | hm2
        · exact Or.inl hm1
        · rw [use_memory_hasFin] at hm2
          exact Or.inr hm2
      | MARKED =>
        intro hm
        rcases ih _ x hm with hm1 | hm2
        · exact Or.inl hm1
        · rw [unmarkObj_hasFin, use_memory_hasFin] at hm2
          exact Or.inr hm2
      | UNMARKED =>
        intro hm
        rcases ih _ x hm with hm1 | hm2
        · simp only [] at hm1
          split at hm1
          · split at hm1
            · rcases List.mem_append.1 hm1 with hm3 | hm3
              · exact Or.inl hm3
              · simp at hm3
                right
                rw [hm3]
                assumption
            · exact Or.inl hm1
          · rcases List.mem_append.1 hm1 with hm3 | hm3
            · exact Or.inl hm3
            · simp at hm3
        · right
          simp only [ite_heap_apply, apply_ite Obj.hasFin, set_lnr_hasFin, set_nnr_hasFin,
            set_next_hasFin, ite_self] at hm2
          exact hm2
      | SCC_PTR => exact fun hm => Or.inl hm
      | RC => exact fun hm => Or.inl hm
      | COWN => exact fun hm => Or.inl hm

/-- The deferred-free walk only appends `dealloc` events. -/
theorem gcWalk_events (h : Heap) (fuel : Nat) :
    ∀ (p : Nat) (evts : List Event), ∃ tail,
      gcWalk h fuel p evts = evts ++ tail ∧ ∀ ev ∈ tail, ∃ x, ev = Event.dealloc x := by
  induction fuel with
  | zero => intro p evts; exact ⟨[], by simp [gcWalk]⟩
  | succ n ih =>
    intro p evts
    rw [gcWalk]
    split
    · exact ⟨[], by simp⟩
    · rcases ih ((h p).next) (evts ++ [Event.dealloc p]) with ⟨tail, htl, hall⟩
      refine ⟨Event.dealloc p :: tail, ?_, ?_⟩
      · rw [htl]
        simp
      · intro ev hev
        rcases List.mem_cons.1 hev with hev | hev
        · exact ⟨p, hev⟩
        · exact hall ev hev

/-- The traversal loop of the finaliser-ring sweep only appends `finalise`
events, and the non-finaliser sweep only appends `dealloc` events. -/
theorem sweepLoop_events_shape (finRing inSec : Bool) (hdr : Nat) (fuel : Nat) :
    ∀ (st : LoopSt), ∃ tail,
      (sweepLoop finRing inSec hdr fuel st).events = st.events ++ tail ∧
      (finRing = true → ∀ ev ∈ tail, ∃ x, ev = Event.finalise x) ∧
      (finRing = false → ∀ ev ∈ tail, ∃ x, ev = Event.dealloc x) := by
  induction fuel with
  | zero => intro st; exact ⟨[], by simp [sweepLoop]⟩
  | succ n ih =>
    intro st
    rw [sweepLoop]
    by_cases hp : st.p = hdr
    · rw [if_pos hp]
      exact ⟨[], by simp⟩
    · rw [if_neg hp]
      cases hk : (st.heap st.p).kind with
      | ISO => exact ih _
      | MARKED => exact ih _
      | SCC_PTR => exact ⟨[], by simp⟩
      | RC => exact ⟨[], by simp⟩
      | COWN => exact ⟨[], by simp⟩
      | UNMARKED =>
        simp only []
        obtain ⟨tail, htl, hfin, hde⟩ := ih _
        rw [htl]
        cases finRing with
        | true =>
          by_cases hfl : (st.heap st.p).hasFin = true
          · refine ⟨Event.finalise st.p :: tail, ?_, ?_, ?_⟩
            · simp [hfl]
            · intro _ ev hev
              rcases List.mem_cons.1 hev with hev | hev
              · exact ⟨st.p, hev⟩
              · exact hfin rfl ev hev
            · simp
          · refine ⟨tail, ?_, fun _ => hfin rfl, by simp⟩
            simp [hfl]
        | false =>
          refine ⟨Event.dealloc st.p :: tail, ?_, by simp, ?_⟩
          · simp
          · intro _ ev hev
            rcases List.mem_cons.1 hev with hev | hev
            · exact ⟨st.p, hev⟩
            · exact hde rfl ev hev

theorem sweepRing_heap_hasFin (finRing : Bool) (h : Heap) (hdr o : Nat)
    (fstk collect : List Nat) (evts : List Event) (fuel : Nat) (x : Nat) :
    (((sweepRing finRing h hdr o fstk collect evts fuel).heap) x).hasFin = (h x).hasFin := by
  unfold sweepRing
  split
  · exact sweepLoop_hasFin ..
  · exact sweepLoop_hasFin ..

theorem sweepRing_finalise_mem (finRing : Bool) (h : Heap) (hdr o : Nat)
    (fstk collect : List Nat) (evts : List Event) (fuel : Nat) (x : Nat)
    (hm : Event.finalise x ∈ (sweepRing finRing h hdr o fstk collect evts fuel).events) :
    Event.finalise x ∈ evts ∨ (h x).hasFin = true := by
  unfold sweepRing at hm
  split at hm
  · simp only [] at hm
    obtain ⟨tail, htl, hall⟩ := gcWalk_events _ fuel _ _
    rw [htl] at hm
    rcases List.mem_append.1 hm with hm1 | hm1
    · exact sweepLoop_finalise_mem _ _ _ _ _ _ hm1
    · obtain ⟨y, hy⟩ := hall _ hm1
      simp at hy
  · exact sweepLoop_finalise_mem _ _ _ _ _ _ hm

/-- A `finalise x` event emitted anywhere in `sweep` means `x` has a
finaliser. -/
theorem sweep_finalise_mem (h : Heap) (hdr o : Nat) (fstk collect : List Nat)
    (fuel : Nat) (x : Nat)
    (hm : Event.finalise x ∈ (sweep h hdr o fstk collect fuel).events) :
    (h x).hasFin = true := by
  unfold sweep at hm
  simp only [] at hm
  rcases sweepRing_finalise_mem _ _ _ _ _ _ _ _ _ hm with hm1 | hm1
  · rcases sweepRing_finalise_mem _ _ _ _ _ _ _ _ _ hm1 with hm2 | hm2
    · simp at hm2
    · rw [reset_cur_hasFin] at hm2
      exact hm2
  · rw [sweepRing_heap_hasFin, reset_cur_hasFin] at hm1
    exact hm1

/--
C10: `release_internal` invokes `finalise()` on the region's iso
unconditionally — its event trace starts with `finalise o` with no test of
`has_finaliser` — whereas the sweep finalises an unreachable object only
when `has_finaliser()` holds.
-/
theorem release_finalises_unconditionally_sweep_conditionally :
    (∀ (h : Heap) (hdr o : Nat) (fstk collect : List Nat) (fuel : Nat),
      ∃ rest, (release_internal h hdr o fstk collect fuel).events = Event.finalise o :: rest) ∧
    (∀ (h : Heap) (hdr o : Nat) (fstk collect : List Nat) (fuel : Nat) (p : Nat),
      (h p).hasFin = false →
      Event.finalise p ∉ (sweep h hdr o fstk collect fuel).events) := by
  constructor
  · intro h hdr o fstk collect fuel
    exact ⟨(sweep h hdr o (isoFields h o ++ fstk) (isoFields h o ++ collect) fuel).events
      ++ [Event.dealloc hdr, Event.dealloc o], rfl⟩
  · intro h hdr o fstk collect fuel p hfin hm
    rw [sweep_finalise_mem h hdr o fstk collect fuel p hm] at hfin
    exact absurd hfin (by simp)

/-- Heap for the C10 witness: a region whose iso `2` and interior `3` carry
no finaliser. -/
def heapC10 : Heap := fun n =>
  if n = 1 then { next := 2, nnr := 1, lnr := 1 }
  else if n = 2 then { kind := Kind.ISO, next := 1 }
  else if n = 3 then { kind := Kind.UNMARKED, next := 1 } else {}

theorem release_finalises_unconditionally_sweep_conditionally_witness :
    (heapC10 3).hasFin = false ∧
      Event.finalise 3 ∉ (sweep heapC10 1 2 [] [] 6).events :=
  ⟨rfl, release_finalises_unconditionally_sweep_conditionally.2 heapC10 1 2 [] [] 6 3 rfl⟩

/-! ## C4: the two-phase finaliser-ring sweep -/

/-- Heap for the C4 scenario: iso `2` (no finaliser), secondary ring
`[4, 3]` of two dead finaliser-bearing objects. -/
def heapC4 : Heap := fun n =>
  if n = 1 then { next := 2, nnr := 4, lnr := 3 }
  else if n = 2 then { kind := Kind.ISO, next := 1 }
  else if n = 3 then { kind := Kind.UNMARKED, next := 1, nfr := true, hasFin := true }
  else if n = 4 then { kind := Kind.UNMARKED, next := 3, nfr := true, hasFin := true }
  else {}

/--
C4: sweeping the finaliser ring is two-phase — every `finalise` event
precedes every `dealloc` event, because dead objects are parked on the
deferred list during the traversal and freed only afterwards. On the
concrete ring `[4, 3]` of two simultaneously-dead finaliser-bearing
objects, the trace is exactly
`[finalise 4, finalise 3, dealloc 3, dealloc 4]`.
-/
theorem sweep_ring_finalises_before_deallocations :
    (∀ (h : Heap) (hdr o : Nat) (fstk collect : List Nat) (fuel : Nat),
      ∃ e₁ e₂, (sweepRing true h hdr o fstk collect [] fuel).events = e₁ ++ e₂ ∧
        (∀ ev ∈ e₁, ∃ x, ev = Event.finalise x) ∧
        (∀ ev ∈ e₂, ∃ x, ev = Event.dealloc x)) ∧
    (sweepRing true heapC4 1 2 [] [] [] 10).events
      = [Event.finalise 4, Event.finalise 3, Event.dealloc 3, Event.dealloc 4] := by
  constructor
  · intro h hdr o fstk collect fuel
    unfold sweepRing
    rw [if_pos rfl]
    simp only []
    obtain ⟨t2, ht2, hd2⟩ := gcWalk_events _ fuel _ _
    rw [ht2]
    obtain ⟨t1, ht1, hf1, _⟩ := sweepLoop_events_shape true _ hdr fuel _
    rw [ht1]
    exact ⟨t1, t2, by simp, fun ev hev => hf1 rfl ev hev, hd2⟩
  · rfl

/-! ## Region well-formedness -/

theorem getLast?_mem (l : List Nat) (a : Nat) : l.getLast? = some a → a ∈ l := by
  induction l with
  | nil => simp
  | cons x xs ih =>
    cases xs with
    | nil =>
      intro hl
      simp at hl ⊢
      exact hl.symm
    | cons y ys =>
      intro hl
      rw [List.getLast?_cons_cons] at hl
      exact List.mem_cons_of_mem _ (ih hl)

theorem getLastD_eq_of_getLast? (l : List Nat) (a : Nat) (h : l.getLast? = some a) :
    ∀ d, l.getLastD d = a := by
  induction l with
  | nil => simp at h
  | cons x xs ih =>
    intro d
    cases xs with
    | nil =>
      simp at h
      simp [List.getLastD, h]
    | cons y ys =>
      rw [List.getLast?_cons_cons] at h
      rw [getLastD_cons_eq]
      exact ih h x

theorem getLast?_cons_of_ne_nil (x : Nat) (l : List Nat) (hne : l ≠ []) :
    (x :: l).getLast? = l.getLast? := by
  cases l with
  | nil => exact absurd rfl hne
  | cons y ys => exact List.getLast?_cons_cons ..

/--
Well-formedness of a trace region (spec §3, invariants 1–5): the primary
ring is the chain `prim` from the header's `next` back to the header with
the iso as its last node, the secondary ring is the chain `sec` from
`next_not_root` with `last_not_root` its final node, interior objects are
`UNMARKED`, the rings partition the objects by finaliser-need relative to
the iso, and all cells (header included) are distinct.
-/
structure RegionWF (h : Heap) (hdr iso : Nat) (prim sec : List Nat) : Prop where
  prim_chain : isChainFrom h hdr ((h hdr).next) prim
  sec_chain : isChainFrom h hdr ((h hdr).nnr) sec
  lnr_eq : (h hdr).lnr = sec.getLastD hdr
  iso_last : prim.getLast? = some iso
  iso_kind : (h iso).kind = Kind.ISO
  interior_kind : ∀ p ∈ prim ++ sec, p ≠ iso → (h p).kind = Kind.UNMARKED
  prim_class : ∀ p ∈ prim, (h p).nfr = (h iso).nfr
  sec_class : ∀ p ∈ sec, (h p).nfr = !(h iso).nfr
  nodup : (hdr :: (prim ++ sec)).Nodup

theorem RegionWF.iso_mem (h : Heap) (hdr iso : Nat) (prim sec : List Nat)
    (hwf : RegionWF h hdr iso prim sec) : iso ∈ prim :=
  getLast?_mem _ _ hwf.iso_last

theorem RegionWF.prim_ne_nil (h : Heap) (hdr iso : Nat) (prim sec : List Nat)
    (hwf : RegionWF h hdr iso prim sec) : prim ≠ [] := by
  intro he
  subst he
  exact absurd hwf.iso_last (by simp)

theorem RegionWF.iso_next (h : Heap) (hdr iso : Nat) (prim sec : List Nat)
    (hwf : RegionWF h hdr iso prim sec) : (h iso).next = hdr :=
  isChainFrom_last_next h hdr prim _ iso hwf.prim_chain hwf.iso_last

theorem RegionWF.hdr_notin (h : Heap) (hdr iso : Nat) (prim sec : List Nat)
    (hwf : RegionWF h hdr iso prim sec) : hdr ∉ prim ++ sec :=
  (List.nodup_cons.1 hwf.nodup).1

theorem RegionWF.rings_nodup (h : Heap) (hdr iso : Nat) (prim sec : List Nat)
    (hwf : RegionWF h hdr iso prim sec) : (prim ++ sec).Nodup :=
  (List.nodup_cons.1 hwf.nodup).2

theorem RegionWF.iso_ne_hdr (h : Heap) (hdr iso : Nat) (prim sec : List Nat)
    (hwf : RegionWF h hdr iso prim sec) : iso ≠ hdr := by
  intro he
  exact (hwf.hdr_notin h hdr iso prim sec)
    (he ▸ List.mem_append_left sec (hwf.iso_mem h hdr iso prim sec))

/--
C? helper — `create` builds a well-formed region: a primary ring holding
just the iso and an empty secondary ring.
-/
theorem create_WF (h : Heap) (hdrId oId : Nat) (d : Descriptor) (hne : hdrId ≠ oId) :
    RegionWF (create h hdrId oId d) hdrId oId [oId] [] := by
  have hne' : oId ≠ hdrId := Ne.symm hne
  have hhdr : (create h hdrId oId d) hdrId
      = { h hdrId with kind := Kind.UNMARKED, next := oId, nnr := hdrId, lnr := hdrId, cur := d.size, prevSc := 0 } := by
    simp [create, hne, hne']
  have hiso : (create h hdrId oId d) oId
      = { h oId with size := d.size, nfr := d.nfr, hasFin := d.hasFin, kind := Kind.ISO, next := hdrId } := by
    simp [create, hne, hne']
  refine ⟨?_, ?_, ?_, ?_, ?_, ?_, ?_, ?_, ?_⟩
  · rw [hhdr]
    exact ⟨rfl, by rw [hiso]; exact rfl⟩
  · rw [hhdr]
    exact rfl
  · rw [hhdr]
    simp [List.getLastD]
  · simp
  · rw [hiso]
  · intro p hp hpne
    simp at hp
    exact absurd hp hpne
  · intro p hp
    simp at hp
    rw [hp]
  · intro p hp
    simp at hp
  · simp [hne]

theorem headD_mem (l : List Nat) (d : Nat) (hne : l ≠ []) : l.headD d ∈ l := by
  cases l with
  | nil => exact absurd rfl hne
  | cons x xs => simp

/--
Helper — `alloc` preserves region well-formedness and prepends the fresh
object at the head of the ring matching its finaliser-need.
-/
theorem alloc_WF (h : Heap) (hdr iso oId : Nat) (prim sec : List Nat) (d : Descriptor)
    (hwf : RegionWF h hdr iso prim sec)
    (hfresh : oId ∉ hdr :: (prim ++ sec)) :
    RegionWF (alloc h iso oId d) hdr iso
      (if d.nfr = (h iso).nfr then oId :: prim else prim)
      (if d.nfr = (h iso).nfr then sec else oId :: sec) := by
  have hOH : oId ≠ hdr := by intro he; exact hfresh (by simp [he])
  have hOPS : oId ∉ prim ++ sec := by intro he; exact hfresh (by simp [he])
  have hOP : oId ∉ prim := fun he => hOPS (List.mem_append_left _ he)
  have hOS : oId ∉ sec := fun he => hOPS (List.mem_append_right _ he)
  have hHPS := hwf.hdr_notin h hdr iso prim sec
  have hHP : hdr ∉ prim := fun he => hHPS (List.mem_append_left _ he)
  have hHS : hdr ∉ sec := fun he => hHPS (List.mem_append_right _ he)
  have hIN := hwf.iso_next h hdr iso prim sec
  have hisoMem := hwf.iso_mem h hdr iso prim sec
  have hprimne := hwf.prim_ne_nil h hdr iso prim sec
  have hOI : oId ≠ iso := fun he => hOP (he ▸ hisoMem)
  have hIH : iso ≠ hdr := hwf.iso_ne_hdr h hdr iso prim sec
  have hhd0 : (h hdr).next = prim.headD hdr :=
    isChainFrom_headD h hdr ((h hdr).next) prim hwf.prim_chain
  have hhdmem : (h hdr).next ∈ prim := hhd0 ▸ headD_mem prim hdr hprimne
  have hhdne : (h hdr).next ≠ oId := fun he => hOP (he ▸ hhdmem)
  have halloc : alloc h iso oId d
      = use_memory (append (set_descriptor h oId d) hdr oId oId) hdr d.size := by
    simp only [alloc]
    rw [hIN]
  set h1 : Heap := set_descriptor h oId d with hh1
  have hp1 : (h1 hdr).next = (h hdr).next := by
    rw [hh1, set_descriptor_ne _ _ _ _ (Ne.symm hOH)]
  by_cases hcl : d.nfr = (h iso).nfr
  · -- the fresh object joins the primary ring
    have hcond : (h1 oId).nfr = (h1 ((h1 hdr).next)).nfr := by
      rw [hp1, hh1, set_descriptor_same, set_descriptor_ne _ _ _ _ hhdne]
      show d.nfr = (h ((h hdr).next)).nfr
      rw [hwf.prim_class _ hhdmem]
      exact hcl
    have happ : append h1 hdr oId oId
        = set_next (init_next h1 oId ((h1 hdr).next)) hdr oId := by
      unfold append
      rw [if_pos hcond]
    have hheap : alloc h iso oId d
        = use_memory (set_next (init_next h1 oId ((h1 hdr).next)) hdr oId) hdr d.size := by
      rw [halloc, happ]
    have hc_hdr : (alloc h iso oId d) hdr
        = { h hdr with next := oId, cur := (h hdr).cur + d.size } := by
      rw [hheap]
      rw [use_memory_same, set_next_same, init_next_ne _ _ _ _ (Ne.symm hOH), hh1,
        set_descriptor_ne _ _ _ _ (Ne.symm hOH)]
    have hc_o : (alloc h iso oId d) oId
        = { h oId with size := d.size, nfr := d.nfr, hasFin := d.hasFin, next := (h hdr).next, kind := Kind.UNMARKED } := by
      rw [hheap]
      rw [use_memory_ne _ _ _ _ hOH, set_next_ne _ _ _ _ hOH, init_next_same, hp1, hh1,
        set_descriptor_same]
    have hc_other : ∀ a, a ≠ hdr → a ≠ oId → (alloc h iso oId d) a = h a := by
      intro a ha1 ha2
      rw [hheap]
      rw [use_memory_ne _ _ _ _ ha1, set_next_ne _ _ _ _ ha1, init_next_ne _ _ _ _ ha2, hh1,
        set_descriptor_ne _ _ _ _ ha2]
    have hagree : ∀ a ∈ prim ++ sec, ((alloc h iso oId d) a).next = (h a).next := by
      intro a ha
      rw [hc_other a (fun he => hHPS (he ▸ ha)) (fun he => hOPS (he ▸ ha))]
    simp only [if_pos hcl]
    refine ⟨?_, ?_, ?_, ?_, ?_, ?_, ?_, ?_, ?_⟩
    · refine ⟨by rw [hc_hdr], ?_⟩
      have : ((alloc h iso oId d) oId).next = (h hdr).next := by rw [hc_o]
      rw [this]
      exact isChainFrom_congr h _ hdr prim
        (fun a ha => hagree a (List.mem_append_left _ ha)) _ hwf.prim_chain
    · have : ((alloc h iso oId d) hdr).nnr = (h hdr).nnr := by rw [hc_hdr]
      rw [this]
      exact isChainFrom_congr h _ hdr sec
        (fun a ha => hagree a (List.mem_append_right _ ha)) _ hwf.sec_chain
    · have : ((alloc h iso oId d) hdr).lnr = (h hdr).lnr := by rw [hc_hdr]
      rw [this]
      exact hwf.lnr_eq
    · rw [getLast?_cons_of_ne_nil oId prim hprimne]
      exact hwf.iso_last
    · rw [hc_other iso hIH (Ne.symm hOI)]
      exact hwf.iso_kind
    · intro p hp hpi
      simp at hp
      rcases hp with hpo | hpm | hps
      · subst hpo
        rw [hc_o]
      · rw [hc_other p (fun he => hHP (he ▸ hpm)) (fun he => hOP (he ▸ hpm))]
        exact hwf.interior_kind p (List.mem_append_left _ hpm) hpi
      · rw [hc_other p (fun he => hHS (he ▸ hps)) (fun he => hOS (he ▸ hps))]
        exact hwf.interior_kind p (List.mem_append_right _ hps) hpi
    · intro p hp
      have hisoc : ((alloc h iso oId d) iso).nfr = (h iso).nfr := by
        rw [hc_other iso hIH (Ne.symm hOI)]
      rcases List.mem_cons.1 hp with hpo | hpm
      · subst hpo
        rw [hc_o, hisoc]
        exact hcl
      · rw [hisoc, hc_other p (fun he => hHP (he ▸ hpm)) (fun he => hOP (he ▸ hpm))]
        exact hwf.prim_class p hpm
    · intro p hp
      have hisoc : ((alloc h iso oId d) iso).nfr = (h iso).nfr := by
        rw [hc_other iso hIH (Ne.symm hOI)]
      rw [hisoc, hc_other p (fun he => hHS (he ▸ hp)) (fun he => hOS (he ▸ hp))]
      exact hwf.sec_class p hp
    · have hold := hwf.nodup
      rw [List.nodup_cons] at hold
      simp only [List.cons_append, List.nodup_cons]
      refine ⟨?_, hOPS, hold.2⟩
      intro he
      rcases List.mem_cons.1 he with he1 | he2
      · exact hOH he1.symm
      · exact hold.1 he2
  · -- the fresh object joins the secondary ring
    have hcond : ¬((h1 oId).nfr = (h1 ((h1 hdr).next)).nfr) := by
      rw [hp1, hh1, set_descriptor_same, set_descriptor_ne _ _ _ _ hhdne]
      show ¬(d.nfr = (h ((h hdr).next)).nfr)
      rw [hwf.prim_class _ hhdmem]
      exact hcl
    have happ : append h1 hdr oId oId
        = (if ((set_nnr (init_next h1 oId ((h1 hdr).nnr)) hdr oId) hdr).lnr = hdr
            then set_lnr (set_nnr (init_next h1 oId ((h1 hdr).nnr)) hdr oId) hdr oId
            else set_nnr (init_next h1 oId ((h1 hdr).nnr)) hdr oId) := by
      unfold append
      rw [if_neg hcond]
    have hnnr1 : (h1 hdr).nnr = (h hdr).nnr := by
      rw [hh1, set_descriptor_ne _ _ _ _ (Ne.symm hOH)]
    have hlnrtest : ((set_nnr (init_next h1 oId ((h1 hdr).nnr)) hdr oId) hdr).lnr
        = sec.getLastD hdr := by
      rw [set_nnr_same, init_next_ne _ _ _ _ (Ne.symm hOH), hh1,
        set_descriptor_ne _ _ _ _ (Ne.symm hOH)]
      exact hwf.lnr_eq
    have hclb : d.nfr = !(h iso).nfr := by
      cases hb : (h iso).nfr <;> cases hdb : d.nfr <;> simp_all
    by_cases hsec : sec = []
    · subst hsec
      have hlnr0 : ((set_nnr (init_next h1 oId ((h1 hdr).nnr)) hdr oId) hdr).lnr = hdr := by
        rw [hlnrtest]
        rfl
      have hheap : alloc h iso oId d
          = use_memory (set_lnr (set_nnr (init_next h1 oId ((h1 hdr).nnr)) hdr oId) hdr oId)
              hdr d.size := by
        rw [halloc, happ, if_pos hlnr0]
      have hc_hdr : (alloc h iso oId d) hdr
          = { h hdr with nnr := oId, lnr := oId, cur := (h hdr).cur + d.size } := by
        rw [hheap]
        rw [use_memory_same, set_lnr_same, set_nnr_same, init_next_ne _ _ _ _ (Ne.symm hOH),
          hh1, set_descriptor_ne _ _ _ _ (Ne.symm hOH)]
      have hc_o : (alloc h iso oId d) oId
          = { h oId with size := d.size, nfr := d.nfr, hasFin := d.hasFin, next := (h hdr).nnr, kind := Kind.UNMARKED } := by
        rw [hheap]
        rw [use_memory_ne _ _ _ _ hOH, set_lnr_ne _ _ _ _ hOH, set_nnr_ne _ _ _ _ hOH,
          init_next_same, hnnr1, hh1, set_descriptor_same]
      have hc_other : ∀ a, a ≠ hdr → a ≠ oId → (alloc h iso oId d) a = h a := by
        intro a ha1 ha2
        rw [hheap]
        rw [use_memory_ne _ _ _ _ ha1, set_lnr_ne _ _ _ _ ha1, set_nnr_ne _ _ _ _ ha1,
          init_next_ne _ _ _ _ ha2, hh1, set_descriptor_ne _ _ _ _ ha2]
      have hnnrO : (h hdr).nnr = hdr :=
        isChainFrom_headD h hdr ((h hdr).nnr) [] hwf.sec_chain
      have hisoc : ((alloc h iso oId d) iso).nfr = (h iso).nfr := by
        rw [hc_other iso hIH (Ne.symm hOI)]
      simp only [if_neg hcl]
      refine ⟨?_, ?_, ?_, hwf.iso_last, ?_, ?_, ?_, ?_, ?_⟩
      · have : ((alloc h iso oId d) hdr).next = (h hdr).next := by rw [hc_hdr]
        rw [this]
        exact isChainFrom_congr h _ hdr prim
          (fun a ha => by
            rw [hc_other a (fun he => hHP (he ▸ ha)) (fun he => hOP (he ▸ ha))])
          _ hwf.prim_chain
      · refine ⟨by rw [hc_hdr], ?_⟩
        show isChainFrom _ hdr (((alloc h iso oId d) oId).next) []
        rw [hc_o]
        exact hnnrO
      · rw [hc_hdr]
        rfl
      · rw [hc_other iso hIH (Ne.symm hOI)]
        exact hwf.iso_kind
      · intro p hp hpi
        simp at hp
        rcases hp with hpm | hpo
        · rw [hc_other p (fun he => hHP (he ▸ hpm)) (fun he => hOP (he ▸ hpm))]
          exact hwf.interior_kind p (List.mem_append_left _ hpm) hpi
        · subst hpo
          rw [hc_o]
      · intro p hp
        rw [hisoc, hc_other p (fun he => hHP (he ▸ hp)) (fun he => hOP (he ▸ hp))]
        exact hwf.prim_class p hp
      · intro p hp
        simp at hp
        subst hp
        rw [hisoc, hc_o]
        exact hclb
      · have hold := hwf.nodup
        rw [List.nodup_cons] at hold
        simp only [List.append_nil] at hold
        rw [List.nodup_cons]
        constructor
        · intro he
          rcases List.mem_append.1 he with he1 | he2
          · exact hold.1 (by simpa using he1)
          · have he3 : hdr = oId := by simpa using he2
            exact hOH he3.symm
        · rw [List.nodup_append]
          refine ⟨hold.2, by simp, ?_⟩
          intro a ha hb
          simp at hb
          exact hOP (hb ▸ ha)
    · have hlnrne : ¬(((set_nnr (init_next h1 oId ((h1 hdr).nnr)) hdr oId) hdr).lnr = hdr) := by
        rw [hlnrtest]
        intro he
        exact hHS (he ▸ getLastD_mem sec hdr hsec)
      have hheap : alloc h iso oId d
          = use_memory (set_nnr (init_next h1 oId ((h1 hdr).nnr)) hdr oId) hdr d.size := by
        rw [halloc, happ, if_neg hlnrne]
      have hc_hdr : (alloc h iso oId d) hdr
          = { h hdr with nnr := oId, cur := (h hdr).cur + d.size } := by
        rw [hheap]
        rw [use_memory_same, set_nnr_same, init_next_ne _ _ _ _ (Ne.symm hOH),
          hh1, set_descriptor_ne _ _ _ _ (Ne.symm hOH)]
      have hc_o : (alloc h iso oId d) oId
          = { h oId with size := d.size, nfr := d.nfr, hasFin := d.hasFin, next := (h hdr).nnr, kind := Kind.UNMARKED } := by
        rw [hheap]
        rw [use_memory_ne _ _ _ _ hOH, set_nnr_ne _ _ _ _ hOH,
          init_next_same, hnnr1, hh1, set_descriptor_same]
      have hc_other : ∀ a, a ≠ hdr → a ≠ oId → (alloc h iso oId d) a = h a := by
        intro a ha1 ha2
        rw [hheap]
        rw [use_memory_ne _ _ _ _ ha1, set_nnr_ne _ _ _ _ ha1,
          init_next_ne _ _ _ _ ha2, hh1, set_descriptor_ne _ _ _ _ ha2]
      have hisoc : ((alloc h iso oId d) iso).nfr = (h iso).nfr := by
        rw [hc_other iso hIH (Ne.symm hOI)]
      simp only [if_neg hcl]
      refine ⟨?_, ?_, ?_, hwf.iso_last, ?_, ?_, ?_, ?_, ?_⟩
      · have : ((alloc h iso oId d) hdr).next = (h hdr).next := by rw [hc_hdr]
        rw [this]
        exact isChainFrom_congr h _ hdr prim
          (fun a ha => by
            rw [hc_other a (fun he => hHP (he ▸ ha)) (fun he => hOP (he ▸ ha))])
          _ hwf.prim_chain
      · have h1c : ((alloc h iso oId d) hdr).nnr = oId := by rw [hc_hdr]
        refine ⟨h1c, ?_⟩
        show isChainFrom _ hdr (((alloc h iso oId d) oId).next) sec
        have : ((alloc h iso oId d) oId).next = (h hdr).nnr := by rw [hc_o]
        rw [this]
        exact isChainFrom_congr h _ hdr sec
          (fun a ha => by
            rw [hc_other a (fun he => hHS (he ▸ ha)) (fun he => hOS (he ▸ ha))])
          _ hwf.sec_chain
      · have : ((alloc h iso oId d) hdr).lnr = (h hdr).lnr := by rw [hc_hdr]
        rw [this, hwf.lnr_eq, getLastD_cons_eq]
        exact getLastD_irrel sec hdr oId hsec
      · rw [hc_other iso hIH (Ne.symm hOI)]
        exact hwf.iso_kind
      · intro p hp hpi
        rcases List.mem_append.1 hp with hpm | hpo
        · rw [hc_other p (fun he => hHP (he ▸ hpm)) (fun he => hOP (he ▸ hpm))]
          exact hwf.interior_kind p (List.mem_append_left _ hpm) hpi
        · rcases List.mem_cons.1 hpo with hpo1 | hpo2
          · subst hpo1
            rw [hc_o]
          · rw [hc_other p (fun he => hHS (he ▸ hpo2)) (fun he => hOS (he ▸ hpo2))]
            exact hwf.interior_kind p (List.mem_append_right _ hpo2) hpi
      · intro p hp
        rw [hisoc, hc_other p (fun he => hHP (he ▸ hp)) (fun he => hOP (he ▸ hp))]
        exact hwf.prim_class p hp
      · intro p hp
        rcases List.mem_cons.1 hp with hpo | hpm
        · subst hpo
          rw [hisoc, hc_o]
          exact hclb
        · rw [hisoc, hc_other p (fun he => hHS (he ▸ hpm)) (fun he => hOS (he ▸ hpm))]
          exact hwf.sec_class p hpm
      · have hold := hwf.nodup
        rw [List.nodup_cons] at hold
        rw [List.nodup_cons]
        constructor
        · intro he
          rcases List.mem_append.1 he with he1 | he2
          · exact hold.1 (List.mem_append_left _ he1)
          · rcases List.mem_cons.1 he2 with he3 | he4
            · exact hOH he3.symm
            · exact hold.1 (List.mem_append_right _ he4)
        · have hdisj := (List.nodup_append.1 hold.2).2.2
          have hsn := (List.nodup_append.1 hold.2).2.1
          have hpn := (List.nodup_append.1 hold.2).1
          rw [List.nodup_append]
          refine ⟨hpn, ?_, ?_⟩
          · rw [List.nodup_cons]
            exact ⟨hOS, hsn⟩
          · intro a ha hb
            rcases List.mem_cons.1 hb with hb1 | hb2
            · exact hOP (hb1 ▸ ha)
            · exact hdisj ha hb2

theorem getLastD_concat (l : List Nat) (a d : Nat) : (l ++ [a]).getLastD d = a :=
  getLastD_eq_of_getLast? _ _ (List.getLast?_concat l) d

/-- A chain whose final link is redirected: all members keep their `next`
except the last one, which now points at `t'`. -/
theorem isChainFrom_retarget (h h' : Heap) (t t' : Nat) (l : List Nat) (z : Nat)
    (hz : l.getLast? = some z) (hnd : l.Nodup)
    (hagree : ∀ a ∈ l, a ≠ z → (h' a).next = (h a).next) (hzn : (h' z).next = t') :
    ∀ p, isChainFrom h t p l → isChainFrom h' t' p l := by
  induction l with
  | nil => intro p hp; simp at hz
  | cons a l ih =>
    intro p hp
    cases l with
    | nil =>
      simp at hz
      subst hz
      exact ⟨hp.1, by rw [hzn]; exact rfl⟩
    | cons b l2 =>
      rw [List.getLast?_cons_cons] at hz
      refine ⟨hp.1, ?_⟩
      have haz : a ≠ z := by
        intro he
        subst he
        exact (List.nodup_cons.1 hnd).1 (getLast?_mem _ _ hz)
      rw [hagree a (by simp) haz]
      exact ih hz (List.nodup_cons.1 hnd).2
        (fun c hc hcz => hagree c (List.mem_cons_of_mem _ hc) hcz) _ hp.2

theorem init_next_nfr (h : Heap) (p o q : Nat) :
    ((init_next h p o) q).nfr = (h q).nfr := by
  by_cases hq : q = p <;> simp_all

theorem set_next_nfr (h : Heap) (p o q : Nat) :
    ((set_next h p o) q).nfr = (h q).nfr := by
  by_cases hq : q = p <;> simp_all

theorem set_nnr_nfr (h : Heap) (p o q : Nat) :
    ((set_nnr h p o) q).nfr = (h q).nfr := by
  by_cases hq : q = p <;> simp_all

theorem set_lnr_nfr (h : Heap) (p o q : Nat) :
    ((set_lnr h p o) q).nfr = (h q).nfr := by
  by_cases hq : q = p <;> simp_all

theorem init_iso_nfr (h : Heap) (p q : Nat) :
    ((init_iso h p) q).nfr = (h q).nfr := by
  by_cases hq : q = p <;> simp_all

theorem set_region_nfr (h : Heap) (p o q : Nat) :
    ((set_region h p o) q).nfr = (h q).nfr := by
  by_cases hq : q = p <;> simp_all

/-- `swap_root_internal` never writes any `needs_finaliser_ring` flag. -/
theorem swap_root_internal_nfr (h : Heap) (hdr oroot nroot q : Nat) :
    ((swap_root_internal h hdr oroot nroot) q).nfr = (h q).nfr := by
  unfold swap_root_internal
  simp only []
  rw [set_region_nfr, init_iso_nfr]
  simp only [ite_heap_apply, apply_ite Obj.nfr, set_next_nfr, init_next_nfr, set_lnr_nfr,
    set_nnr_nfr, ite_self]

/--
Helper — `swap_root` within the same finaliser class: the rings are not
exchanged, the secondary ring is untouched, and the primary ring is re-linked
so the promoted `nroot` is its last node.
-/
theorem swap_root_WF_same (h : Heap) (hdr iso nroot : Nat) (prim sec : List Nat)
    (hwf : RegionWF h hdr iso prim sec) (hmemP : nroot ∈ prim) (hni : nroot ≠ iso)
    (hcl : (h nroot).nfr = (h iso).nfr) :
    ∃ prim', RegionWF (swap_root h iso nroot) hdr nroot prim' sec ∧
      prim'.getLast? = some nroot ∧ prim'.Perm prim := by
  have hIN := hwf.iso_next h hdr iso prim sec
  have hIH := hwf.iso_ne_hdr h hdr iso prim sec
  have hisoMem := hwf.iso_mem h hdr iso prim sec
  have hHPS := hwf.hdr_notin h hdr iso prim sec
  have hHP : hdr ∉ prim := fun he => hHPS (List.mem_append_left _ he)
  have hHS : hdr ∉ sec := fun he => hHPS (List.mem_append_right _ he)
  have hnd := hwf.rings_nodup h hdr iso prim sec
  have hpnd : prim.Nodup := (List.nodup_append.1 hnd).1
  have hdisj : prim.Disjoint sec := (List.nodup_append.1 hnd).2.2
  have hNH : nroot ≠ hdr := fun he => hHP (he ▸ hmemP)
  have hNI : iso ≠ nroot := Ne.symm hni
  have hswap : swap_root h iso nroot = swap_root_internal h hdr iso nroot := by
    unfold swap_root
    rw [hIN]
  have hnfr : ∀ a, ((swap_root h iso nroot) a).nfr = (h a).nfr := by
    intro a
    rw [hswap]
    exact swap_root_internal_nfr h hdr iso nroot a
  have heq : swap_root h iso nroot =
      updAt (updAt (updAt h iso fun x => { x with next := (h hdr).next, kind := Kind.UNMARKED })
          hdr fun x => { x with next := (h nroot).next })
        nroot fun x => { x with kind := Kind.ISO, next := hdr } := by
    rw [hswap]
    exact swap_root_internal_no_exchange h hdr iso nroot hcl.symm hNI
  have hcell_iso : (swap_root h iso nroot) iso
      = { h iso with next := (h hdr).next, kind := Kind.UNMARKED } := by
    rw [heq, updAt_ne _ _ _ _ hNI, updAt_ne _ _ _ _ hIH, updAt_same]
  have hcell_hdr : (swap_root h iso nroot) hdr
      = { h hdr with next := (h nroot).next } := by
    rw [heq, updAt_ne _ _ _ _ (Ne.symm hNH), updAt_same, updAt_ne _ _ _ _ (Ne.symm hIH)]
  have hcell_nroot : (swap_root h iso nroot) nroot
      = { h nroot with kind := Kind.ISO, next := hdr } := by
    rw [heq, updAt_same, updAt_ne _ _ _ _ hNH, updAt_ne _ _ _ _ (Ne.symm hNI)]
  have hcell_other : ∀ a, a ≠ iso → a ≠ hdr → a ≠ nroot → (swap_root h iso nroot) a = h a := by
    intro a h1 h2 h3
    rw [heq, updAt_ne _ _ _ _ h3, updAt_ne _ _ _ _ h2, updAt_ne _ _ _ _ h1]
  obtain hLprim : prim.dropLast ++ [iso] = prim :=
    List.dropLast_append_getLast? iso (by simp [hwf.iso_last])
  have hmemL : nroot ∈ prim.dropLast := by
    rcases List.mem_append.1 (hLprim ▸ hmemP) with hm | hm
    · exact hm
    · simp at hm
      exact absurd hm hni
  obtain ⟨l₁, l₂, hL⟩ := List.append_of_mem hmemL
  have hprimEq : prim = l₁ ++ (nroot :: (l₂ ++ [iso])) := by
    rw [← hLprim, hL]
    simp
  have hperm : (l₂ ++ (iso :: (l₁ ++ [nroot]))).Perm prim := by
    have e1 : l₂ ++ (iso :: (l₁ ++ [nroot])) = (l₂ ++ [iso]) ++ (l₁ ++ [nroot]) := by simp
    have e2 : prim = (l₁ ++ [nroot]) ++ (l₂ ++ [iso]) := by rw [hprimEq]; simp
    rw [e1, e2]
    exact List.perm_append_comm
  have hpnd' := hprimEq ▸ hpnd
  rw [List.nodup_append] at hpnd'
  have hcons := hpnd'.2.1
  rw [List.nodup_cons] at hcons
  have hNl₁ : nroot ∉ l₁ := fun he => hpnd'.2.2 he (by simp)
  have hNl₂ : nroot ∉ l₂ := fun he => hcons.1 (List.mem_append_left _ he)
  have hIl₁ : iso ∉ l₁ := fun he => hpnd'.2.2 he (by simp)
  have hIl₂ : iso ∉ l₂ := by
    have := hcons.2
    rw [List.nodup_append] at this
    intro he
    exact this.2.2 he (by simp)
  have hsub1 : ∀ a ∈ l₁, a ∈ prim := by
    intro a ha
    rw [hprimEq]
    exact List.mem_append_left _ ha
  have hsub2 : ∀ a ∈ l₂, a ∈ prim := by
    intro a ha
    rw [hprimEq]
    exact List.mem_append_right _ (by simp [ha])
  have hagree1 : ∀ a ∈ l₁, ((swap_root h iso nroot) a).next = (h a).next := by
    intro a ha
    rw [hcell_other a (fun he => hIl₁ (he ▸ ha)) (fun he => hHP (he ▸ hsub1 a ha))
      (fun he => hNl₁ (he ▸ ha))]
  have hagree2 : ∀ a ∈ l₂, ((swap_root h iso nroot) a).next = (h a).next := by
    intro a ha
    rw [hcell_other a (fun he => hIl₂ (he ▸ ha)) (fun he => hHP (he ▸ hsub2 a ha))
      (fun he => hNl₂ (he ▸ ha))]
  have hchain := hwf.prim_chain
  rw [hprimEq, isChainFrom_append] at hchain
  simp only [List.headD_cons] at hchain
  have hc1 : isChainFrom h nroot ((h hdr).next) l₁ := hchain.1
  have hc3 : isChainFrom h hdr ((h nroot).next) (l₂ ++ [iso]) := hchain.2.2
  rw [isChainFrom_append] at hc3
  simp only [List.headD_cons] at hc3
  have hc4 : isChainFrom h iso ((h nroot).next) l₂ := hc3.1
  refine ⟨l₂ ++ (iso :: (l₁ ++ [nroot])), ⟨?_, ?_, ?_, ?_, ?_, ?_, ?_, ?_, ?_⟩, ?_, hperm⟩
  · have hstart : ((swap_root h iso nroot) hdr).next = (h nroot).next := by rw [hcell_hdr]
    rw [hstart, isChainFrom_append]
    simp only [List.headD_cons]
    refine ⟨isChainFrom_congr h _ iso l₂ hagree2 _ hc4, rfl, ?_⟩
    have hisoN : ((swap_root h iso nroot) iso).next = (h hdr).next := by rw [hcell_iso]
    rw [hisoN, isChainFrom_append]
    simp only [List.headD_cons]
    refine ⟨isChainFrom_congr h _ nroot l₁ hagree1 _ hc1, rfl, ?_⟩
    show isChainFrom _ hdr (((swap_root h iso nroot) nroot).next) []
    rw [hcell_nroot]
    exact rfl
  · have : ((swap_root h iso nroot) hdr).nnr = (h hdr).nnr := by rw [hcell_hdr]
    rw [this]
    refine isChainFrom_congr h _ hdr sec ?_ _ hwf.sec_chain
    intro a ha
    rw [hcell_other a (fun he => hdisj hisoMem (he ▸ ha)) (fun he => hHS (he ▸ ha))
      (fun he => hdisj hmemP (he ▸ ha))]
  · have : ((swap_root h iso nroot) hdr).lnr = (h hdr).lnr := by rw [hcell_hdr]
    rw [this]
    exact hwf.lnr_eq
  · have : l₂ ++ (iso :: (l₁ ++ [nroot])) = (l₂ ++ (iso :: l₁)) ++ [nroot] := by simp
    rw [this, List.getLast?_concat]
  · rw [hcell_nroot]
  · intro p hp hpn
    by_cases hpi : p = iso
    · subst hpi
      rw [hcell_iso]
    · have hpm : p ∈ prim ++ sec := by
        rcases List.mem_append.1 hp with hp1 | hp2
        · exact List.mem_append_left _ (hperm.mem_iff.1 hp1)
        · exact List.mem_append_right _ hp2
      rw [hcell_other p hpi (fun he => hHPS (he ▸ hpm)) hpn]
      exact hwf.interior_kind p hpm hpi
  · intro p hp
    rw [hnfr p, hnfr nroot, hcl]
    exact hwf.prim_class p (hperm.mem_iff.1 hp)
  · intro p hp
    rw [hnfr p, hnfr nroot, hcl]
    exact hwf.sec_class p hp
  · have hpp : (hdr :: ((l₂ ++ (iso :: (l₁ ++ [nroot]))) ++ sec)).Perm (hdr :: (prim ++ sec)) :=
      (hperm.append_right sec).cons hdr
    exact hpp.symm.nodup hwf.nodup
  · have : l₂ ++ (iso :: (l₁ ++ [nroot])) = (l₂ ++ (iso :: l₁)) ++ [nroot] := by simp
    rw [this, List.getLast?_concat]

/--
Helper — `swap_root` across the finaliser classes: the two rings are
physically exchanged; the old primary ring (with the demoted iso as its
tail) becomes the secondary ring, and the old secondary ring — rotated when
`nroot` was not its tail — becomes the primary ring ending at `nroot`.
-/
theorem swap_root_WF_diff (h : Heap) (hdr iso nroot : Nat) (prim sec : List Nat)
    (hwf : RegionWF h hdr iso prim sec) (hmemS : nroot ∈ sec) (hni : nroot ≠ iso)
    (hcl : (h nroot).nfr ≠ (h iso).nfr) :
    ∃ prim', RegionWF (swap_root h iso nroot) hdr nroot prim' prim ∧
      prim'.getLast? = some nroot ∧ prim'.Perm sec := by
  have hIN := hwf.iso_next h hdr iso prim sec
  have hIH := hwf.iso_ne_hdr h hdr iso prim sec
  have hisoMem := hwf.iso_mem h hdr iso prim sec
  have hHPS := hwf.hdr_notin h hdr iso prim sec
  have hHP : hdr ∉ prim := fun he => hHPS (List.mem_append_left _ he)
  have hHS : hdr ∉ sec := fun he => hHPS (List.mem_append_right _ he)
  have hnd := hwf.rings_nodup h hdr iso prim sec
  have hpnd : prim.Nodup := (List.nodup_append.1 hnd).1
  have hsnd : sec.Nodup := (List.nodup_append.1 hnd).2.1
  have hdisj : prim.Disjoint sec := (List.nodup_append.1 hnd).2.2
  have hNH : nroot ≠ hdr := fun he => hHS (he ▸ hmemS)
  have hNI : iso ≠ nroot := Ne.symm hni
  have hIS : iso ∉ sec := fun he => hdisj hisoMem he
  have hswap : swap_root h iso nroot = swap_root_internal h hdr iso nroot := by
    unfold swap_root
    rw [hIN]
  have hnfr : ∀ a, ((swap_root h iso nroot) a).nfr = (h a).nfr := by
    intro a
    rw [hswap]
    exact swap_root_internal_nfr h hdr iso nroot a
  have hclB : (h iso).nfr ≠ (h nroot).nfr := Ne.symm hcl
  have heq0 : swap_root h iso nroot
      = (let h1 := init_next (set_lnr (set_nnr (set_next h hdr ((h hdr).nnr)) hdr ((h hdr).next)) hdr iso) iso hdr
         let h2 := if (h hdr).lnr ≠ nroot
           then set_next (init_next h1 ((h hdr).lnr) ((h1 hdr).next)) hdr ((h1 nroot).next)
           else h1
         set_region (init_iso h2 nroot) nroot hdr) := by
    rw [hswap]
    unfold swap_root_internal
    simp only [if_pos hclB]
  obtain ⟨s₁, s₂, hsecEq⟩ := List.append_of_mem hmemS
  have hsnd' := hsecEq ▸ hsnd
  rw [List.nodup_append] at hsnd'
  have hconsS := hsnd'.2.1
  rw [List.nodup_cons] at hconsS
  have hNs₁ : nroot ∉ s₁ := fun he => hsnd'.2.2 he (by simp)
  have hNs₂ : nroot ∉ s₂ := hconsS.1
  have hs₂nd : s₂.Nodup := hconsS.2
  have hsub1 : ∀ a ∈ s₁, a ∈ sec := by
    intro a ha
    rw [hsecEq]
    exact List.mem_append_left _ ha
  have hsub2 : ∀ a ∈ s₂, a ∈ sec := by
    intro a ha
    rw [hsecEq]
    exact List.mem_append_right _ (by simp [ha])
  -- decompose the old secondary chain
  have hchainS := hwf.sec_chain
  rw [hsecEq, isChainFrom_append] at hchainS
  simp only [List.headD_cons] at hchainS
  have hcS1 : isChainFrom h nroot ((h hdr).nnr) s₁ := hchainS.1
  have hcS3 : isChainFrom h hdr ((h nroot).next) s₂ := hchainS.2.2
  have hlnr := hwf.lnr_eq
  rw [hsecEq] at hlnr
  have hperm : (s₂ ++ (s₁ ++ [nroot])).Perm sec := by
    have e2 : sec = (s₁ ++ [nroot]) ++ s₂ := by rw [hsecEq]; simp
    rw [e2]
    exact List.perm_append_comm
  -- agreement of the primary-ring cells (for the new secondary chain)
  by_cases hs₂ : s₂ = []
  · -- `nroot` is the secondary tail: no extra splice
    subst hs₂
    have hsecEq' : sec = s₁ ++ [nroot] := by simpa using hsecEq
    have hlnrN : (h hdr).lnr = nroot := by
      rw [hwf.lnr_eq, hsecEq', getLastD_concat]
    have heq : swap_root h iso nroot
        = set_region (init_iso (init_next (set_lnr (set_nnr (set_next h hdr ((h hdr).nnr)) hdr ((h hdr).next)) hdr iso) iso hdr) nroot) nroot hdr := by
      rw [heq0]
      simp only [if_neg (show ¬((h hdr).lnr ≠ nroot) from by simp [hlnrN])]
    have hcell_hdr : (swap_root h iso nroot) hdr
        = { h hdr with next := (h hdr).nnr, nnr := (h hdr).next, lnr := iso } := by
      rw [heq, set_region_ne _ _ _ _ (Ne.symm hNH), init_iso_ne _ _ _ (Ne.symm hNH),
        init_next_ne _ _ _ _ (Ne.symm hIH), set_lnr_same, set_nnr_same, set_next_same]
    have hcell_iso : (swap_root h iso nroot) iso
        = { h iso with next := hdr, kind := Kind.UNMARKED } := by
      rw [heq, set_region_ne _ _ _ _ hNI, init_iso_ne _ _ _ hNI, init_next_same,
        set_lnr_ne _ _ _ _ hIH, set_nnr_ne _ _ _ _ hIH, set_next_ne _ _ _ _ hIH]
    have hcell_nroot : (swap_root h iso nroot) nroot
        = { h nroot with kind := Kind.ISO, next := hdr } := by
      rw [heq, set_region_same, init_iso_same, init_next_ne _ _ _ _ (Ne.symm hNI),
        set_lnr_ne _ _ _ _ hNH, set_nnr_ne _ _ _ _ hNH, set_next_ne _ _ _ _ hNH]
    have hcell_other : ∀ a, a ≠ iso → a ≠ hdr → a ≠ nroot →
        (swap_root h iso nroot) a = h a := by
      intro a h1 h2 h3
      rw [heq, set_region_ne _ _ _ _ h3, init_iso_ne _ _ _ h3, init_next_ne _ _ _ _ h1,
        set_lnr_ne _ _ _ _ h2, set_nnr_ne _ _ _ _ h2, set_next_ne _ _ _ _ h2]
    refine ⟨sec, ⟨?_, ?_, ?_, ?_, ?_, ?_, ?_, ?_, ?_⟩, ?_, List.Perm.refl sec⟩
    · -- primary chain: the old secondary ring
      have hstart : ((swap_root h iso nroot) hdr).next = (h hdr).nnr := by rw [hcell_hdr]
      rw [hstart, hsecEq', isChainFrom_append]
      simp only [List.headD_cons]
      refine ⟨?_, rfl, ?_⟩
      · refine isChainFrom_congr h _ nroot s₁ ?_ _ hcS1
        intro a ha
        rw [hcell_other a (fun he => hIS (he ▸ hsub1 a ha)) (fun he => hHS (he ▸ hsub1 a ha))
          (fun he => hNs₁ (he ▸ ha))]
      · show isChainFrom _ hdr (((swap_root h iso nroot) nroot).next) []
        rw [hcell_nroot]
        exact rfl
    · -- secondary chain: the old primary ring
      have hstart : ((swap_root h iso nroot) hdr).nnr = (h hdr).next := by rw [hcell_hdr]
      rw [hstart]
      refine isChainFrom_congr h _ hdr prim ?_ _ hwf.prim_chain
      intro a ha
      by_cases hai : a = iso
      · subst hai
        rw [hcell_iso, hIN]
      · rw [hcell_other a hai (fun he => hHP (he ▸ ha)) (fun he => hdisj ha (he ▸ hmemS))]
    · rw [hcell_hdr]
      show iso = prim.getLastD hdr
      exact (getLastD_eq_of_getLast? prim iso hwf.iso_last hdr).symm
    · rw [hsecEq', List.getLast?_concat]
    · rw [hcell_nroot]
    · intro p hp hpn
      by_cases hpi : p = iso
      · subst hpi
        rw [hcell_iso]
      · have hpm : p ∈ prim ++ sec := by
          rcases List.mem_append.1 hp with hp1 | hp2
          · exact List.mem_append_right _ hp1
          · exact List.mem_append_left _ hp2
        rw [hcell_other p hpi (fun he => hHPS (he ▸ hpm)) hpn]
        exact hwf.interior_kind p hpm hpi
    · intro p hp
      rw [hnfr p, hnfr nroot]
      rw [hwf.sec_class p hp, hwf.sec_class nroot hmemS]
    · intro p hp
      rw [hnfr p, hnfr nroot]
      rw [hwf.prim_class p hp, hwf.sec_class nroot hmemS]
      cases hb : (h iso).nfr <;> simp
    · have hpp : (hdr :: (sec ++ prim)).Perm (hdr :: (prim ++ sec)) :=
        (List.perm_append_comm).cons hdr
      exact hpp.symm.nodup hwf.nodup
    · rw [hsecEq', List.getLast?_concat]
  · -- `nroot` is interior to the secondary ring: the ring comes back rotated
    obtain ⟨z, hz⟩ : ∃ z, s₂.getLast? = some z := by
      cases hq : s₂.getLast? with
      | some z => exact ⟨z, rfl⟩
      | none =>
        cases s₂ with
        | nil => exact absurd rfl hs₂
        | cons a l => rw [List.getLast?_eq_getLast_of_ne_nil (by simp)] at hq; simp at hq
    have hzmem : z ∈ s₂ := getLast?_mem _ _ hz
    have hzN : z ≠ nroot := fun he => hNs₂ (he ▸ hzmem)
    have hzsec : z ∈ sec := hsub2 z hzmem
    have hzI : z ≠ iso := fun he => hIS (he ▸ hzsec)
    have hzH : z ≠ hdr := fun he => hHS (he ▸ hzsec)
    have hlnrZ : (h hdr).lnr = z := by
      rw [hwf.lnr_eq, hsecEq]
      have : (s₁ ++ nroot :: s₂).getLast? = some z := by
        rw [List.getLast?_append_of_ne_nil _ (by simp)]
        rw [getLast?_cons_of_ne_nil _ _ hs₂]
        exact hz
      exact getLastD_eq_of_getLast? _ _ this hdr
    have hlnrNe : (h hdr).lnr ≠ nroot := by
      rw [hlnrZ]
      exact hzN
    have heq : swap_root h iso nroot
        = (let h1 := init_next (set_lnr (set_nnr (set_next h hdr ((h hdr).nnr)) hdr ((h hdr).next)) hdr iso) iso hdr
           set_region (init_iso (set_next (init_next h1 ((h hdr).lnr) ((h1 hdr).next)) hdr ((h1 nroot).next)) nroot) nroot hdr) := by
      rw [heq0]
      simp only [if_pos hlnrNe]
    have hread1 : ((init_next (set_lnr (set_nnr (set_next h hdr ((h hdr).nnr)) hdr ((h hdr).next)) hdr iso) iso hdr : Heap) hdr).next = (h hdr).nnr := by
      rw [init_next_ne _ _ _ _ (Ne.symm hIH), set_lnr_same, set_nnr_same, set_next_same]
    have hread2 : ((init_next (set_lnr (set_nnr (set_next h hdr ((h hdr).nnr)) hdr ((h hdr).next)) hdr iso) iso hdr : Heap) nroot).next = (h nroot).next := by
      rw [init_next_ne _ _ _ _ (Ne.symm hNI), set_lnr_ne _ _ _ _ hNH, set_nnr_ne _ _ _ _ hNH,
        set_next_ne _ _ _ _ hNH]
    have hcell_hdr : (swap_root h iso nroot) hdr
        = { h hdr with next := (h nroot).next, nnr := (h hdr).next, lnr := iso } := by
      rw [heq]
      simp only []
      rw [set_region_ne _ _ _ _ (Ne.symm hNH), init_iso_ne _ _ _ (Ne.symm hNH), set_next_same,
        init_next_ne _ _ _ _ (Ne.symm (hlnrZ ▸ hzH)), hread2,
        init_next_ne _ _ _ _ (Ne.symm hIH), set_lnr_same, set_nnr_same, set_next_same]
    have hcell_iso : (swap_root h iso nroot) iso
        = { h iso with next := hdr, kind := Kind.UNMARKED } := by
      rw [heq]
      simp only []
      rw [set_region_ne _ _ _ _ hNI, init_iso_ne _ _ _ hNI, set_next_ne _ _ _ _ hIH,
        init_next_ne _ _ _ _ (hlnrZ ▸ hzI).symm, init_next_same,
        set_lnr_ne _ _ _ _ hIH, set_nnr_ne _ _ _ _ hIH, set_next_ne _ _ _ _ hIH]
    have hcell_nroot : (swap_root h iso nroot) nroot
        = { h nroot with kind := Kind.ISO, next := hdr } := by
      rw [heq]
      simp only []
      rw [set_region_same, init_iso_same, set_next_ne _ _ _ _ hNH,
        init_next_ne _ _ _ _ (hlnrZ ▸ hzN).symm,
        init_next_ne _ _ _ _ (Ne.symm hNI), set_lnr_ne _ _ _ _ hNH, set_nnr_ne _ _ _ _ hNH,
        set_next_ne _ _ _ _ hNH]
    have hcell_z : (swap_root h iso nroot) z
        = { h z with next := (h hdr).nnr, kind := Kind.UNMARKED } := by
      rw [heq]
      simp only []
      rw [set_region_ne _ _ _ _ hzN, init_iso_ne _ _ _ hzN, set_next_ne _ _ _ _ hzH,
        hlnrZ, init_next_same, hread1,
        init_next_ne _ _ _ _ hzI, set_lnr_ne _ _ _ _ hzH, set_nnr_ne _ _ _ _ hzH,
        set_next_ne _ _ _ _ hzH]
    have hcell_other : ∀ a, a ≠ iso → a ≠ hdr → a ≠ nroot → a ≠ z →
        (swap_root h iso nroot) a = h a := by
      intro a h1 h2 h3 h4
      rw [heq]
      simp only []
      rw [set_region_ne _ _ _ _ h3, init_iso_ne _ _ _ h3, set_next_ne _ _ _ _ h2,
        init_next_ne _ _ _ _ (hlnrZ ▸ h4), init_next_ne _ _ _ _ h1,
        set_lnr_ne _ _ _ _ h2, set_nnr_ne _ _ _ _ h2, set_next_ne _ _ _ _ h2]
    have hheadEq : (h hdr).nnr = (s₁ ++ [nroot]).headD hdr := by
      have h1 := isChainFrom_headD h hdr ((h hdr).nnr) sec hwf.sec_chain
      rw [hsecEq] at h1
      rw [h1]
      cases s₁ with
      | nil => simp
      | cons a l => simp
    refine ⟨s₂ ++ (s₁ ++ [nroot]), ⟨?_, ?_, ?_, ?_, ?_, ?_, ?_, ?_, ?_⟩, ?_, hperm⟩
    · -- primary chain: rotated old secondary ring
      have hstart : ((swap_root h iso nroot) hdr).next = (h nroot).next := by rw [hcell_hdr]
      rw [hstart, isChainFrom_append]
      constructor
      · refine isChainFrom_retarget h _ hdr ((s₁ ++ [nroot]).headD hdr) s₂ z hz hs₂nd ?_ ?_ _ hcS3
        · intro a ha haz
          rw [hcell_other a (fun he => hIS (he ▸ hsub2 a ha)) (fun he => hHS (he ▸ hsub2 a ha))
            (fun he => hNs₂ (he ▸ ha)) haz]
        · rw [hcell_z, ← hheadEq]
      · rw [isChainFrom_append]
        simp only [List.headD_cons]
        have hZs₁ : z ∉ s₁ := fun he => hsnd'.2.2 he (List.mem_cons_of_mem _ hzmem)
        refine ⟨?_, rfl, ?_⟩
        · rw [← hheadEq]
          refine isChainFrom_congr h _ nroot s₁ ?_ _ hcS1
          intro a ha
          rw [hcell_other a (fun he => hIS (he ▸ hsub1 a ha)) (fun he => hHS (he ▸ hsub1 a ha))
            (fun he => hNs₁ (he ▸ ha)) (fun he => hZs₁ (he ▸ ha))]
        · show isChainFrom _ hdr (((swap_root h iso nroot) nroot).next) []
          rw [hcell_nroot]
          exact rfl
    · -- secondary chain: the old primary ring
      have hstart : ((swap_root h iso nroot) hdr).nnr = (h hdr).next := by rw [hcell_hdr]
      rw [hstart]
      refine isChainFrom_congr h _ hdr prim ?_ _ hwf.prim_chain
      intro a ha
      by_cases hai : a = iso
      · subst hai
        rw [hcell_iso, hIN]
      · rw [hcell_other a hai (fun he => hHP (he ▸ ha)) (fun he => hdisj ha (he ▸ hmemS))
          (fun he => hdisj ha (he ▸ hzsec))]
    · rw [hcell_hdr]
      show iso = prim.getLastD hdr
      exact (getLastD_eq_of_getLast? prim iso hwf.iso_last hdr).symm
    · have : s₂ ++ (s₁ ++ [nroot]) = (s₂ ++ s₁) ++ [nroot] := by simp
      rw [this, List.getLast?_concat]
    · rw [hcell_nroot]
    · intro p hp hpn
      by_cases hpi : p = iso
      · subst hpi
        rw [hcell_iso]
      · by_cases hpz : p = z
        · subst hpz
          rw [hcell_z]
        · have hpm : p ∈ prim ++ sec := by
            rcases List.mem_append.1 hp with hp1 | hp2
            · exact List.mem_append_right _ (hperm.mem_iff.1 hp1)
            · exact List.mem_append_left _ hp2
          rw [hcell_other p hpi (fun he => hHPS (he ▸ hpm)) hpn hpz]
          exact hwf.interior_kind p hpm hpi
    · intro p hp
      rw [hnfr p, hnfr nroot]
      rw [hwf.sec_class p (hperm.mem_iff.1 hp), hwf.sec_class nroot hmemS]
    · intro p hp
      rw [hnfr p, hnfr nroot]
      rw [hwf.prim_class p hp, hwf.sec_class nroot hmemS]
      cases hb : (h iso).nfr <;> simp
    · have hpp : (hdr :: ((s₂ ++ (s₁ ++ [nroot])) ++ prim)).Perm (hdr :: (prim ++ sec)) :=
        ((hperm.append_right prim).trans List.perm_append_comm).cons hdr
      exact hpp.symm.nodup hwf.nodup
    · have : s₂ ++ (s₁ ++ [nroot]) = (s₂ ++ s₁) ++ [nroot] := by simp
      rw [this, List.getLast?_concat]

theorem headD_irrel (l : List Nat) (d d' : Nat) (hne : l ≠ []) : l.headD d = l.headD d' := by
  cases l with
  | nil => exact absurd rfl hne
  | cons x xs => rfl

theorem append_nfr (h : Heap) (hdr hd tl q : Nat) :
    ((append h hdr hd tl) q).nfr = (h q).nfr := by
  unfold append
  split
  · by_cases h1 : q = hdr <;> by_cases h2 : q = tl <;> simp_all
  · simp only []
    split <;> by_cases h1 : q = hdr <;> by_cases h2 : q = tl <;> simp_all

/-- Region well-formedness only looks at the header's ring fields and the
ring members' cells. -/
theorem RegionWF_congr (h h' : Heap) (hdr iso : Nat) (prim sec : List Nat)
    (hwf : RegionWF h hdr iso prim sec)
    (hh1 : (h' hdr).next = (h hdr).next) (hh2 : (h' hdr).nnr = (h hdr).nnr)
    (hh3 : (h' hdr).lnr = (h hdr).lnr)
    (hcells : ∀ a ∈ prim ++ sec, h' a = h a) : RegionWF h' hdr iso prim sec := by
  have hiso := hwf.iso_mem h hdr iso prim sec
  refine ⟨?_, ?_, ?_, hwf.iso_last, ?_, ?_, ?_, ?_, hwf.nodup⟩
  · rw [hh1]
    exact isChainFrom_congr h h' hdr prim
      (fun a ha => by rw [hcells a (List.mem_append_left _ ha)]) _ hwf.prim_chain
  · rw [hh2]
    exact isChainFrom_congr h h' hdr sec
      (fun a ha => by rw [hcells a (List.mem_append_right _ ha)]) _ hwf.sec_chain
  · rw [hh3]
    exact hwf.lnr_eq
  · rw [hcells iso (List.mem_append_left _ hiso)]
    exact hwf.iso_kind
  · intro p hp hpi
    rw [hcells p hp]
    exact hwf.interior_kind p hp hpi
  · intro p hp
    rw [hcells p (List.mem_append_left _ hp), hcells iso (List.mem_append_left _ hiso)]
    exact hwf.prim_class p hp
  · intro p hp
    rw [hcells p (List.mem_append_right _ hp), hcells iso (List.mem_append_left _ hiso)]
    exact hwf.sec_class p hp

/--
Helper — `append` splices a donated chain `hd .. tl` (the list `dl`) into
the ring whose finaliser-need matches `hd`, immediately after the header;
the donated tail is re-linked (and thereby demoted to `UNMARKED`).
-/
theorem append_WF (h : Heap) (hdr iso t0 hd tl : Nat) (prim sec dl : List Nat)
    (hwf : RegionWF h hdr iso prim sec)
    (hlast : dl.getLast? = some tl)
    (hchain : isChainFrom h t0 hd dl)
    (hknd : ∀ a ∈ dl, a ≠ tl → (h a).kind = Kind.UNMARKED)
    (hcls : ∀ a ∈ dl, (h a).nfr = (h hd).nfr)
    (hdln : dl.Nodup)
    (hsep : ∀ a ∈ dl, a ∉ hdr :: (prim ++ sec)) :
    RegionWF (append h hdr hd tl) hdr iso
      (if (h hd).nfr = (h iso).nfr then dl ++ prim else prim)
      (if (h hd).nfr = (h iso).nfr then sec else dl ++ sec) := by
  have hdlne : dl ≠ [] := by
    intro he
    rw [he] at hlast
    simp at hlast
  have htlmem : tl ∈ dl := getLast?_mem _ _ hlast
  have hhdmem : hd ∈ dl := by
    have := isChainFrom_headD h t0 hd dl hchain
    rw [this]
    exact headD_mem dl t0 hdlne
  have hIH := hwf.iso_ne_hdr h hdr iso prim sec
  have hisoMem := hwf.iso_mem h hdr iso prim sec
  have hprimne := hwf.prim_ne_nil h hdr iso prim sec
  have hHPS := hwf.hdr_notin h hdr iso prim sec
  have hHP : hdr ∉ prim := fun he => hHPS (List.mem_append_left _ he)
  have hHS : hdr ∉ sec := fun he => hHPS (List.mem_append_right _ he)
  have hTH : tl ≠ hdr := fun he => hsep tl htlmem (by simp [he])
  have hTP : tl ∉ prim := fun he => hsep tl htlmem (by simp [he])
  have hTS : tl ∉ sec := fun he => hsep tl htlmem (by simp [he])
  have hTI : tl ≠ iso := fun he => hTP (he ▸ hisoMem)
  have hp0 : (h hdr).next = prim.headD hdr :=
    isChainFrom_headD h hdr ((h hdr).next) prim hwf.prim_chain
  have hp0mem : (h hdr).next ∈ prim := hp0 ▸ headD_mem prim hdr hprimne
  have hnfr : ∀ a, ((append h hdr hd tl) a).nfr = (h a).nfr := append_nfr h hdr hd tl
  have hcondIff : ((h hd).nfr = (h ((h hdr).next)).nfr) ↔ ((h hd).nfr = (h iso).nfr) := by
    rw [hwf.prim_class _ hp0mem]
  by_cases hcl : (h hd).nfr = (h iso).nfr
  · -- splice into the primary ring
    have heq : append h hdr hd tl = set_next (init_next h tl ((h hdr).next)) hdr hd := by
      unfold append
      rw [if_pos (hcondIff.2 hcl)]
    have hcell_hdr : (append h hdr hd tl) hdr = { h hdr with next := hd } := by
      rw [heq, set_next_same, init_next_ne _ _ _ _ (Ne.symm hTH)]
    have hcell_tl : (append h hdr hd tl) tl
        = { h tl with next := (h hdr).next, kind := Kind.UNMARKED } := by
      rw [heq, set_next_ne _ _ _ _ hTH, init_next_same]
    have hcell_other : ∀ a, a ≠ hdr → a ≠ tl → (append h hdr hd tl) a = h a := by
      intro a h1 h2
      rw [heq, set_next_ne _ _ _ _ h1, init_next_ne _ _ _ _ h2]
    simp only [if_pos hcl]
    refine ⟨?_, ?_, ?_, ?_, ?_, ?_, ?_, ?_, ?_⟩
    · have hstart : ((append h hdr hd tl) hdr).next = hd := by rw [hcell_hdr]
      rw [hstart, isChainFrom_append]
      constructor
      · refine isChainFrom_retarget h _ t0 (prim.headD hdr) dl tl hlast hdln ?_ ?_ _ hchain
        · intro a ha haz
          rw [hcell_other a (fun he => hsep a ha (by simp [he])) haz]
        · rw [hcell_tl, ← hp0]
      · rw [← hp0]
        refine isChainFrom_congr h _ hdr prim ?_ _ hwf.prim_chain
        intro a ha
        rw [hcell_other a (fun he => hHP (he ▸ ha)) (fun he => hTP (he ▸ ha))]
    · have : ((append h hdr hd tl) hdr).nnr = (h hdr).nnr := by rw [hcell_hdr]
      rw [this]
      refine isChainFrom_congr h _ hdr sec ?_ _ hwf.sec_chain
      intro a ha
      rw [hcell_other a (fun he => hHS (he ▸ ha)) (fun he => hTS (he ▸ ha))]
    · have : ((append h hdr hd tl) hdr).lnr = (h hdr).lnr := by rw [hcell_hdr]
      rw [this]
      exact hwf.lnr_eq
    · rw [List.getLast?_append_of_ne_nil _ hprimne]
      exact hwf.iso_last
    · rw [hcell_other iso hIH (Ne.symm hTI)]
      exact hwf.iso_kind
    · intro p hp hpi
      rcases List.mem_append.1 hp with hp1 | hp2
      · rcases List.mem_append.1 hp1 with hpd | hpp
        · by_cases hpt : p = tl
          · subst hpt
            rw [hcell_tl]
          · rw [hcell_other p (fun he => hsep p hpd (by simp [he])) hpt]
            exact hknd p hpd hpt
        · rw [hcell_other p (fun he => hHP (he ▸ hpp)) (fun he => hTP (he ▸ hpp))]
          exact hwf.interior_kind p (List.mem_append_left _ hpp) hpi
      · rw [hcell_other p (fun he => hHS (he ▸ hp2)) (fun he => hTS (he ▸ hp2))]
        exact hwf.interior_kind p (List.mem_append_right _ hp2) hpi
    · intro p hp
      rw [hnfr p, hnfr iso]
      rcases List.mem_append.1 hp with hpd | hpp
      · rw [hcls p hpd]
        exact hcl
      · exact hwf.prim_class p hpp
    · intro p hp
      rw [hnfr p, hnfr iso]
      exact hwf.sec_class p hp
    · rw [List.nodup_cons]
      constructor
      · intro he
        rcases List.mem_append.1 he with he1 | he2
        · rcases List.mem_append.1 he1 with he3 | he4
          · exact hsep hdr he3 (by simp)
          · exact hHP he4
        · exact hHS he2
      · have hold := hwf.rings_nodup h hdr iso prim sec
        rw [List.nodup_append] at hold
        have e1 : (dl ++ prim) ++ sec = dl ++ (prim ++ sec) := by simp
        rw [e1, List.nodup_append]
        refine ⟨hdln, List.nodup_append.2 ⟨hold.1, hold.2.1, hold.2.2⟩, ?_⟩
        intro a ha hb
        exact hsep a ha (by simp [hb])
  · -- splice into the secondary ring
    have heq0 : append h hdr hd tl
        = (if ((set_nnr (init_next h tl ((h hdr).nnr)) hdr hd) hdr).lnr = hdr
            then set_lnr (set_nnr (init_next h tl ((h hdr).nnr)) hdr hd) hdr tl
            else set_nnr (init_next h tl ((h hdr).nnr)) hdr hd) := by
      unfold append
      rw [if_neg (fun hc => hcl (hcondIff.1 hc))]
    have hlnrtest : ((set_nnr (init_next h tl ((h hdr).nnr)) hdr hd) hdr).lnr
        = sec.getLastD hdr := by
      rw [set_nnr_same, init_next_ne _ _ _ _ (Ne.symm hTH)]
      exact hwf.lnr_eq
    have hsh : (h hdr).nnr = sec.headD hdr :=
      isChainFrom_headD h hdr ((h hdr).nnr) sec hwf.sec_chain
    have hclb : (h hd).nfr = !(h iso).nfr := by
      cases hb : (h iso).nfr <;> cases hdb : (h hd).nfr <;> simp_all
    by_cases hsec : sec = []
    · subst hsec
      have hlnr0 : ((set_nnr (init_next h tl ((h hdr).nnr)) hdr hd) hdr).lnr = hdr := by
        rw [hlnrtest]
        rfl
      have heq : append h hdr hd tl
          = set_lnr (set_nnr (init_next h tl ((h hdr).nnr)) hdr hd) hdr tl := by
        rw [heq0, if_pos hlnr0]
      have hcell_hdr : (append h hdr hd tl) hdr
          = { h hdr with nnr := hd, lnr := tl } := by
        rw [heq, set_lnr_same, set_nnr_same, init_next_ne _ _ _ _ (Ne.symm hTH)]
      have hcell_tl : (append h hdr hd tl) tl
          = { h tl with next := (h hdr).nnr, kind := Kind.UNMARKED } := by
        rw [heq, set_lnr_ne _ _ _ _ hTH, set_nnr_ne _ _ _ _ hTH, init_next_same]
      have hcell_other : ∀ a, a ≠ hdr → a ≠ tl → (append h hdr hd tl) a = h a := by
        intro a h1 h2
        rw [heq, set_lnr_ne _ _ _ _ h1, set_nnr_ne _ _ _ _ h1, init_next_ne _ _ _ _ h2]
      have hnnrH : (h hdr).nnr = hdr :=
        isChainFrom_headD h hdr ((h hdr).nnr) [] hwf.sec_chain
      simp only [if_neg hcl, List.append_nil]
      refine ⟨?_, ?_, ?_, hwf.iso_last, ?_, ?_, ?_, ?_, ?_⟩
      · have : ((append h hdr hd tl) hdr).next = (h hdr).next := by rw [hcell_hdr]
        rw [this]
        refine isChainFrom_congr h _ hdr prim ?_ _ hwf.prim_chain
        intro a ha
        rw [hcell_other a (fun he => hHP (he ▸ ha)) (fun he => hTP (he ▸ ha))]
      · have hstart : ((append h hdr hd tl) hdr).nnr = hd := by rw [hcell_hdr]
        rw [hstart]
        refine isChainFrom_retarget h _ t0 hdr dl tl hlast hdln ?_ ?_ _ hchain
        · intro a ha haz
          rw [hcell_other a (fun he => hsep a ha (by simp [he])) haz]
        · rw [hcell_tl]
          exact hnnrH
      · rw [hcell_hdr]
        show tl = dl.getLastD hdr
        exact (getLastD_eq_of_getLast? dl tl hlast hdr).symm
      · rw [hcell_other iso hIH (Ne.symm hTI)]
        exact hwf.iso_kind
      · intro p hp hpi
        rcases List.mem_append.1 hp with hp1 | hp2
        · rw [hcell_other p (fun he => hHP (he ▸ hp1)) (fun he => hTP (he ▸ hp1))]
          exact hwf.interior_kind p (List.mem_append_left _ hp1) hpi
        · by_cases hpt : p = tl
          · subst hpt
            rw [hcell_tl]
          · rw [hcell_other p (fun he => hsep p hp2 (by simp [he])) hpt]
            exact hknd p hp2 hpt
      · intro p hp
        rw [hnfr p, hnfr iso]
        exact hwf.prim_class p hp
      · intro p hp
        rw [hnfr p, hnfr iso, hcls p hp]
        exact hclb
      · rw [List.nodup_cons]
        constructor
        · intro he
          rcases List.mem_append.1 he with he1 | he2
          · exact hHP he1
          · exact hsep hdr he2 (by simp)
        · have hold := hwf.rings_nodup h hdr iso prim []
          rw [List.nodup_append]
          simp only [List.append_nil] at hold
          refine ⟨hold, hdln, ?_⟩
          intro a ha hb
          exact hsep a hb (by simp [ha])
    · have hlnrNe : ¬(((set_nnr (init_next h tl ((h hdr).nnr)) hdr hd) hdr).lnr = hdr) := by
        rw [hlnrtest]
        intro he
        exact hHS (he ▸ getLastD_mem sec hdr hsec)
      have heq : append h hdr hd tl = set_nnr (init_next h tl ((h hdr).nnr)) hdr hd := by
        rw [heq0, if_neg hlnrNe]
      have hcell_hdr : (append h hdr hd tl) hdr = { h hdr with nnr := hd } := by
        rw [heq, set_nnr_same, init_next_ne _ _ _ _ (Ne.symm hTH)]
      have hcell_tl : (append h hdr hd tl) tl
          = { h tl with next := (h hdr).nnr, kind := Kind.UNMARKED } := by
        rw [heq, set_nnr_ne _ _ _ _ hTH, init_next_same]
      have hcell_other : ∀ a, a ≠ hdr → a ≠ tl → (append h hdr hd tl) a = h a := by
        intro a h1 h2
        rw [heq, set_nnr_ne _ _ _ _ h1, init_next_ne _ _ _ _ h2]
      simp only [if_neg hcl]
      refine ⟨?_, ?_, ?_, hwf.iso_last, ?_, ?_, ?_, ?_, ?_⟩
      · have : ((append h hdr hd tl) hdr).next = (h hdr).next := by rw [hcell_hdr]
        rw [this]
        refine isChainFrom_congr h _ hdr prim ?_ _ hwf.prim_chain
        intro a ha
        rw [hcell_other a (fun he => hHP (he ▸ ha)) (fun he => hTP (he ▸ ha))]
      · have hstart : ((append h hdr hd tl) hdr).nnr = hd := by rw [hcell_hdr]
        rw [hstart, isChainFrom_append]
        constructor
        · refine isChainFrom_retarget h _ t0 (sec.headD hdr) dl tl hlast hdln ?_ ?_ _ hchain
          · intro a ha haz
            rw [hcell_other a (fun he => hsep a ha (by simp [he])) haz]
          · rw [hcell_tl, ← hsh]
        · rw [← hsh]
          refine isChainFrom_congr h _ hdr sec ?_ _ hwf.sec_chain
          intro a ha
          rw [hcell_other a (fun he => hHS (he ▸ ha)) (fun he => hTS (he ▸ ha))]
      · have : ((append h hdr hd tl) hdr).lnr = (h hdr).lnr := by rw [hcell_hdr]
        rw [this, hwf.lnr_eq]
        obtain ⟨w, hw⟩ : ∃ w, sec.getLast? = some w := by
          cases sec with
          | nil => exact absurd rfl hsec
          | cons a t => exact ⟨_, List.getLast?_eq_getLast_of_ne_nil (by simp)⟩
        rw [getLastD_eq_of_getLast? sec w hw hdr,
          getLastD_eq_of_getLast? (dl ++ sec) w
            (by rw [List.getLast?_append_of_ne_nil _ hsec]; exact hw) hdr]
      · rw [hcell_other iso hIH (Ne.symm hTI)]
        exact hwf.iso_kind
      · intro p hp hpi
        rcases List.mem_append.1 hp with hp1 | hp2
        · rw [hcell_other p (fun he => hHP (he ▸ hp1)) (fun he => hTP (he ▸ hp1))]
          exact hwf.interior_kind p (List.mem_append_left _ hp1) hpi
        · rcases List.mem_append.1 hp2 with hpd | hps
          · by_cases hpt : p = tl
            · subst hpt
              rw [hcell_tl]
            · rw [hcell_other p (fun he => hsep p hpd (by simp [he])) hpt]
              exact hknd p hpd hpt
          · rw [hcell_other p (fun he => hHS (he ▸ hps)) (fun he => hTS (he ▸ hps))]
            exact hwf.interior_kind p (List.mem_append_right _ hps) hpi
      · intro p hp
        rw [hnfr p, hnfr iso]
        exact hwf.prim_class p hp
      · intro p hp
        rw [hnfr p, hnfr iso]
        rcases List.mem_append.1 hp with hpd | hps
        · rw [hcls p hpd]
          exact hclb
        · exact hwf.sec_class p hps
      · rw [List.nodup_cons]
        constructor
        · intro he
          rcases List.mem_append.1 he with he1 | he2
          · exact hHP he1
          · rcases List.mem_append.1 he2 with he3 | he4
            · exact hsep hdr he3 (by simp)
            · exact hHS he4
        · have hold := hwf.rings_nodup h hdr iso prim sec
          rw [List.nodup_append] at hold
          rw [List.nodup_append]
          refine ⟨hold.1, ?_, ?_⟩
          · rw [List.nodup_append]
            refine ⟨hdln, hold.2.1, ?_⟩
            intro a ha hb
            exact hsep a ha (by simp [hb])
          · intro a ha hb
            rcases List.mem_append.1 hb with hb1 | hb2
            · exact hsep a hb1 (by simp [ha])
            · exact hold.2.2 ha hb2

theorem append_frame (h : Heap) (hdr hd tl a : Nat) (h1 : a ≠ hdr) (h2 : a ≠ tl) :
    (append h hdr hd tl) a = h a := by
  unfold append
  split
  · rw [set_next_ne _ _ _ _ h1, init_next_ne _ _ _ _ h2]
  · simp only []
    split
    · rw [set_lnr_ne _ _ _ _ h1, set_nnr_ne _ _ _ _ h1, init_next_ne _ _ _ _ h2]
    · rw [set_nnr_ne _ _ _ _ h1, init_next_ne _ _ _ _ h2]

theorem append_tl_kind (h : Heap) (hdr hd tl : Nat) (htl : tl ≠ hdr) :
    ((append h hdr hd tl) tl).kind = Kind.UNMARKED := by
  unfold append
  split
  · rw [set_next_ne _ _ _ _ htl, init_next_same]
  · simp only []
    split
    · rw [set_lnr_ne _ _ _ _ htl, set_nnr_ne _ _ _ _ htl, init_next_same]
    · rw [set_nnr_ne _ _ _ _ htl, init_next_same]

theorem RegionWF_add_cur (h : Heap) (hdr iso : Nat) (prim sec : List Nat) (v : Nat)
    (hwf : RegionWF h hdr iso prim sec) : RegionWF (add_cur h hdr v) hdr iso prim sec := by
  refine RegionWF_congr h _ hdr iso prim sec hwf ?_ ?_ ?_ ?_
  · rw [add_cur_same]
  · rw [add_cur_same]
  · rw [add_cur_same]
  · intro a ha
    rw [add_cur_ne _ _ _ _ (fun (he : a = hdr) => (hwf.hdr_notin h hdr iso prim sec) (he ▸ ha))]

theorem RegionWF_set_prevSc (h : Heap) (hdr iso : Nat) (prim sec : List Nat) (v : Nat)
    (hwf : RegionWF h hdr iso prim sec) : RegionWF (set_prevSc h hdr v) hdr iso prim sec := by
  refine RegionWF_congr h _ hdr iso prim sec hwf ?_ ?_ ?_ ?_
  · rw [set_prevSc_same]
  · rw [set_prevSc_same]
  · rw [set_prevSc_same]
  · intro a ha
    rw [set_prevSc_ne _ _ _ _ (fun (he : a = hdr) => (hwf.hdr_notin h hdr iso prim sec) (he ▸ ha))]

/--
Helper — `merge` concatenates the donated region's rings in front of the
matching rings of the receiving region and keeps it well-formed; the donated
iso is demoted to a regular `UNMARKED` interior node sitting at the tail of
the donated primary chain.
-/
theorem merge_WF (h : Heap) (hdr iso ohdr oiso : Nat) (prim sec oprim osec : List Nat)
    (hwf : RegionWF h hdr iso prim sec) (hwfO : RegionWF h ohdr oiso oprim osec)
    (hsep : ∀ a ∈ ohdr :: (oprim ++ osec), a ∉ hdr :: (prim ++ sec)) :
    RegionWF (merge h iso oiso) hdr iso
      (if (h oiso).nfr = (h iso).nfr then oprim ++ prim else osec ++ prim)
      (if (h oiso).nfr = (h iso).nfr then osec ++ sec else oprim ++ sec)
    ∧ ((merge h iso oiso) oiso).kind = Kind.UNMARKED
    ∧ ∃ oL, oprim = oL ++ [oiso] := by
  have hIN1 := hwf.iso_next h hdr iso prim sec
  have hIN2 := hwfO.iso_next h ohdr oiso oprim osec
  have hoiMem := hwfO.iso_mem h ohdr oiso oprim osec
  have hoprimne := hwfO.prim_ne_nil h ohdr oiso oprim osec
  have hOHPS := hwfO.hdr_notin h ohdr oiso oprim osec
  have hOndAll := hwfO.rings_nodup h ohdr oiso oprim osec
  rw [List.nodup_append] at hOndAll
  have hOdisj : oprim.Disjoint osec := hOndAll.2.2
  have hOprimSep : ∀ a ∈ oprim, a ∉ hdr :: (prim ++ sec) := fun a ha => hsep a (by simp [ha])
  have hOsecSep : ∀ a ∈ osec, a ∉ hdr :: (prim ++ sec) := fun a ha => hsep a (by simp [ha])
  have hHd1 : (h ohdr).next = oprim.headD ohdr :=
    isChainFrom_headD h ohdr ((h ohdr).next) oprim hwfO.prim_chain
  have hHd1mem : (h ohdr).next ∈ oprim := hHd1 ▸ headD_mem oprim ohdr hoprimne
  have hcond1 : (h ohdr).next ≠ ohdr := by
    intro he
    exact hOHPS (List.mem_append_left _ (he ▸ hHd1mem))
  have hOiH : oiso ≠ hdr := fun he => hOprimSep oiso hoiMem (by simp [he])
  have hOhHne : ohdr ≠ hdr := fun he => hsep ohdr (by simp) (by simp [he])
  have hOhOi : ohdr ≠ oiso := Ne.symm (hwfO.iso_ne_hdr h ohdr oiso oprim osec)
  have hOiOsec : oiso ∉ osec := fun he => hOdisj hoiMem he
  have hhd1cls : (h ((h ohdr).next)).nfr = (h oiso).nfr := hwfO.prim_class _ hHd1mem
  have hwf1 := append_WF h hdr iso ohdr ((h ohdr).next) oiso prim sec oprim hwf
    hwfO.iso_last hwfO.prim_chain
    (fun a ha hane => hwfO.interior_kind a (List.mem_append_left _ ha) hane)
    (fun a ha => by rw [hwfO.prim_class a ha, hhd1cls])
    hOndAll.1 hOprimSep
  simp only [hhd1cls] at hwf1
  have hframe1 : ∀ a, a ≠ hdr → a ≠ oiso →
      (append h hdr ((h ohdr).next) oiso) a = h a := fun a h1 h2 =>
    append_frame h hdr ((h ohdr).next) oiso a h1 h2
  have hohdr1 : (append h hdr ((h ohdr).next) oiso) ohdr = h ohdr :=
    hframe1 ohdr hOhHne hOhOi
  refine ⟨?_, ?_, ⟨oprim.dropLast, (List.dropLast_append_getLast? oiso
    (by simp [hwfO.iso_last])).symm⟩⟩
  · -- well-formedness of the merged region
    unfold merge merge_internal
    rw [hIN1, hIN2]
    simp only [if_pos hcond1, hohdr1]
    apply RegionWF_set_prevSc
    apply RegionWF_add_cur
    by_cases hosec : osec = []
    · have hnnrOh : (h ohdr).nnr = ohdr := by
        have := isChainFrom_headD h ohdr ((h ohdr).nnr) osec hwfO.sec_chain
        rw [this, hosec]
        rfl
      rw [if_neg (by simp [hnnrOh])]
      rw [hosec]
      simp only [List.nil_append, List.append_nil]
      by_cases hc : (h oiso).nfr = (h iso).nfr
      · simp only [if_pos hc] at hwf1 ⊢
        exact hwf1
      · simp only [if_neg hc] at hwf1 ⊢
        exact hwf1
    · have hnnrOh : (h ohdr).nnr = osec.headD ohdr :=
        isChainFrom_headD h ohdr ((h ohdr).nnr) osec hwfO.sec_chain
      have hnnrMem : (h ohdr).nnr ∈ osec := hnnrOh ▸ headD_mem osec ohdr hosec
      have hcond2 : (h ohdr).nnr ≠ ohdr := by
        intro he
        exact hOHPS (List.mem_append_right _ (he ▸ hnnrMem))
      rw [if_pos hcond2]
      obtain ⟨ozl, hozl⟩ : ∃ w, osec.getLast? = some w := by
        cases osec with
        | nil => exact absurd rfl hosec
        | cons a t => exact ⟨_, List.getLast?_eq_getLast_of_ne_nil (by simp)⟩
      have hozlMem : ozl ∈ osec := getLast?_mem _ _ hozl
      have hlnrOh : (h ohdr).lnr = ozl := by
        rw [hwfO.lnr_eq]
        exact getLastD_eq_of_getLast? osec ozl hozl ohdr
      rw [hlnrOh]
      have hosecCells : ∀ a ∈ osec, (append h hdr ((h ohdr).next) oiso) a = h a := by
        intro a ha
        exact hframe1 a (fun he => hOsecSep a ha (by simp [he])) (fun he => hOiOsec (he ▸ ha))
      have hch2 : isChainFrom (append h hdr ((h ohdr).next) oiso) ohdr ((h ohdr).nnr) osec :=
        isChainFrom_congr h _ ohdr osec (fun a ha => by rw [hosecCells a ha]) _ hwfO.sec_chain
      have hnfr1 := append_nfr h hdr ((h ohdr).next) oiso
      have hcls2 : ∀ a ∈ osec, ((append h hdr ((h ohdr).next) oiso) a).nfr
          = ((append h hdr ((h ohdr).next) oiso) ((h ohdr).nnr)).nfr := by
        intro a ha
        rw [hnfr1, hnfr1, hwfO.sec_class a ha, hwfO.sec_class _ hnnrMem]
      have hknd2 : ∀ a ∈ osec, a ≠ ozl →
          ((append h hdr ((h ohdr).next) oiso) a).kind = Kind.UNMARKED := by
        intro a ha _
        rw [hosecCells a ha]
        exact hwfO.interior_kind a (List.mem_append_right _ ha)
          (fun he => hOiOsec (he ▸ ha))
      by_cases hc : (h oiso).nfr = (h iso).nfr
      · simp only [if_pos hc] at hwf1 ⊢
        have hsep2 : ∀ a ∈ osec, a ∉ hdr :: ((oprim ++ prim) ++ sec) := by
          intro a ha he
          simp at he
          rcases he with he1 | he2 | he3 | he4
          · exact hOsecSep a ha (by simp [he1])
          · exact hOdisj he2 ha
          · exact hOsecSep a ha (by simp [he3])
          · exact hOsecSep a ha (by simp [he4])
        have hwf2 := append_WF (append h hdr ((h ohdr).next) oiso) hdr iso ohdr
          ((h ohdr).nnr) ozl (oprim ++ prim) sec osec hwf1 hozl hch2 hknd2 hcls2
          hOndAll.2.1 hsep2
        have hc2 : ¬(((append h hdr ((h ohdr).next) oiso) ((h ohdr).nnr)).nfr
            = ((append h hdr ((h ohdr).next) oiso) iso).nfr) := by
          rw [hnfr1, hnfr1, hwfO.sec_class _ hnnrMem, hc]
          cases hb : (h iso).nfr <;> simp
        simp only [if_neg hc2] at hwf2
        exact hwf2
      · simp only [if_neg hc] at hwf1 ⊢
        have hsep2 : ∀ a ∈ osec, a ∉ hdr :: (prim ++ (oprim ++ sec)) := by
          intro a ha he
          simp at he
          rcases he with he1 | he2 | he3 | he4
          · exact hOsecSep a ha (by simp [he1])
          · exact hOsecSep a ha (by simp [he2])
          · exact hOdisj he3 ha
          · exact hOsecSep a ha (by simp [he4])
        have hwf2 := append_WF (append h hdr ((h ohdr).next) oiso) hdr iso ohdr
          ((h ohdr).nnr) ozl prim (oprim ++ sec) osec hwf1 hozl hch2 hknd2 hcls2
          hOndAll.2.1 hsep2
        have hc2 : ((append h hdr ((h ohdr).next) oiso) ((h ohdr).nnr)).nfr
            = ((append h hdr ((h ohdr).next) oiso) iso).nfr := by
          rw [hnfr1, hnfr1, hwfO.sec_class _ hnnrMem]
          have : (h oiso).nfr = !(h iso).nfr := by
            cases hb : (h iso).nfr <;> cases ho : (h oiso).nfr <;> simp_all
          rw [this]
          cases hb : (h iso).nfr <;> simp
        simp only [if_pos hc2] at hwf2
        exact hwf2
  · -- the donated iso is demoted to UNMARKED
    unfold merge merge_internal
    rw [hIN1, hIN2]
    simp only [if_pos hcond1, hohdr1]
    rw [set_prevSc_ne _ _ _ _ hOiH, add_cur_ne _ _ _ _ hOiH]
    by_cases hosec : osec = []
    · have hnnrOh : (h ohdr).nnr = ohdr := by
        have := isChainFrom_headD h ohdr ((h ohdr).nnr) osec hwfO.sec_chain
        rw [this, hosec]
        rfl
      rw [if_neg (by simp [hnnrOh])]
      exact append_tl_kind h hdr ((h ohdr).next) oiso hOiH
    · have hnnrOh : (h ohdr).nnr = osec.headD ohdr :=
        isChainFrom_headD h ohdr ((h ohdr).nnr) osec hwfO.sec_chain
      have hnnrMem : (h ohdr).nnr ∈ osec := hnnrOh ▸ headD_mem osec ohdr hosec
      have hcond2 : (h ohdr).nnr ≠ ohdr := by
        intro he
        exact hOHPS (List.mem_append_right _ (he ▸ hnnrMem))
      rw [if_pos hcond2]
      have hlnrMem : (h ohdr).lnr ∈ osec := by
        rw [hwfO.lnr_eq]
        exact getLastD_mem osec ohdr hosec
      rw [append_frame _ _ _ _ _ hOiH (fun he => hOiOsec (he ▸ hlnrMem))]
      exact append_tl_kind h hdr ((h ohdr).next) oiso hOiH

/-! ## Per-field preservation of the sweep primitives -/

theorem set_next_kind (h : Heap) (z v q : Nat) : ((set_next h z v) q).kind = (h q).kind := by
  by_cases hq : q = z <;> simp_all

theorem set_next_size (h : Heap) (z v q : Nat) : ((set_next h z v) q).size = (h q).size := by
  by_cases hq : q = z <;> simp_all

theorem set_next_cur (h : Heap) (z v q : Nat) : ((set_next h z v) q).cur = (h q).cur := by
  by_cases hq : q = z <;> simp_all

theorem set_next_nnr (h : Heap) (z v q : Nat) : ((set_next h z v) q).nnr = (h q).nnr := by
  by_cases hq : q = z <;> simp_all

theorem set_next_lnr (h : Heap) (z v q : Nat) : ((set_next h z v) q).lnr = (h q).lnr := by
  by_cases hq : q = z <;> simp_all

theorem set_nnr_kind (h : Heap) (z v q : Nat) : ((set_nnr h z v) q).kind = (h q).kind := by
  by_cases hq : q = z <;> simp_all

theorem set_nnr_size (h : Heap) (z v q : Nat) : ((set_nnr h z v) q).size = (h q).size := by
  by_cases hq : q = z <;> simp_all

theorem set_nnr_cur (h : Heap) (z v q : Nat) : ((set_nnr h z v) q).cur = (h q).cur := by
  by_cases hq : q = z <;> simp_all

theorem set_nnr_next (h : Heap) (z v q : Nat) : ((set_nnr h z v) q).next = (h q).next := by
  by_cases hq : q = z <;> simp_all

theorem set_nnr_lnr (h : Heap) (z v q : Nat) : ((set_nnr h z v) q).lnr = (h q).lnr := by
  by_cases hq : q = z <;> simp_all

theorem set_lnr_kind (h : Heap) (z v q : Nat) : ((set_lnr h z v) q).kind = (h q).kind := by
  by_cases hq : q = z <;> simp_all

theorem set_lnr_size (h : Heap) (z v q : Nat) : ((set_lnr h z v) q).size = (h q).size := by
  by_cases hq : q = z <;> simp_all

theorem set_lnr_cur (h : Heap) (z v q : Nat) : ((set_lnr h z v) q).cur = (h q).cur := by
  by_cases hq : q = z <;> simp_all

theorem set_lnr_next (h : Heap) (z v q : Nat) : ((set_lnr h z v) q).next = (h q).next := by
  by_cases hq : q = z <;> simp_all

theorem set_lnr_nnr (h : Heap) (z v q : Nat) : ((set_lnr h z v) q).nnr = (h q).nnr := by
  by_cases hq : q = z <;> simp_all

theorem use_memory_kind (h : Heap) (z s q : Nat) : ((use_memory h z s) q).kind = (h q).kind := by
  by_cases hq : q = z <;> simp_all

theorem use_memory_size (h : Heap) (z s q : Nat) : ((use_memory h z s) q).size = (h q).size := by
  by_cases hq : q = z <;> simp_all

theorem use_memory_next (h : Heap) (z s q : Nat) : ((use_memory h z s) q).next = (h q).next := by
  by_cases hq : q = z <;> simp_all

theorem use_memory_nnr (h : Heap) (z s q : Nat) : ((use_memory h z s) q).nnr = (h q).nnr := by
  by_cases hq : q = z <;> simp_all

theorem use_memory_lnr (h : Heap) (z s q : Nat) : ((use_memory h z s) q).lnr = (h q).lnr := by
  by_cases hq : q = z <;> simp_all

theorem unmarkObj_size (h : Heap) (z q : Nat) : ((unmarkObj h z) q).size = (h q).size := by
  by_cases hq : q = z <;> simp_all

theorem unmarkObj_cur (h : Heap) (z q : Nat) : ((unmarkObj h z) q).cur = (h q).cur := by
  by_cases hq : q = z <;> simp_all

theorem unmarkObj_next (h : Heap) (z q : Nat) : ((unmarkObj h z) q).next = (h q).next := by
  by_cases hq : q = z <;> simp_all

theorem unmarkObj_nnr (h : Heap) (z q : Nat) : ((unmarkObj h z) q).nnr = (h q).nnr := by
  by_cases hq : q = z <;> simp_all

theorem unmarkObj_lnr (h : Heap) (z q : Nat) : ((unmarkObj h z) q).lnr = (h q).lnr := by
  by_cases hq : q = z <;> simp_all

theorem reset_cur_kind (h : Heap) (z q : Nat) : ((reset_cur h z) q).kind = (h q).kind := by
  by_cases hq : q = z <;> simp_all

theorem reset_cur_size (h : Heap) (z q : Nat) : ((reset_cur h z) q).size = (h q).size := by
  by_cases hq : q = z <;> simp_all

theorem reset_cur_next (h : Heap) (z q : Nat) : ((reset_cur h z) q).next = (h q).next := by
  by_cases hq : q = z <;> simp_all

theorem reset_cur_nnr (h : Heap) (z q : Nat) : ((reset_cur h z) q).nnr = (h q).nnr := by
  by_cases hq : q = z <;> simp_all

theorem reset_cur_lnr (h : Heap) (z q : Nat) : ((reset_cur h z) q).lnr = (h q).lnr := by
  by_cases hq : q = z <;> simp_all

theorem set_prevSc_kind (h : Heap) (z v q : Nat) : ((set_prevSc h z v) q).kind = (h q).kind := by
  by_cases hq : q = z <;> simp_all

theorem set_prevSc_size (h : Heap) (z v q : Nat) : ((set_prevSc h z v) q).size = (h q).size := by
  by_cases hq : q = z <;> simp_all

theorem set_prevSc_cur (h : Heap) (z v q : Nat) : ((set_prevSc h z v) q).cur = (h q).cur := by
  by_cases hq : q = z <;> simp_all

theorem set_prevSc_next (h : Heap) (z v q : Nat) : ((set_prevSc h z v) q).next = (h q).next := by
  by_cases hq : q = z <;> simp_all

theorem set_prevSc_nnr (h : Heap) (z v q : Nat) : ((set_prevSc h z v) q).nnr = (h q).nnr := by
  by_cases hq : q = z <;> simp_all

theorem set_prevSc_lnr (h : Heap) (z v q : Nat) : ((set_prevSc h z v) q).lnr = (h q).lnr := by
  by_cases hq : q = z <;> simp_all

/-! ## Ring-traversal bookkeeping for the sweep -/

/-- The slot holding the link to the traversal cursor: `next_not_root` of the
header while `prev` is still the header on the secondary ring, the `next`
slot of `prev` otherwise — mirroring the unlink cases of `sweep_ring`. -/
def readLink (inSec : Bool) (h : Heap) (hdr prev : Nat) : Nat :=
  if inSec ∧ prev = hdr then (h hdr).nnr else (h prev).next

theorem readLink_congr (inSec : Bool) (h h' : Heap) (hdr prev : Nat)
    (hnnr : (h' hdr).nnr = (h hdr).nnr) (hnext : (h' prev).next = (h prev).next) :
    readLink inSec h' hdr prev = readLink inSec h hdr prev := by
  unfold readLink
  split <;> simp [hnnr, hnext]

/-- Total `size()` of the listed objects. -/
def sumSizes (h : Heap) (l : List Nat) : Nat := (l.map fun a => (h a).size).sum

theorem sumSizes_nil (h : Heap) : sumSizes h [] = 0 := rfl

theorem sumSizes_cons (h : Heap) (a : Nat) (l : List Nat) :
    sumSizes h (a :: l) = (h a).size + sumSizes h l := by
  simp [sumSizes]

theorem sumSizes_append (h : Heap) (l₁ l₂ : List Nat) :
    sumSizes h (l₁ ++ l₂) = sumSizes h l₁ + sumSizes h l₂ := by
  simp [sumSizes]

theorem sumSizes_congr (h h' : Heap) (l : List Nat)
    (hagree : ∀ a ∈ l, (h' a).size = (h a).size) : sumSizes h' l = sumSizes h l := by
  induction l with
  | nil => rfl
  | cons a l ih =>
    rw [sumSizes_cons, sumSizes_cons, hagree a (List.mem_cons_self a l),
      ih fun b hb => hagree b (List.mem_cons_of_mem _ hb)]

/-- The survivors of a ring traversal: the cells found `MARKED`. -/
def keepOf (h : Heap) (l : List Nat) : List Nat :=
  l.filter fun a => (h a).kind = Kind.MARKED

theorem keepOf_nil (h : Heap) : keepOf h [] = [] := rfl

theorem keepOf_cons_marked (h : Heap) (a : Nat) (l : List Nat)
    (hk : (h a).kind = Kind.MARKED) : keepOf h (a :: l) = a :: keepOf h l := by
  simp [keepOf, hk]

theorem keepOf_cons_unmarked (h : Heap) (a : Nat) (l : List Nat)
    (hk : (h a).kind ≠ Kind.MARKED) : keepOf h (a :: l) = keepOf h l := by
  simp [keepOf, hk]

theorem keepOf_congr (h h' : Heap) (l : List Nat)
    (hagree : ∀ a ∈ l, (h' a).kind = (h a).kind) : keepOf h' l = keepOf h l := by
  induction l with
  | nil => rfl
  | cons a l ih =>
    have ha := hagree a (List.mem_cons_self a l)
    have ih' := ih fun b hb => hagree b (List.mem_cons_of_mem _ hb)
    by_cases hk : (h a).kind = Kind.MARKED
    · rw [keepOf_cons_marked _ _ _ (ha.trans hk), keepOf_cons_marked _ _ _ hk, ih']
    · rw [keepOf_cons_unmarked _ _ _ (fun he => hk (ha.symm.trans he)),
        keepOf_cons_unmarked _ _ _ hk, ih']

theorem keepOf_subset (h : Heap) (l : List Nat) : ∀ a ∈ keepOf h l, a ∈ l :=
  fun _ ha => List.mem_of_mem_filter ha

theorem keepOf_append (h : Heap) (l₁ l₂ : List Nat) :
    keepOf h (l₁ ++ l₂) = keepOf h l₁ ++ keepOf h l₂ := by
  simp [keepOf]

/-- Once the cursor is back at the header the traversal loop is over. -/
theorem sweepLoop_at_hdr (finRing inSec : Bool) (hdr fuel : Nat) (st : LoopSt)
    (hp : st.p = hdr) : sweepLoop finRing inSec hdr fuel st = st := by
  cases fuel with
  | zero => rfl
  | succ f => rw [sweepLoop, if_pos hp]

/-- The sweep loop never writes any object's `size`. -/
theorem sweepLoop_size (finRing inSec : Bool) (hdr : Nat) (fuel : Nat) :
    ∀ (st : LoopSt) (q : Nat),
      ((sweepLoop finRing inSec hdr fuel st).heap q).size = (st.heap q).size := by
  induction fuel with
  | zero => intro st q; rfl
  | succ n ih =>
    intro st q
    rw [sweepLoop]
    by_cases hp : st.p = hdr
    · rw [if_pos hp]
    · rw [if_neg hp]
      cases hk : (st.heap st.p).kind <;>
        first
          | rfl
          | (simp only [ih]
             simp [use_memory_size, unmarkObj_size])
          | (simp only [ih]
             split_ifs <;>
               simp [use_memory_size, unmarkObj_size, set_next_size, set_nnr_size,
                 set_lnr_size])

theorem swap_root_WF (h : Heap) (hdr iso nroot : Nat) (prim sec : List Nat)
    (hwf : RegionWF h hdr iso prim sec) (hmem : nroot ∈ prim ++ sec) (hni : nroot ≠ iso) :
    ∃ prim' sec', RegionWF (swap_root h iso nroot) hdr nroot prim' sec' ∧
      prim'.getLast? = some nroot := by
  rcases List.mem_append.1 hmem with hp | hs
  · have hcl : (h nroot).nfr = (h iso).nfr := hwf.prim_class nroot hp
    obtain ⟨prim', hwf', hl, _⟩ := swap_root_WF_same h hdr iso nroot prim sec hwf hp hni hcl
    exact ⟨prim', sec, hwf', hl⟩
  · have hcl2 := hwf.sec_class nroot hs
    have hcl : (h nroot).nfr ≠ (h iso).nfr := by
      rw [hcl2]
      cases hb : (h iso).nfr <;> simp
    obtain ⟨prim', hwf', hl, _⟩ := swap_root_WF_diff h hdr iso nroot prim sec hwf hs hni hcl
    exact ⟨prim', prim, hwf', hl⟩

/-! ## C1, C2, C8, C9: the ring invariants under the region operations -/

/-- Invariant 2 (spec §3): the two rings partition the region's objects by
finaliser-need relative to the iso. -/
def ringPartition (h : Heap) (iso : Nat) (prim sec : List Nat) : Prop :=
  (∀ p ∈ prim, (h p).nfr = (h iso).nfr) ∧ (∀ p ∈ sec, (h p).nfr ≠ (h iso).nfr)

theorem RegionWF.partition (h : Heap) (hdr iso : Nat) (prim sec : List Nat)
    (hwf : RegionWF h hdr iso prim sec) : ringPartition h iso prim sec := by
  refine ⟨hwf.prim_class, ?_⟩
  intro p hp
  have := hwf.sec_class p hp
  cases hb : (h iso).nfr <;> simp_all

/--
C1: after `create`, `alloc`, `swap_root` and `merge`, the rings of the
region remain well-formed and every object in them satisfies the
ring-partition law — an object lies in the primary ring exactly when its
`needs_finaliser_ring()` equals the iso's, and in the secondary ring exactly
when it differs.
-/
theorem ring_partition_after_operations :
    (∀ (h : Heap) (hdrId oId : Nat) (d : Descriptor), hdrId ≠ oId →
      RegionWF (create h hdrId oId d) hdrId oId [oId] [] ∧
        ringPartition (create h hdrId oId d) oId [oId] []) ∧
    (∀ (h : Heap) (hdr iso oId : Nat) (prim sec : List Nat) (d : Descriptor),
      RegionWF h hdr iso prim sec → oId ∉ hdr :: (prim ++ sec) →
      ∃ prim' sec', RegionWF (alloc h iso oId d) hdr iso prim' sec' ∧
        ringPartition (alloc h iso oId d) iso prim' sec') ∧
    (∀ (h : Heap) (hdr iso nroot : Nat) (prim sec : List Nat),
      RegionWF h hdr iso prim sec → nroot ∈ prim ++ sec → nroot ≠ iso →
      ∃ prim' sec', RegionWF (swap_root h iso nroot) hdr nroot prim' sec' ∧
        ringPartition (swap_root h iso nroot) nroot prim' sec') ∧
    (∀ (h : Heap) (hdr iso ohdr oiso : Nat) (prim sec oprim osec : List Nat),
      RegionWF h hdr iso prim sec → RegionWF h ohdr oiso oprim osec →
      (∀ a ∈ ohdr :: (oprim ++ osec), a ∉ hdr :: (prim ++ sec)) →
      ∃ prim' sec', RegionWF (merge h iso oiso) hdr iso prim' sec' ∧
        ringPartition (merge h iso oiso) iso prim' sec') := by
  refine ⟨?_, ?_, ?_, ?_⟩
  · intro h hdrId oId d hne
    have hwf := create_WF h hdrId oId d hne
    exact ⟨hwf, hwf.partition _ hdrId oId [oId] []⟩
  · intro h hdr iso oId prim sec d hwf hfresh
    have hwf' := alloc_WF h hdr iso oId prim sec d hwf hfresh
    exact ⟨_, _, hwf', hwf'.partition _ hdr iso _ _⟩
  · intro h hdr iso nroot prim sec hwf hmem hni
    obtain ⟨prim', sec', hwf', _⟩ := swap_root_WF h hdr iso nroot prim sec hwf hmem hni
    exact ⟨prim', sec', hwf', hwf'.partition _ hdr nroot _ _⟩
  · intro h hdr iso ohdr oiso prim sec oprim osec hwf hwfO hsep
    obtain ⟨hwf', _, _⟩ := merge_WF h hdr iso ohdr oiso prim sec oprim osec hwf hwfO hsep
    exact ⟨_, _, hwf', hwf'.partition _ hdr iso _ _⟩

/-- Concrete heaps for the witnesses: two disjoint singleton regions. -/
def heapW : Heap := fun n =>
  if n = 1 then { next := 2, nnr := 1, lnr := 1 }
  else if n = 2 then { kind := Kind.ISO, next := 1 }
  else if n = 3 then { next := 4, nnr := 3, lnr := 3 }
  else if n = 4 then { kind := Kind.ISO, next := 3 }
  else {}

theorem heapW_wf1 : RegionWF heapW 1 2 [2] [] := by
  refine ⟨?_, ?_, ?_, ?_, ?_, ?_, ?_, ?_, ?_⟩ <;> decide

theorem heapW_wf2 : RegionWF heapW 3 4 [4] [] := by
  refine ⟨?_, ?_, ?_, ?_, ?_, ?_, ?_, ?_, ?_⟩ <;> decide

theorem ring_partition_after_operations_witness :
    ((1 : Nat) ≠ 2 ∧
      (RegionWF (create heapW 1 2 ⟨8, false, false⟩) 1 2 [2] [] ∧
        ringPartition (create heapW 1 2 ⟨8, false, false⟩) 2 [2] [])) ∧
    (RegionWF heapW 1 2 [2] [] ∧ RegionWF heapW 3 4 [4] [] ∧
      (∀ a ∈ 3 :: ([4] ++ []), a ∉ 1 :: ([2] ++ [])) ∧
      ∃ prim' sec', RegionWF (merge heapW 2 4) 1 2 prim' sec' ∧
        ringPartition (merge heapW 2 4) 2 prim' sec') :=
  ⟨⟨by decide, ring_partition_after_operations.1 heapW 1 2 ⟨8, false, false⟩ (by decide)⟩,
    ⟨heapW_wf1, heapW_wf2, by decide,
      ring_partition_after_operations.2.2.2 heapW 1 2 3 4 [2] [] [4] []
        heapW_wf1 heapW_wf2 (by decide)⟩⟩

/--
C8: after `merge(into, o)` where `o` is the iso of a distinct trace region,
`o` has become a regular interior node of `into`'s region — it sits as the
tail of the donated primary-ring chain spliced into the matching ring of
`into` — and no longer has kind `ISO` (the splice re-initialises its header
slot, demoting it to `UNMARKED`).
-/
theorem merge_demotes_donated_iso_to_interior_tail (h : Heap)
    (hdr iso ohdr oiso : Nat) (prim sec oprim osec : List Nat)
    (hwf : RegionWF h hdr iso prim sec) (hwfO : RegionWF h ohdr oiso oprim osec)
    (hsep : ∀ a ∈ ohdr :: (oprim ++ osec), a ∉ hdr :: (prim ++ sec)) :
    ∃ oL, oprim = oL ++ [oiso] ∧
      RegionWF (merge h iso oiso) hdr iso
        (if (h oiso).nfr = (h iso).nfr then (oL ++ [oiso]) ++ prim else osec ++ prim)
        (if (h oiso).nfr = (h iso).nfr then osec ++ sec else (oL ++ [oiso]) ++ sec) ∧
      ((merge h iso oiso) oiso).kind = Kind.UNMARKED ∧
      ((merge h iso oiso) oiso).kind ≠ Kind.ISO := by
  obtain ⟨hwfM, hkind, oL, hoL⟩ := merge_WF h hdr iso ohdr oiso prim sec oprim osec hwf hwfO hsep
  refine ⟨oL, hoL, ?_, hkind, ?_⟩
  · rw [← hoL]
    exact hwfM
  · rw [hkind]
    simp

theorem merge_demotes_donated_iso_to_interior_tail_witness :
    (RegionWF heapW 1 2 [2] [] ∧ RegionWF heapW 3 4 [4] [] ∧
      (∀ a ∈ 3 :: ([4] ++ []), a ∉ 1 :: ([2] ++ []))) ∧
    (∃ oL, [4] = oL ++ [4] ∧
      RegionWF (merge heapW 2 4) 1 2
        (if (heapW 4).nfr = (heapW 2).nfr then (oL ++ [4]) ++ [2] else [] ++ [2])
        (if (heapW 4).nfr = (heapW 2).nfr then [] ++ [] else (oL ++ [4]) ++ []) ∧
      ((merge heapW 2 4) 4).kind = Kind.UNMARKED ∧
      ((merge heapW 2 4) 4).kind ≠ Kind.ISO) :=
  ⟨⟨heapW_wf1, heapW_wf2, by decide⟩,
    merge_demotes_donated_iso_to_interior_tail heapW 1 2 3 4 [2] [] [4] []
      heapW_wf1 heapW_wf2 (by decide)⟩

/-- Concrete scenario for C9: iso `2` without finaliser-need, then two
finaliser-bearing objects `3` and `4` allocated into the secondary ring. -/
def heapC9 : Heap :=
  alloc (alloc (create (fun _ => {}) 1 2 ⟨8, false, false⟩) 2 3 ⟨8, true, true⟩) 2 4
    ⟨8, true, true⟩

/--
C9: `append` always splices at the head of the target ring — `alloc` puts
the fresh object first in the matching ring, so each ring enumerates objects
in reverse order of insertion and `last_not_root` stays the earliest
inserted secondary object. In particular, after allocating the
finaliser-bearing `3` then `4` into the region of the no-finaliser iso `2`,
the secondary ring is `[4, 3]` with `next_not_root = 4` and
`last_not_root = 3`.
-/
theorem append_splices_at_ring_head :
    (∀ (h : Heap) (hdr iso oId : Nat) (prim sec : List Nat) (d : Descriptor),
      RegionWF h hdr iso prim sec → oId ∉ hdr :: (prim ++ sec) →
      RegionWF (alloc h iso oId d) hdr iso
        (if d.nfr = (h iso).nfr then oId :: prim else prim)
        (if d.nfr = (h iso).nfr then sec else oId :: sec)) ∧
    ((heapC9 1).nnr = 4 ∧ (heapC9 4).next = 3 ∧ (heapC9 3).next = 1 ∧
      (heapC9 1).lnr = 3 ∧ (heapC9 1).next = 2 ∧ (heapC9 2).next = 1) := by
  constructor
  · intro h hdr iso oId prim sec d hwf hfresh
    exact alloc_WF h hdr iso oId prim sec d hwf hfresh
  · refine ⟨?_, ?_, ?_, ?_, ?_, ?_⟩ <;> decide

theorem append_splices_at_ring_head_witness :
    (RegionWF heapW 1 2 [2] [] ∧ (5 : Nat) ∉ 1 :: ([2] ++ [])) ∧
    RegionWF (alloc heapW 2 5 ⟨8, true, true⟩) 1 2
      (if (true : Bool) = (heapW 2).nfr then 5 :: [2] else [2])
      (if (true : Bool) = (heapW 2).nfr then [] else 5 :: []) :=
  ⟨⟨heapW_wf1, by decide⟩,
    append_splices_at_ring_head.1 heapW 1 2 5 [2] [] ⟨8, true, true⟩ heapW_wf1 (by decide)⟩

/--
Master description of one `sweep_ring` traversal: walking a ring segment `l`
that ends at `term` (the header, or the iso that terminates the primary
ring), the loop keeps exactly the `MARKED` cells (unmarking them), unlinks
the `UNMARKED` ones, charges `current_memory_used` with the survivors' sizes
(plus the iso terminator's), maintains `last_not_root`, and touches no cell
outside `hdr`, the initial `prev` and `l`.
-/
theorem sweepLoop_master (finRing inSec : Bool) (hdr term : Nat) :
    ∀ (l : List Nat) (fuel : Nat) (st : LoopSt),
      isChainFrom st.heap term st.p l →
      l.Nodup →
      hdr ∉ l →
      term ∉ l →
      st.prev ∉ l →
      (∀ a ∈ l, (st.heap a).kind = Kind.MARKED ∨ (st.heap a).kind = Kind.UNMARKED) →
      (term = hdr ∨ ((st.heap term).kind = Kind.ISO ∧ term ≠ hdr)) →
      readLink inSec st.heap hdr st.prev = st.p →
      (inSec = true → (st.heap hdr).lnr = l.getLastD st.prev) →
      l.length + 1 ≤ fuel →
      ((sweepLoop finRing inSec hdr fuel st).prev = (keepOf st.heap l).getLastD st.prev) ∧
      isChainFrom (sweepLoop finRing inSec hdr fuel st).heap term
        (readLink inSec (sweepLoop finRing inSec hdr fuel st).heap hdr st.prev)
        (keepOf st.heap l) ∧
      (∀ c, c ≠ hdr → c ≠ st.prev → c ∉ l →
        (sweepLoop finRing inSec hdr fuel st).heap c = st.heap c) ∧
      (((sweepLoop finRing inSec hdr fuel st).heap hdr).cur =
        (st.heap hdr).cur + sumSizes st.heap (keepOf st.heap l) +
          (if term = hdr then 0 else (st.heap term).size)) ∧
      (∀ b ∈ keepOf st.heap l,
        ((sweepLoop finRing inSec hdr fuel st).heap b).kind = Kind.UNMARKED) ∧
      (∀ c, c ∉ l →
        ((sweepLoop finRing inSec hdr fuel st).heap c).kind = (st.heap c).kind) ∧
      (inSec = true →
        ((sweepLoop finRing inSec hdr fuel st).heap hdr).lnr =
          (keepOf st.heap l).getLastD st.prev) ∧
      (inSec = false →
        ((sweepLoop finRing inSec hdr fuel st).heap hdr).lnr = (st.heap hdr).lnr) ∧
      (inSec = true ∨ st.prev ≠ hdr →
        ((sweepLoop finRing inSec hdr fuel st).heap hdr).next = (st.heap hdr).next) ∧
      (inSec = false ∨ st.prev ≠ hdr →
        ((sweepLoop finRing inSec hdr fuel st).heap hdr).nnr = (st.heap hdr).nnr) := by
  intro l
  induction l with
  | nil =>
    intro fuel st hchain hnd hhdr hterm htprev hkinds hterm2 hlink hlnr hfuel
    have hpt : st.p = term := hchain
    rcases hterm2 with hth | ⟨hkISO, htne⟩
    · have hstop : sweepLoop finRing inSec hdr fuel st = st :=
        sweepLoop_at_hdr _ _ _ _ _ (hpt.trans hth)
      rw [hstop]
      refine ⟨rfl, ?_, fun c _ _ _ => rfl, by simp [keepOf_nil, sumSizes_nil, hth],
        by simp [keepOf_nil], fun c _ => rfl, ?_, fun _ => rfl, fun _ => rfl, fun _ => rfl⟩
      · show readLink inSec st.heap hdr st.prev = term
        rw [hlink, hpt]
      · intro hsec
        simpa [keepOf_nil] using hlnr hsec
    · have hpne : st.p ≠ hdr := by rw [hpt]; exact htne
      cases fuel with
      | zero => simp at hfuel
      | succ f =>
        rw [sweepLoop, if_neg hpne, hpt]
        cases hk2 : (st.heap term).kind with
        | UNMARKED => rw [hk2] at hkISO; exact Kind.noConfusion hkISO
        | MARKED => rw [hk2] at hkISO; exact Kind.noConfusion hkISO
        | SCC_PTR => rw [hk2] at hkISO; exact Kind.noConfusion hkISO
        | RC => rw [hk2] at hkISO; exact Kind.noConfusion hkISO
        | COWN => rw [hk2] at hkISO; exact Kind.noConfusion hkISO
        | ISO =>
          simp only []
          have hred := sweepLoop_at_hdr finRing inSec hdr f
            (LoopSt.mk (use_memory st.heap hdr ((st.heap term).size)) st.prev hdr st.gcl
              st.fstk st.collect st.events) rfl
          rw [hred]
          simp only []
          refine ⟨rfl, ?_, ?_, ?_, by simp [keepOf_nil], ?_, ?_, ?_, ?_, ?_⟩
          · show readLink inSec (use_memory st.heap hdr ((st.heap term).size)) hdr st.prev =
              term
            rw [readLink_congr inSec st.heap _ hdr st.prev (use_memory_nnr _ _ _ _)
              (use_memory_next _ _ _ _), hlink, hpt]
          · intro c hc _ _
            exact use_memory_ne _ _ _ _ hc
          · rw [if_neg htne]
            simp [keepOf_nil, sumSizes_nil, hpt]
          · intro c _
            exact use_memory_kind _ _ _ _
          · intro hsec
            rw [use_memory_lnr]
            simpa [keepOf_nil] using hlnr hsec
          · intro _
            exact use_memory_lnr _ _ _ _
          · intro _
            exact use_memory_next _ _ _ _
          · intro _
            exact use_memory_nnr _ _ _ _
  | cons a l ih =>
    intro fuel st hchain hnd hhdr hterm htprev hkinds hterm2 hlink hlnr hfuel
    obtain ⟨hpa, hrest⟩ := hchain
    have hane : a ≠ hdr := fun he => hhdr (by rw [← he]; exact List.mem_cons_self a l)
    have hat : a ≠ term := fun he => hterm (by rw [← he]; exact List.mem_cons_self a l)
    have hap : a ≠ st.prev := fun he => htprev (by rw [← he]; exact List.mem_cons_self a l)
    have hanl : a ∉ l := (List.nodup_cons.1 hnd).1
    have hndl : l.Nodup := (List.nodup_cons.1 hnd).2
    have hhdl : hdr ∉ l := fun he => hhdr (List.mem_cons_of_mem _ he)
    have htl : term ∉ l := fun he => hterm (List.mem_cons_of_mem _ he)
    have hpl : st.prev ∉ l := fun he => htprev (List.mem_cons_of_mem _ he)
    have hpne : st.p ≠ hdr := by rw [hpa]; exact hane
    rw [hpa] at hlink
    cases fuel with
    | zero => simp at hfuel
    | succ f =>
      have hfl : l.length + 1 ≤ f := by simp only [List.length_cons] at hfuel; omega
      rw [sweepLoop, if_neg hpne, hpa]
      cases hk : (st.heap a).kind with
      | ISO =>
        exfalso
        rcases hkinds a (List.mem_cons_self a l) with hc | hc <;> rw [hk] at hc <;>
          exact Kind.noConfusion hc
      | SCC_PTR =>
        exfalso
        rcases hkinds a (List.mem_cons_self a l) with hc | hc <;> rw [hk] at hc <;>
          exact Kind.noConfusion hc
      | RC =>
        exfalso
        rcases hkinds a (List.mem_cons_self a l) with hc | hc <;> rw [hk] at hc <;>
          exact Kind.noConfusion hc
      | COWN =>
        exfalso
        rcases hkinds a (List.mem_cons_self a l) with hc | hc <;> rw [hk] at hc <;>
          exact Kind.noConfusion hc
      | MARKED =>
        simp only []
        set hM : Heap := unmarkObj (use_memory st.heap hdr ((st.heap a).size)) a with hhM
        have hMcell : ∀ c, c ≠ hdr → c ≠ a → hM c = st.heap c := by
          intro c h1c h2c
          rw [hhM, unmarkObj_ne _ _ _ h2c, use_memory_ne _ _ _ _ h1c]
        have hMkind : ∀ c, c ≠ a → (hM c).kind = (st.heap c).kind := by
          intro c h2c
          rw [hhM, unmarkObj_ne _ _ _ h2c, use_memory_kind]
        have hMsize : ∀ c, (hM c).size = (st.heap c).size := by
          intro c
          rw [hhM, unmarkObj_size, use_memory_size]
        have hMnext : ∀ c, (hM c).next = (st.heap c).next := by
          intro c
          rw [hhM, unmarkObj_next, use_memory_next]
        have hMnnr : ∀ c, (hM c).nnr = (st.heap c).nnr := by
          intro c
          rw [hhM, unmarkObj_nnr, use_memory_nnr]
        have hMlnr : ∀ c, (hM c).lnr = (st.heap c).lnr := by
          intro c
          rw [hhM, unmarkObj_lnr, use_memory_lnr]
        have hMcurHdr : (hM hdr).cur = (st.heap hdr).cur + (st.heap a).size := by
          rw [hhM, unmarkObj_ne _ _ _ (Ne.symm hane)]
          simp
        have hMkinda : (hM a).kind = Kind.UNMARKED := by
          rw [hhM]
          simp
        set SM : LoopSt := LoopSt.mk hM a ((hM a).next) st.gcl st.fstk st.collect st.events
          with hSM
        have harg_chain : isChainFrom hM term ((hM a).next) l := by
          rw [hMnext]
          exact isChainFrom_congr st.heap hM term l (fun b _ => hMnext b) _ hrest
        have harg_kinds : ∀ b ∈ l,
            (hM b).kind = Kind.MARKED ∨ (hM b).kind = Kind.UNMARKED := by
          intro b hb
          rw [hMkind b (fun he => hanl (he ▸ hb))]
          exact hkinds b (List.mem_cons_of_mem _ hb)
        have harg_term2 : term = hdr ∨ ((hM term).kind = Kind.ISO ∧ term ≠ hdr) := by
          rcases hterm2 with hc | ⟨hc1, hc2⟩
          · exact Or.inl hc
          · exact Or.inr ⟨by rw [hMkind term (Ne.symm hat)]; exact hc1, hc2⟩
        have harg_link : readLink inSec hM hdr a = (hM a).next := by
          simp only [readLink]
          rw [if_neg]
          exact fun hc => hane hc.2
        have harg_lnr : inSec = true → (hM hdr).lnr = l.getLastD a := by
          intro hs
          rw [hMlnr, hlnr hs, getLastD_cons_eq]
        obtain ⟨ih1, ih2, ih3, ih4, ih5, ih6, ih7, ih8, ih9, ih10⟩ :=
          ih f SM harg_chain hndl hhdl htl hanl harg_kinds harg_term2 harg_link harg_lnr hfl
        have ih1' : (sweepLoop finRing inSec hdr f SM).prev =
            (keepOf hM l).getLastD a := ih1
        have ih2' : isChainFrom (sweepLoop finRing inSec hdr f SM).heap term
            (readLink inSec (sweepLoop finRing inSec hdr f SM).heap hdr a)
            (keepOf hM l) := ih2
        have ih3' : ∀ c, c ≠ hdr → c ≠ a → c ∉ l →
            (sweepLoop finRing inSec hdr f SM).heap c = hM c := ih3
        have ih4' : ((sweepLoop finRing inSec hdr f SM).heap hdr).cur =
            (hM hdr).cur + sumSizes hM (keepOf hM l) +
              (if term = hdr then 0 else (hM term).size) := ih4
        have ih5' : ∀ b ∈ keepOf hM l,
            ((sweepLoop finRing inSec hdr f SM).heap b).kind = Kind.UNMARKED := ih5
        have ih6' : ∀ c, c ∉ l →
            ((sweepLoop finRing inSec hdr f SM).heap c).kind = (hM c).kind := ih6
        have ih7' : inSec = true →
            ((sweepLoop finRing inSec hdr f SM).heap hdr).lnr =
              (keepOf hM l).getLastD a := ih7
        have ih8' : inSec = false →
            ((sweepLoop finRing inSec hdr f SM).heap hdr).lnr = (hM hdr).lnr := ih8
        have ih9' : inSec = true ∨ a ≠ hdr →
            ((sweepLoop finRing inSec hdr f SM).heap hdr).next = (hM hdr).next := ih9
        have ih10' : inSec = false ∨ a ≠ hdr →
            ((sweepLoop finRing inSec hdr f SM).heap hdr).nnr = (hM hdr).nnr := ih10
        have hk' : (st.heap a).kind = Kind.MARKED := hk
        have hkeepM : keepOf hM l = keepOf st.heap l :=
          keepOf_congr _ _ _ (fun b hb => hMkind b (fun he => hanl (he ▸ hb)))
        have hkeepCons : keepOf st.heap (a :: l) = a :: keepOf st.heap l :=
          keepOf_cons_marked _ _ _ hk'
        have hsumM : sumSizes hM (keepOf st.heap l) = sumSizes st.heap (keepOf st.heap l) :=
          sumSizes_congr _ _ _ (fun b _ => hMsize b)
        refine ⟨?_, ?_, ?_, ?_, ?_, ?_, ?_, ?_, ?_, ?_⟩
        · rw [ih1', hkeepM, hkeepCons, getLastD_cons_eq]
        · rw [hkeepCons, isChainFrom_cons]
          constructor
          · by_cases hsec : (inSec = true) ∧ st.prev = hdr
            · simp only [readLink]
              rw [if_pos hsec, ih10' (Or.inr hane), hMnnr]
              have hl2 := hlink
              simp only [readLink] at hl2
              rw [if_pos hsec] at hl2
              exact hl2
            · simp only [readLink]
              rw [if_neg hsec]
              have hl2 := hlink
              simp only [readLink] at hl2
              rw [if_neg hsec] at hl2
              by_cases hph : st.prev = hdr
              · rw [hph, ih9' (Or.inr hane), hMnext]
                rw [hph] at hl2
                exact hl2
              · rw [ih3' st.prev hph (Ne.symm hap) hpl, hMcell st.prev hph (Ne.symm hap)]
                exact hl2
          · have hch := ih2'
            rw [hkeepM] at hch
            simp only [readLink] at hch
            rw [if_neg (fun hc => hane hc.2)] at hch
            exact hch
        · intro c hc1 hc2 hc3
          have hc3' : c ∉ l := fun he => hc3 (List.mem_cons_of_mem _ he)
          have hca : c ≠ a := fun he => hc3 (by rw [← he] at *; exact List.mem_cons_self c l)
          rw [ih3' c hc1 hca hc3', hMcell c hc1 hca]
        · rw [ih4', hkeepM, hsumM, hMcurHdr, hkeepCons, sumSizes_cons, hMsize term]
          omega
        · intro b hb
          rw [hkeepCons] at hb
          rcases List.mem_cons.1 hb with hba | hb'
          · subst hba
            rw [ih6' b hanl, hMkinda]
          · rw [← hkeepM] at hb'
            exact ih5' b hb'
        · intro c hc
          have hc' : c ∉ l := fun he => hc (List.mem_cons_of_mem _ he)
          have hca : c ≠ a := fun he => hc (by rw [← he] at *; exact List.mem_cons_self c l)
          rw [ih6' c hc', hMkind c hca]
        · intro hs
          rw [ih7' hs, hkeepM, hkeepCons, getLastD_cons_eq]
        · intro hs
          rw [ih8' hs, hMlnr]
        · intro _
          rw [ih9' (Or.inr hane), hMnext]
        · intro _
          rw [ih10' (Or.inr hane), hMnnr]
      | UNMARKED =>
        simp only []
        set hA : Heap := if finRing then set_next st.heap a st.gcl else st.heap with hhA
        set hB : Heap := if st.prev = hdr ∧ inSec then set_nnr hA hdr ((st.heap a).next)
          else set_next hA st.prev ((st.heap a).next) with hhB
        set hC : Heap := if inSec ∧ (hB hdr).lnr = a then set_lnr hB hdr st.prev else hB
          with hhC
        have hCkind : ∀ c, (hC c).kind = (st.heap c).kind := by
          intro c
          rw [hhC, hhB, hhA]
          split_ifs <;> simp [set_lnr_kind, set_nnr_kind, set_next_kind]
        have hCsize : ∀ c, (hC c).size = (st.heap c).size := by
          intro c
          rw [hhC, hhB, hhA]
          split_ifs <;> simp [set_lnr_size, set_nnr_size, set_next_size]
        have hCcur : ∀ c, (hC c).cur = (st.heap c).cur := by
          intro c
          rw [hhC, hhB, hhA]
          split_ifs <;> simp [set_lnr_cur, set_nnr_cur, set_next_cur]
        have hCnext : ∀ c, c ≠ st.prev → c ≠ a → (hC c).next = (st.heap c).next := by
          intro c hcp hca
          have e1 : ∀ (hh : Heap) (v : Nat), (set_next hh st.prev v) c = hh c :=
            fun hh v => set_next_ne hh st.prev v c hcp
          have e2 : ∀ (hh : Heap) (v : Nat), (set_next hh a v) c = hh c :=
            fun hh v => set_next_ne hh a v c hca
          rw [hhC, hhB, hhA]
          split_ifs <;> simp [set_lnr_next, set_nnr_next, e1, e2]
        have hBlnr : (hB hdr).lnr = (st.heap hdr).lnr := by
          rw [hhB, hhA]
          split_ifs <;> simp [set_nnr_lnr, set_next_lnr]
        have hCnnr_ne : ∀ c, c ≠ hdr → (hC c).nnr = (st.heap c).nnr := by
          intro c hc
          have e3 : ∀ (hh : Heap) (v : Nat), (set_nnr hh hdr v) c = hh c :=
            fun hh v => set_nnr_ne hh hdr v c hc
          rw [hhC, hhB, hhA]
          split_ifs <;> simp [set_lnr_nnr, set_next_nnr, e3]
        have hCnnr_hdr : ¬(st.prev = hdr ∧ inSec = true) → (hC hdr).nnr = (st.heap hdr).nnr := by
          intro hc
          have e3 : (hC hdr).nnr = (hB hdr).nnr := by
            rw [hhC]
            split_ifs <;> simp [set_lnr_nnr]
          rw [e3, hhB, if_neg hc, set_next_nnr, hhA]
          split_ifs <;> simp [set_next_nnr]
        have hCnnr_hdr2 : st.prev = hdr → inSec = true → (hC hdr).nnr = (st.heap a).next := by
          intro hp1 hp2
          have e3 : (hC hdr).nnr = (hB hdr).nnr := by
            rw [hhC]
            split_ifs <;> simp [set_lnr_nnr]
          rw [e3, hhB, if_pos ⟨hp1, hp2⟩]
          simp
        have hClnr_ne : ∀ c, c ≠ hdr → (hC c).lnr = (st.heap c).lnr := by
          intro c hc
          have e4 : ∀ (hh : Heap) (v : Nat), (set_lnr hh hdr v) c = hh c :=
            fun hh v => set_lnr_ne hh hdr v c hc
          rw [hhC, hhB, hhA]
          split_ifs <;> simp [set_nnr_lnr, set_next_lnr, e4]
        have hClnr_hdr : (hC hdr).lnr =
            if inSec = true ∧ (st.heap hdr).lnr = a then st.prev else (st.heap hdr).lnr := by
          rw [hhC, hBlnr]
          split_ifs <;> simp [hBlnr]
        have hCnext_prev : ¬(st.prev = hdr ∧ inSec = true) →
            (hC st.prev).next = (st.heap a).next := by
          intro hc
          have e3 : (hC st.prev).next = (hB st.prev).next := by
            rw [hhC]
            split_ifs <;> simp [set_lnr_next]
          rw [e3, hhB, if_neg hc]
          simp
        have hCnext_hdr : (inSec = true ∨ st.prev ≠ hdr) →
            (hC hdr).next = (st.heap hdr).next := by
          intro hc
          have e3 : (hC hdr).next = (hB hdr).next := by
            rw [hhC]
            split_ifs <;> simp [set_lnr_next]
          by_cases hph : st.prev = hdr
          · rcases hc with hsec | hne
            · rw [e3, hhB, if_pos ⟨hph, hsec⟩, set_nnr_next, hhA]
              split_ifs with hfr
              · rw [set_next_ne st.heap a st.gcl hdr (Ne.symm hane)]
              · rfl
            · exact absurd hph hne
          · rw [e3, hhB, if_neg (fun hcc => hph hcc.1),
              set_next_ne hA st.prev ((st.heap a).next) hdr (Ne.symm hph), hhA]
            split_ifs with hfr
            · rw [set_next_ne st.heap a st.gcl hdr (Ne.symm hane)]
            · rfl
        have hCcell : ∀ c, c ≠ hdr → c ≠ st.prev → c ≠ a → hC c = st.heap c := by
          intro c h1c h2c h3c
          have e1 : ∀ (hh : Heap) (v : Nat), (set_next hh st.prev v) c = hh c :=
            fun hh v => set_next_ne hh st.prev v c h2c
          have e2 : ∀ (hh : Heap) (v : Nat), (set_next hh a v) c = hh c :=
            fun hh v => set_next_ne hh a v c h3c
          have e3 : ∀ (hh : Heap) (v : Nat), (set_nnr hh hdr v) c = hh c :=
            fun hh v => set_nnr_ne hh hdr v c h1c
          have e4 : ∀ (hh : Heap) (v : Nat), (set_lnr hh hdr v) c = hh c :=
            fun hh v => set_lnr_ne hh hdr v c h1c
          rw [hhC, hhB, hhA]
          split_ifs <;> simp [e1, e2, e3, e4]
        set G : Nat := if finRing then a else st.gcl with hG
        set F : List Nat := if finRing then isoFields st.heap a ++ st.fstk else st.fstk
          with hF
        set CC : List Nat := if finRing then isoFields st.heap a ++ st.collect else st.collect
          with hCC
        set E : List Event := if finRing then
            (if (st.heap a).hasFin then st.events ++ [Event.finalise a] else st.events)
          else st.events ++ [Event.dealloc a] with hE
        set SU : LoopSt := LoopSt.mk hC st.prev ((st.heap a).next) G F CC E with hSU
        have harg_chain : isChainFrom hC term ((st.heap a).next) l :=
          isChainFrom_congr st.heap hC term l
            (fun b hb => hCnext b (fun he => hpl (he ▸ hb)) (fun he => hanl (he ▸ hb))) _ hrest
        have harg_kinds : ∀ b ∈ l,
            (hC b).kind = Kind.MARKED ∨ (hC b).kind = Kind.UNMARKED := by
          intro b hb
          rw [hCkind]
          exact hkinds b (List.mem_cons_of_mem _ hb)
        have harg_term2 : term = hdr ∨ ((hC term).kind = Kind.ISO ∧ term ≠ hdr) := by
          rcases hterm2 with hc | ⟨hc1, hc2⟩
          · exact Or.inl hc
          · exact Or.inr ⟨by rw [hCkind]; exact hc1, hc2⟩
        have harg_link : readLink inSec hC hdr st.prev = (st.heap a).next := by
          simp only [readLink]
          by_cases hcnd : (inSec = true) ∧ st.prev = hdr
          · rw [if_pos hcnd]
            exact hCnnr_hdr2 hcnd.2 hcnd.1
          · rw [if_neg hcnd]
            exact hCnext_prev (fun hcc => hcnd ⟨hcc.2, hcc.1⟩)
        have harg_lnr : inSec = true → (hC hdr).lnr = l.getLastD st.prev := by
          intro hs
          rw [hClnr_hdr]
          cases l with
          | nil =>
            have hla : (st.heap hdr).lnr = a := by
              rw [hlnr hs, getLastD_cons_eq]
              simp
            rw [if_pos ⟨hs, hla⟩]
            simp
          | cons b l' =>
            have hgl : (st.heap hdr).lnr = (b :: l').getLastD a := by
              rw [hlnr hs, getLastD_cons_eq]
            have hne2 : (st.heap hdr).lnr ≠ a := by
              rw [hgl]
              intro he
              exact hanl (he ▸ getLastD_mem (b :: l') a (by simp))
            rw [if_neg (fun hc => hne2 hc.2), hgl,
              getLastD_irrel _ a st.prev (by simp)]
        obtain ⟨ih1, ih2, ih3, ih4, ih5, ih6, ih7, ih8, ih9, ih10⟩ :=
          ih f SU harg_chain hndl hhdl htl hpl harg_kinds harg_term2 harg_link harg_lnr hfl
        have ih1' : (sweepLoop finRing inSec hdr f SU).prev =
            (keepOf hC l).getLastD st.prev := ih1
        have ih2' : isChainFrom (sweepLoop finRing inSec hdr f SU).heap term
            (readLink inSec (sweepLoop finRing inSec hdr f SU).heap hdr st.prev)
            (keepOf hC l) := ih2
        have ih3' : ∀ c, c ≠ hdr → c ≠ st.prev → c ∉ l →
            (sweepLoop finRing inSec hdr f SU).heap c = hC c := ih3
        have ih4' : ((sweepLoop finRing inSec hdr f SU).heap hdr).cur =
            (hC hdr).cur + sumSizes hC (keepOf hC l) +
              (if term = hdr then 0 else (hC term).size) := ih4
        have ih5' : ∀ b ∈ keepOf hC l,
            ((sweepLoop finRing inSec hdr f SU).heap b).kind = Kind.UNMARKED := ih5
        have ih6' : ∀ c, c ∉ l →
            ((sweepLoop finRing inSec hdr f SU).heap c).kind = (hC c).kind := ih6
        have ih7' : inSec = true →
            ((sweepLoop finRing inSec hdr f SU).heap hdr).lnr =
              (keepOf hC l).getLastD st.prev := ih7
        have ih8' : inSec = false →
            ((sweepLoop finRing inSec hdr f SU).heap hdr).lnr = (hC hdr).lnr := ih8
        have ih9' : inSec = true ∨ st.prev ≠ hdr →
            ((sweepLoop finRing inSec hdr f SU).heap hdr).next = (hC hdr).next := ih9
        have ih10' : inSec = false ∨ st.prev ≠ hdr →
            ((sweepLoop finRing inSec hdr f SU).heap hdr).nnr = (hC hdr).nnr := ih10
        have hkU : (st.heap a).kind ≠ Kind.MARKED := by
          rw [hk]
          exact fun he => Kind.noConfusion he
        have hkeepC : keepOf hC l = keepOf st.heap l :=
          keepOf_congr _ _ _ (fun b _ => hCkind b)
        have hkeepCons : keepOf st.heap (a :: l) = keepOf st.heap l :=
          keepOf_cons_unmarked _ _ _ hkU
        have hsumC : sumSizes hC (keepOf hC l) = sumSizes st.heap (keepOf st.heap l) := by
          rw [hkeepC]
          exact sumSizes_congr _ _ _ (fun b _ => hCsize b)
        refine ⟨?_, ?_, ?_, ?_, ?_, ?_, ?_, ?_, ?_, ?_⟩
        · rw [ih1', hkeepC, hkeepCons]
        · rw [hkeepCons, ← hkeepC]
          exact ih2'
        · intro c hc1 hc2 hc3
          have hc3' : c ∉ l := fun he => hc3 (List.mem_cons_of_mem _ he)
          have hca : c ≠ a := fun he => hc3 (by rw [← he] at *; exact List.mem_cons_self c l)
          rw [ih3' c hc1 hc2 hc3', hCcell c hc1 hc2 hca]
        · rw [ih4', hsumC, hCcur, hkeepCons, hCsize term]
        · intro b hb
          rw [hkeepCons, ← hkeepC] at hb
          exact ih5' b hb
        · intro c hc
          have hc' : c ∉ l := fun he => hc (List.mem_cons_of_mem _ he)
          rw [ih6' c hc', hCkind]
        · intro hs
          rw [ih7' hs, hkeepC, hkeepCons]
        · intro hs
          rw [ih8' hs, hClnr_hdr, if_neg]
          rintro ⟨he1, _⟩
          rw [hs] at he1
          exact Bool.noConfusion he1
        · intro hc
          rw [ih9' hc, hCnext_hdr hc]
        · intro hc
          rcases hc with hs | hp
          · rw [ih10' (Or.inl hs), hCnnr_hdr (fun hcc => by simp [hs] at hcc)]
          · rw [ih10' (Or.inr hp), hCnnr_hdr (fun hcc => hp hcc.1)]

/-- `sweep_ring` repackaging of the traversal master lemma: the ring walked
is selected by `finRing` against the iso's finaliser class, starting from the
header's `next_not_root` (secondary) or `next` (primary) slot. -/
theorem sweepRing_master (finRing inSec : Bool) (h : Heap) (hdr o term : Nat) (l : List Nat)
    (fstk collect : List Nat) (evts : List Event) (fuel : Nat)
    (hsec : (if finRing then !(h o).nfr else (h o).nfr) = inSec)
    (hchain : isChainFrom h term (if inSec then (h hdr).nnr else (h hdr).next) l)
    (hnd : l.Nodup) (hhl : hdr ∉ l) (htl : term ∉ l)
    (hkinds : ∀ a ∈ l, (h a).kind = Kind.MARKED ∨ (h a).kind = Kind.UNMARKED)
    (hterm2 : term = hdr ∨ ((h term).kind = Kind.ISO ∧ term ≠ hdr))
    (hlnr : inSec = true → (h hdr).lnr = l.getLastD hdr)
    (hfuel : l.length + 1 ≤ fuel) :
    (((sweepRing finRing h hdr o fstk collect evts fuel).heap hdr).cur =
        (h hdr).cur + sumSizes h (keepOf h l) +
          (if term = hdr then 0 else (h term).size)) ∧
    isChainFrom (sweepRing finRing h hdr o fstk collect evts fuel).heap term
      (readLink inSec (sweepRing finRing h hdr o fstk collect evts fuel).heap hdr hdr)
      (keepOf h l) ∧
    (∀ c, c ≠ hdr → c ∉ l →
      (sweepRing finRing h hdr o fstk collect evts fuel).heap c = h c) ∧
    (∀ b ∈ keepOf h l,
      ((sweepRing finRing h hdr o fstk collect evts fuel).heap b).kind = Kind.UNMARKED) ∧
    (∀ c, c ∉ l →
      ((sweepRing finRing h hdr o fstk collect evts fuel).heap c).kind = (h c).kind) ∧
    (inSec = true →
      ((sweepRing finRing h hdr o fstk collect evts fuel).heap hdr).lnr =
        (keepOf h l).getLastD hdr) ∧
    (inSec = false →
      ((sweepRing finRing h hdr o fstk collect evts fuel).heap hdr).lnr = (h hdr).lnr) ∧
    (inSec = true →
      ((sweepRing finRing h hdr o fstk collect evts fuel).heap hdr).next = (h hdr).next) ∧
    (inSec = false →
      ((sweepRing finRing h hdr o fstk collect evts fuel).heap hdr).nnr = (h hdr).nnr) ∧
    (∀ c, ((sweepRing finRing h hdr o fstk collect evts fuel).heap c).size = (h c).size) := by
  have hre : (sweepRing finRing h hdr o fstk collect evts fuel).heap =
      (sweepLoop finRing (if finRing then !(h o).nfr else (h o).nfr) hdr fuel
        (LoopSt.mk h hdr
          (if (if finRing then !(h o).nfr else (h o).nfr) then (h hdr).nnr else (h hdr).next)
          NULLPTR fstk collect evts)).heap := by
    cases finRing <;> rfl
  rw [hsec] at hre
  have hlink : readLink inSec h hdr hdr = (if inSec then (h hdr).nnr else (h hdr).next) := by
    cases hI : inSec <;> simp [readLink]
  obtain ⟨m1, m2, m3, m4, m5, m6, m7, m8, m9, m10⟩ :=
    sweepLoop_master finRing inSec hdr term l fuel
      (LoopSt.mk h hdr (if inSec then (h hdr).nnr else (h hdr).next) NULLPTR fstk collect
        evts)
      hchain hnd hhl htl hhl hkinds hterm2 hlink hlnr hfuel
  rw [hre]
  refine ⟨m4, m2, ?_, m5, m6, m7, m8, fun hs => m9 (Or.inl hs), fun hs => m10 (Or.inl hs),
    ?_⟩
  · intro c h1 h2
    exact m3 c h1 h1 h2
  · intro c
    exact sweepLoop_size _ _ _ _ _ c

/--
`RegionTrace::sweep` end-to-end: starting from a well-formed pair of rings
whose interior cells are `MARKED` or `UNMARKED`, the final
`current_memory_used` is the sizes of exactly the marked survivors plus the
iso, both rings keep precisely the survivors (the iso still terminating the
primary ring), `last_not_root` tracks the surviving secondary ring, no
`size` changes, and no cell outside the rings and the header changes.
-/
theorem sweep_master (h : Heap) (hdr o : Nat) (lp ls : List Nat)
    (fstk collect : List Nat) (fuel : Nat)
    (hchainP : isChainFrom h o ((h hdr).next) lp)
    (hchainS : isChainFrom h hdr ((h hdr).nnr) ls)
    (hlnr : (h hdr).lnr = ls.getLastD hdr)
    (hiso : (h o).kind = Kind.ISO)
    (hnd : (hdr :: o :: (lp ++ ls)).Nodup)
    (hkinds : ∀ a ∈ lp ++ ls, (h a).kind = Kind.MARKED ∨ (h a).kind = Kind.UNMARKED)
    (hfp : lp.length + 1 ≤ fuel) (hfs : ls.length + 1 ≤ fuel) :
    (((sweep h hdr o fstk collect fuel).heap hdr).cur =
        sumSizes h (keepOf h lp) + (h o).size + sumSizes h (keepOf h ls)) ∧
    isChainFrom (sweep h hdr o fstk collect fuel).heap o
      (((sweep h hdr o fstk collect fuel).heap hdr).next) (keepOf h lp) ∧
    isChainFrom (sweep h hdr o fstk collect fuel).heap hdr
      (((sweep h hdr o fstk collect fuel).heap hdr).nnr) (keepOf h ls) ∧
    (((sweep h hdr o fstk collect fuel).heap hdr).lnr = (keepOf h ls).getLastD hdr) ∧
    (∀ c, ((sweep h hdr o fstk collect fuel).heap c).size = (h c).size) ∧
    (∀ c, c ≠ hdr → c ∉ lp → c ∉ ls → (sweep h hdr o fstk collect fuel).heap c = h c) := by
  have hho : hdr ≠ o := fun he =>
    (List.nodup_cons.1 hnd).1 (by rw [he]; exact List.mem_cons_self o (lp ++ ls))
  have hhp : hdr ∉ lp := fun he =>
    (List.nodup_cons.1 hnd).1 (List.mem_cons_of_mem _ (List.mem_append_left _ he))
  have hhs : hdr ∉ ls := fun he =>
    (List.nodup_cons.1 hnd).1 (List.mem_cons_of_mem _ (List.mem_append_right _ he))
  have hnd2 := List.nodup_cons.1 ((List.nodup_cons.1 hnd).2)
  have hop : o ∉ lp := fun he => hnd2.1 (List.mem_append_left _ he)
  have hos : o ∉ ls := fun he => hnd2.1 (List.mem_append_right _ he)
  have hlpnd : lp.Nodup := (List.nodup_append.1 hnd2.2).1
  have hlsnd : ls.Nodup := (List.nodup_append.1 hnd2.2).2.1
  have hdisj : lp.Disjoint ls := (List.nodup_append.1 hnd2.2).2.2
  have hoh : o ≠ hdr := Ne.symm hho
  have h0cell : ∀ c, c ≠ hdr → reset_cur h hdr c = h c := fun c hc => reset_cur_ne _ _ _ hc
  have hsw : (sweep h hdr o fstk collect fuel).heap =
      set_prevSc
        ((sweepRing false ((sweepRing true (reset_cur h hdr) hdr o fstk collect [] fuel).heap)
            hdr o ((sweepRing true (reset_cur h hdr) hdr o fstk collect [] fuel).fstk)
            ((sweepRing true (reset_cur h hdr) hdr o fstk collect [] fuel).collect)
            ((sweepRing true (reset_cur h hdr) hdr o fstk collect [] fuel).events)
            fuel).heap)
        hdr
        (size_to_sizeclass
          (((sweepRing false
              ((sweepRing true (reset_cur h hdr) hdr o fstk collect [] fuel).heap) hdr o
              ((sweepRing true (reset_cur h hdr) hdr o fstk collect [] fuel).fstk)
              ((sweepRing true (reset_cur h hdr) hdr o fstk collect [] fuel).collect)
              ((sweepRing true (reset_cur h hdr) hdr o fstk collect [] fuel).events)
              fuel).heap hdr).cur)) := rfl
  set FK : List Nat := (sweepRing true (reset_cur h hdr) hdr o fstk collect [] fuel).fstk
    with hFK
  set CO : List Nat := (sweepRing true (reset_cur h hdr) hdr o fstk collect [] fuel).collect
    with hCO
  set EV : List Event := (sweepRing true (reset_cur h hdr) hdr o fstk collect [] fuel).events
    with hEV
  set R1 : Heap := (sweepRing true (reset_cur h hdr) hdr o fstk collect [] fuel).heap
    with hR1
  set R2 : Heap := (sweepRing false R1 hdr o FK CO EV fuel).heap with hR2
  rw [hsw]
  cases hnf : (h o).nfr with
  | false =>
    obtain ⟨p1cur, p1chain, p1frame, p1kept, p1kind, p1lnrT, p1lnrF, p1nextT, p1nnrF,
        p1size⟩ :=
      sweepRing_master true true (reset_cur h hdr) hdr o hdr ls fstk collect [] fuel
        (by simp [h0cell o hoh, hnf])
        (by
          have hc : isChainFrom (reset_cur h hdr) hdr ((h hdr).nnr) ls :=
            isChainFrom_congr h (reset_cur h hdr) hdr ls
              (fun b _ => reset_cur_next h hdr b) _ hchainS
          have he : ((reset_cur h hdr) hdr).nnr = (h hdr).nnr := reset_cur_nnr h hdr hdr
          show isChainFrom (reset_cur h hdr) hdr (((reset_cur h hdr) hdr).nnr) ls
          rw [he]
          exact hc)
        hlsnd hhs hhs
        (by
          intro b hb
          rw [reset_cur_kind]
          exact hkinds b (List.mem_append_right _ hb))
        (Or.inl rfl)
        (fun _ => by rw [reset_cur_lnr]; exact hlnr)
        hfs
    rw [← hR1] at p1cur p1chain p1frame p1kept p1kind p1lnrT p1lnrF p1nextT p1nnrF p1size
    have hR1o : R1 o = h o := by rw [p1frame o hoh hos, h0cell o hoh]
    have hR1size : ∀ c, (R1 c).size = (h c).size := fun c => by
      rw [p1size c, reset_cur_size]
    have hR1kinds : ∀ b ∈ lp, (R1 b).kind = (h b).kind := by
      intro b hb
      rw [p1kind b (fun he => hdisj hb he), reset_cur_kind]
    obtain ⟨p2cur, p2chain, p2frame, p2kept, p2kind, p2lnrT, p2lnrF, p2nextT, p2nnrF,
        p2size⟩ :=
      sweepRing_master false false R1 hdr o o lp FK CO EV fuel
        (by simp [hR1o, hnf])
        (by
          have hc : isChainFrom R1 o ((h hdr).next) lp :=
            isChainFrom_congr h R1 o lp
              (fun b hb => by
                rw [p1frame b (fun he => hhp (by rw [← he]; exact hb)) (fun hbs => hdisj hb hbs),
                  h0cell b (fun he => hhp (by rw [← he]; exact hb))])
              _ hchainP
          show isChainFrom R1 o ((R1 hdr).next) lp
          rw [p1nextT rfl, reset_cur_next]
          exact hc)
        hlpnd hhp hop
        (by
          intro b hb
          rw [hR1kinds b hb]
          exact hkinds b (List.mem_append_left _ hb))
        (Or.inr ⟨by rw [hR1o]; exact hiso, hoh⟩)
        (fun hs => Bool.noConfusion hs)
        hfp
    rw [← hR2] at p2cur p2chain p2frame p2kept p2kind p2lnrT p2lnrF p2nextT p2nnrF p2size
    have hkeepLp : keepOf R1 lp = keepOf h lp := keepOf_congr _ _ _ hR1kinds
    have hkeepLs0 : keepOf (reset_cur h hdr) ls = keepOf h ls :=
      keepOf_congr _ _ _ (fun b _ => reset_cur_kind h hdr b)
    have hsum1 : sumSizes R1 (keepOf h lp) = sumSizes h (keepOf h lp) :=
      sumSizes_congr _ _ _ (fun b _ => hR1size b)
    have hsum0 : sumSizes (reset_cur h hdr) (keepOf h ls) = sumSizes h (keepOf h ls) :=
      sumSizes_congr _ _ _ (fun b _ => reset_cur_size h hdr b)
    have hcur0 : ((reset_cur h hdr) hdr).cur = 0 := by simp
    refine ⟨?_, ?_, ?_, ?_, ?_, ?_⟩
    · rw [set_prevSc_cur, p2cur, p1cur, hkeepLp, hkeepLs0, hsum1, hsum0, hR1o, hcur0,
        if_neg hoh]
      simp
      omega
    · have hch := p2chain
      simp only [readLink] at hch
      rw [if_neg (fun hc => Bool.noConfusion hc.1), hkeepLp] at hch
      have hlift : isChainFrom (set_prevSc R2 hdr (size_to_sizeclass ((R2 hdr).cur))) o
          ((R2 hdr).next) (keepOf h lp) :=
        isChainFrom_congr R2 _ o _ (fun b _ => set_prevSc_next R2 hdr _ b) _ hch
      rw [set_prevSc_next]
      exact hlift
    · have hch := p1chain
      simp only [readLink] at hch
      rw [if_pos ⟨trivial, trivial⟩, hkeepLs0] at hch
      have hch2 : isChainFrom R2 hdr ((R1 hdr).nnr) (keepOf h ls) :=
        isChainFrom_congr R1 R2 hdr _
          (fun b hb => by
            have hbs := keepOf_subset h ls b hb
            rw [p2frame b (fun he => hhs (by rw [← he]; exact hbs))
              (fun hbp => hdisj hbp hbs)])
          _ hch
      have hch3 : isChainFrom (set_prevSc R2 hdr (size_to_sizeclass ((R2 hdr).cur))) hdr
          ((R1 hdr).nnr) (keepOf h ls) :=
        isChainFrom_congr R2 _ hdr _ (fun b _ => set_prevSc_next R2 hdr _ b) _ hch2
      rw [set_prevSc_nnr, p2nnrF rfl]
      exact hch3
    · rw [set_prevSc_lnr, p2lnrF rfl, p1lnrT rfl, hkeepLs0]
    · intro c
      rw [set_prevSc_size, p2size c, p1size c, reset_cur_size]
    · intro c hc1 hcp hcs
      rw [set_prevSc_ne _ _ _ _ hc1, p2frame c hc1 hcp, p1frame c hc1 hcs, h0cell c hc1]
  | true =>
    obtain ⟨p1cur, p1chain, p1frame, p1kept, p1kind, p1lnrT, p1lnrF, p1nextT, p1nnrF,
        p1size⟩ :=
      sweepRing_master true false (reset_cur h hdr) hdr o o lp fstk collect [] fuel
        (by simp [h0cell o hoh, hnf])
        (by
          have hc : isChainFrom (reset_cur h hdr) o ((h hdr).next) lp :=
            isChainFrom_congr h (reset_cur h hdr) o lp
              (fun b _ => reset_cur_next h hdr b) _ hchainP
          show isChainFrom (reset_cur h hdr) o (((reset_cur h hdr) hdr).next) lp
          rw [reset_cur_next]
          exact hc)
        hlpnd hhp hop
        (by
          intro b hb
          rw [reset_cur_kind]
          exact hkinds b (List.mem_append_left _ hb))
        (Or.inr ⟨by rw [h0cell o hoh]; exact hiso, hoh⟩)
        (fun hs => Bool.noConfusion hs)
        hfp
    rw [← hR1] at p1cur p1chain p1frame p1kept p1kind p1lnrT p1lnrF p1nextT p1nnrF p1size
    have hR1o : R1 o = h o := by rw [p1frame o hoh hop, h0cell o hoh]
    have hR1size : ∀ c, (R1 c).size = (h c).size := fun c => by
      rw [p1size c, reset_cur_size]
    have hR1kindS : ∀ b ∈ ls, (R1 b).kind = (h b).kind := by
      intro b hb
      rw [p1kind b (fun hbp => hdisj hbp hb), reset_cur_kind]
    obtain ⟨p2cur, p2chain, p2frame, p2kept, p2kind, p2lnrT, p2lnrF, p2nextT, p2nnrF,
        p2size⟩ :=
      sweepRing_master false true R1 hdr o hdr ls FK CO EV fuel
        (by simp [hR1o, hnf])
        (by
          have hc : isChainFrom R1 hdr ((h hdr).nnr) ls :=
            isChainFrom_congr h R1 hdr ls
              (fun b hb => by
                rw [p1frame b (fun he => hhs (by rw [← he]; exact hb)) (fun hbp => hdisj hbp hb),
                  h0cell b (fun he => hhs (by rw [← he]; exact hb))])
              _ hchainS
          show isChainFrom R1 hdr ((R1 hdr).nnr) ls
          rw [p1nnrF rfl, reset_cur_nnr]
          exact hc)
        hlsnd hhs hhs
        (by
          intro b hb
          rw [hR1kindS b hb]
          exact hkinds b (List.mem_append_right _ hb))
        (Or.inl rfl)
        (fun _ => by rw [p1lnrF rfl, reset_cur_lnr]; exact hlnr)
        hfs
    rw [← hR2] at p2cur p2chain p2frame p2kept p2kind p2lnrT p2lnrF p2nextT p2nnrF p2size
    have hkeepLp0 : keepOf (reset_cur h hdr) lp = keepOf h lp :=
      keepOf_congr _ _ _ (fun b _ => reset_cur_kind h hdr b)
    have hkeepLs : keepOf R1 ls = keepOf h ls := keepOf_congr _ _ _ hR1kindS
    have hsum1 : sumSizes R1 (keepOf h ls) = sumSizes h (keepOf h ls) :=
      sumSizes_congr _ _ _ (fun b _ => hR1size b)
    have hsum0 : sumSizes (reset_cur h hdr) (keepOf h lp) = sumSizes h (keepOf h lp) :=
      sumSizes_congr _ _ _ (fun b _ => reset_cur_size h hdr b)
    have hcur0 : ((reset_cur h hdr) hdr).cur = 0 := by simp
    refine ⟨?_, ?_, ?_, ?_, ?_, ?_⟩
    · rw [set_prevSc_cur, p2cur, p1cur, hkeepLs, hkeepLp0, hsum1, hsum0, hcur0, if_neg hoh]
      have hsz : ((reset_cur h hdr) o).size = (h o).size := reset_cur_size h hdr o
      rw [hsz]
      simp
    · have hch := p1chain
      simp only [readLink] at hch
      rw [if_neg (fun hc => Bool.noConfusion hc.1), hkeepLp0] at hch
      have hch2 : isChainFrom R2 o ((R1 hdr).next) (keepOf h lp) :=
        isChainFrom_congr R1 R2 o _
          (fun b hb => by
            have hbp := keepOf_subset h lp b hb
            rw [p2frame b (fun he => hhp (by rw [← he]; exact hbp))
              (fun hbs => hdisj hbp hbs)])
          _ hch
      have hch3 : isChainFrom (set_prevSc R2 hdr (size_to_sizeclass ((R2 hdr).cur))) o
          ((R1 hdr).next) (keepOf h lp) :=
        isChainFrom_congr R2 _ o _ (fun b _ => set_prevSc_next R2 hdr _ b) _ hch2
      rw [set_prevSc_next, p2nextT rfl]
      exact hch3
    · have hch := p2chain
      simp only [readLink] at hch
      rw [if_pos ⟨trivial, trivial⟩, hkeepLs] at hch
      have hch3 : isChainFrom (set_prevSc R2 hdr (size_to_sizeclass ((R2 hdr).cur))) hdr
          ((R2 hdr).nnr) (keepOf h ls) :=
        isChainFrom_congr R2 _ hdr _ (fun b _ => set_prevSc_next R2 hdr _ b) _ hch
      rw [set_prevSc_nnr]
      exact hch3
    · rw [set_prevSc_lnr, p2lnrT rfl, hkeepLs]
    · intro c
      rw [set_prevSc_size, p2size c, p1size c, reset_cur_size]
    · intro c hc1 hcp hcs
      rw [set_prevSc_ne _ _ _ _ hc1, p2frame c hc1 hcs, p1frame c hc1 hcp, h0cell c hc1]

/-- With nothing collected, the sub-region cascade of `gc` does nothing. -/
theorem drainLoop_id (fuel0 fuel : Nat) (st : LoopSt) (hc : st.collect = []) :
    drainLoop fuel0 fuel st = st := by
  cases fuel with
  | zero => rfl
  | succ f => rw [drainLoop, hc]

/-- Marking never writes a `next` link. -/
theorem markLoop_next (fuel : Nat) (h : Heap) (stack rs : List Nat) (q : Nat) :
    ((markLoop h fuel stack rs).heap q).next = (h q).next := by
  rcases markLoop_cells fuel h stack rs q with h1 | ⟨_, h2⟩
  · rw [h1]
  · rw [h2]

/-- Concrete region for the gc claims: header `1`, iso `2` (primary interior
`3`, reachable and marked), secondary ring `[4]` (unreachable finaliser
object, swept). -/
def heapC5 : Heap := fun n =>
  if n = 1 then { next := 3, nnr := 4, lnr := 4 }
  else if n = 2 then { kind := Kind.ISO, next := 1, size := 8, fields := [3] }
  else if n = 3 then { kind := Kind.UNMARKED, next := 2, size := 4 }
  else if n = 4 then
    { kind := Kind.UNMARKED, next := 1, size := 2, nfr := true, hasFin := true }
  else {}

/--
C5: after `gc` (on a run whose sweep collects no sub-regions, so the cascade
is empty), `current_memory_used` of the region equals the sum of `size()`
over all surviving objects — the iso plus every ring object the marker left
`MARKED` — since `sweep` resets the counter and `use_memory` is charged once
per survivor across both rings.
-/
theorem gc_cur_counts_surviving_sizes (h : Heap) (o hdr : Nat) (lp ls : List Nat)
    (markFuel sweepFuel : Nat)
    (hhdr : (h o).next = hdr)
    (hchainP : isChainFrom (mark h o markFuel).heap o
      (((mark h o markFuel).heap hdr).next) lp)
    (hchainS : isChainFrom (mark h o markFuel).heap hdr
      (((mark h o markFuel).heap hdr).nnr) ls)
    (hlnr : ((mark h o markFuel).heap hdr).lnr = ls.getLastD hdr)
    (hiso : ((mark h o markFuel).heap o).kind = Kind.ISO)
    (hnd : (hdr :: o :: (lp ++ ls)).Nodup)
    (hkinds : ∀ a ∈ lp ++ ls, ((mark h o markFuel).heap a).kind = Kind.MARKED ∨
      ((mark h o markFuel).heap a).kind = Kind.UNMARKED)
    (hfp : lp.length + 1 ≤ sweepFuel) (hfs : ls.length + 1 ≤ sweepFuel)
    (hcol : (sweep (mark h o markFuel).heap hdr o (mark h o markFuel).stack []
      sweepFuel).collect = []) :
    ((gc h o markFuel sweepFuel).heap hdr).cur =
      sumSizes (gc h o markFuel sweepFuel).heap
        (o :: keepOf (mark h o markFuel).heap (lp ++ ls)) := by
  subst hhdr
  have hgc : gc h o markFuel sweepFuel =
      sweep (mark h o markFuel).heap ((h o).next) o (mark h o markFuel).stack []
        sweepFuel :=
    drainLoop_id sweepFuel sweepFuel _ hcol
  rw [hgc]
  obtain ⟨scur, schP, schS, slnr, ssize, sframe⟩ :=
    sweep_master (mark h o markFuel).heap ((h o).next) o lp ls
      (mark h o markFuel).stack [] sweepFuel hchainP hchainS hlnr hiso hnd hkinds hfp hfs
  have e2 : sumSizes
      (sweep (mark h o markFuel).heap ((h o).next) o (mark h o markFuel).stack []
        sweepFuel).heap (keepOf (mark h o markFuel).heap lp) =
      sumSizes (mark h o markFuel).heap (keepOf (mark h o markFuel).heap lp) :=
    sumSizes_congr _ _ _ (fun b _ => ssize b)
  have e3 : sumSizes
      (sweep (mark h o markFuel).heap ((h o).next) o (mark h o markFuel).stack []
        sweepFuel).heap (keepOf (mark h o markFuel).heap ls) =
      sumSizes (mark h o markFuel).heap (keepOf (mark h o markFuel).heap ls) :=
    sumSizes_congr _ _ _ (fun b _ => ssize b)
  rw [scur, keepOf_append, sumSizes_cons, sumSizes_append, e2, e3, ssize o]
  omega

theorem gc_cur_counts_surviving_sizes_witness :
    ((heapC5 2).next = 1 ∧ ((mark heapC5 2 5).heap 2).kind = Kind.ISO ∧
      (sweep (mark heapC5 2 5).heap 1 2 (mark heapC5 2 5).stack [] 9).collect = []) ∧
    ((gc heapC5 2 5 9).heap 1).cur =
      sumSizes (gc heapC5 2 5 9).heap (2 :: keepOf (mark heapC5 2 5).heap ([3] ++ [4])) :=
  ⟨⟨by decide, by decide, by decide⟩,
    gc_cur_counts_surviving_sizes heapC5 2 1 [3] [4] 5 9 (by decide) (by decide) (by decide)
      (by decide) (by decide) (by decide) (by decide) (by decide) (by decide) (by decide)⟩

/--
C2: the iso object is always the last node of the primary ring — its `next`
link points at the region header — after `create`, `alloc`, `swap_root`,
`merge`, and `gc` (on a run with an empty sub-region cascade).
-/
theorem iso_last_in_primary_ring :
    (∀ (h : Heap) (hdrId oId : Nat) (d : Descriptor), hdrId ≠ oId →
      RegionWF (create h hdrId oId d) hdrId oId [oId] [] ∧
        [oId].getLast? = some oId ∧ ((create h hdrId oId d) oId).next = hdrId) ∧
    (∀ (h : Heap) (hdr iso oId : Nat) (prim sec : List Nat) (d : Descriptor),
      RegionWF h hdr iso prim sec → oId ∉ hdr :: (prim ++ sec) →
      ∃ prim' sec', RegionWF (alloc h iso oId d) hdr iso prim' sec' ∧
        prim'.getLast? = some iso ∧ ((alloc h iso oId d) iso).next = hdr) ∧
    (∀ (h : Heap) (hdr iso nroot : Nat) (prim sec : List Nat),
      RegionWF h hdr iso prim sec → nroot ∈ prim ++ sec → nroot ≠ iso →
      ∃ prim' sec', RegionWF (swap_root h iso nroot) hdr nroot prim' sec' ∧
        prim'.getLast? = some nroot ∧ ((swap_root h iso nroot) nroot).next = hdr) ∧
    (∀ (h : Heap) (hdr iso ohdr oiso : Nat) (prim sec oprim osec : List Nat),
      RegionWF h hdr iso prim sec → RegionWF h ohdr oiso oprim osec →
      (∀ a ∈ ohdr :: (oprim ++ osec), a ∉ hdr :: (prim ++ sec)) →
      ∃ prim' sec', RegionWF (merge h iso oiso) hdr iso prim' sec' ∧
        prim'.getLast? = some iso ∧ ((merge h iso oiso) iso).next = hdr) ∧
    (∀ (h : Heap) (o hdr : Nat) (lp ls : List Nat) (markFuel sweepFuel : Nat),
      (h o).next = hdr →
      isChainFrom (mark h o markFuel).heap o (((mark h o markFuel).heap hdr).next) lp →
      isChainFrom (mark h o markFuel).heap hdr (((mark h o markFuel).heap hdr).nnr) ls →
      ((mark h o markFuel).heap hdr).lnr = ls.getLastD hdr →
      ((mark h o markFuel).heap o).kind = Kind.ISO →
      (hdr :: o :: (lp ++ ls)).Nodup →
      (∀ a ∈ lp ++ ls, ((mark h o markFuel).heap a).kind = Kind.MARKED ∨
        ((mark h o markFuel).heap a).kind = Kind.UNMARKED) →
      lp.length + 1 ≤ sweepFuel → ls.length + 1 ≤ sweepFuel →
      (sweep (mark h o markFuel).heap hdr o (mark h o markFuel).stack []
        sweepFuel).collect = [] →
      ∃ lp', isChainFrom (gc h o markFuel sweepFuel).heap hdr
          (((gc h o markFuel sweepFuel).heap hdr).next) (lp' ++ [o]) ∧
        ((gc h o markFuel sweepFuel).heap o).next = hdr ∧
        ((gc h o markFuel sweepFuel).heap o).kind = Kind.ISO) := by
  refine ⟨?_, ?_, ?_, ?_, ?_⟩
  · intro h hdrId oId d hne
    have hwf := create_WF h hdrId oId d hne
    exact ⟨hwf, hwf.iso_last, hwf.iso_next _ hdrId oId [oId] []⟩
  · intro h hdr iso oId prim sec d hwf hfresh
    have hwf' := alloc_WF h hdr iso oId prim sec d hwf hfresh
    exact ⟨_, _, hwf', hwf'.iso_last, hwf'.iso_next _ hdr iso _ _⟩
  · intro h hdr iso nroot prim sec hwf hmem hni
    obtain ⟨prim', sec', hwf', hlast⟩ := swap_root_WF h hdr iso nroot prim sec hwf hmem hni
    exact ⟨prim', sec', hwf', hlast, hwf'.iso_next _ hdr nroot _ _⟩
  · intro h hdr iso ohdr oiso prim sec oprim osec hwf hwfO hsep
    obtain ⟨hwf', _, _⟩ := merge_WF h hdr iso ohdr oiso prim sec oprim osec hwf hwfO hsep
    exact ⟨_, _, hwf', hwf'.iso_last, hwf'.iso_next _ hdr iso _ _⟩
  · intro h o hdr lp ls markFuel sweepFuel hhdr hchainP hchainS hlnr hiso hnd hkinds hfp
      hfs hcol
    subst hhdr
    have hho : (h o).next ≠ o := fun he =>
      (List.nodup_cons.1 hnd).1 (by rw [he]; exact List.mem_cons_self o (lp ++ ls))
    have hnd2 := List.nodup_cons.1 ((List.nodup_cons.1 hnd).2)
    have hop : o ∉ lp := fun he => hnd2.1 (List.mem_append_left _ he)
    have hos : o ∉ ls := fun he => hnd2.1 (List.mem_append_right _ he)
    have hoh : o ≠ (h o).next := Ne.symm hho
    have hgc : gc h o markFuel sweepFuel =
        sweep (mark h o markFuel).heap ((h o).next) o (mark h o markFuel).stack []
          sweepFuel :=
      drainLoop_id sweepFuel sweepFuel _ hcol
    rw [hgc]
    obtain ⟨scur, schP, schS, slnr, ssize, sframe⟩ :=
      sweep_master (mark h o markFuel).heap ((h o).next) o lp ls
        (mark h o markFuel).stack [] sweepFuel hchainP hchainS hlnr hiso hnd hkinds hfp hfs
    have hocell : (sweep (mark h o markFuel).heap ((h o).next) o (mark h o markFuel).stack []
        sweepFuel).heap o = (mark h o markFuel).heap o := sframe o hoh hop hos
    have honext : ((mark h o markFuel).heap o).next = (h o).next :=
      markLoop_next markFuel h ((h o).fields) [] o
    refine ⟨keepOf (mark h o markFuel).heap lp, ?_, ?_, ?_⟩
    · rw [isChainFrom_append]
      refine ⟨?_, ?_⟩
      · simpa using schP
      · refine ⟨rfl, ?_⟩
        rw [hocell]
        show ((mark h o markFuel).heap o).next = (h o).next
        exact honext
    · rw [hocell, honext]
    · rw [hocell]
      exact hiso

theorem iso_last_in_primary_ring_witness :
    ((heapC5 2).next = 1 ∧ ((mark heapC5 2 5).heap 2).kind = Kind.ISO) ∧
    (∃ lp', isChainFrom (gc heapC5 2 5 9).heap 1 (((gc heapC5 2 5 9).heap 1).next)
        (lp' ++ [2]) ∧
      ((gc heapC5 2 5 9).heap 2).next = 1 ∧ ((gc heapC5 2 5 9).heap 2).kind = Kind.ISO) :=
  ⟨⟨by decide, by decide⟩,
    iso_last_in_primary_ring.2.2.2.2 heapC5 2 1 [3] [4] 5 9 (by decide) (by decide)
      (by decide) (by decide) (by decide) (by decide) (by decide) (by decide) (by decide)
      (by decide)⟩

end VeronaRT
